import Mathlib

/-! ## popsift: KD-forest index, best-bin-first query and best-2 accumulation

Shallow embedding of `msvc_build/lsh_evaluation/KDTree.{h,cpp}`,
`msvc_build/lsh_evaluation/Query.cpp` and `src/popsift/cpu_matching.cpp`.

Conventions.
* `unsigned` values are natural numbers; `UINT_MAX = 2^32 - 1` is the value of
  `std::numeric_limits<unsigned>::max()` and of `(unsigned)-1`.
* `POPSIFT_KDASSERT` / `assert` never change the state.  For the accumulators an
  assertion is embedded as the Boolean it tests (`Validate`), next to the state change of
  the function that executes it; "the assertion cannot fail" is the statement that this
  Boolean is true.  In the tree construction and in the query, which can fail in other
  ways too, a failed assertion is the error `Err.assertion`.
* Loops and recursions whose termination is not structural take fuel; running out of it
  is the error `Err.fuel`.
-/

namespace popsift

/-! ## Best-2 accumulators (`Query.cpp` 10-90, `cpu_matching.cpp` 28-51) -/

/-- The value of `std::numeric_limits<unsigned>::max()`; also `(unsigned)-1`. -/
def UINT_MAX : Nat := 4294967295

/-- `struct Q2NNAccumulator`: `distance[0..1]` and `index[0..1]`. -/
structure Q2NNAccumulator where
  distance0 : Nat
  distance1 : Nat
  index0 : Nat
  index1 : Nat
deriving DecidableEq, Repr

namespace Q2NNAccumulator

/-- The constructor `Q2NNAccumulator()`: both distances `UINT_MAX`, both indices `-1`. -/
def init : Q2NNAccumulator := ⟨UINT_MAX, UINT_MAX, UINT_MAX, UINT_MAX⟩

/-- The two checks of `Q2NNAccumulator::Validate` (`Query.cpp` 24-28). -/
def Validate (a : Q2NNAccumulator) : Bool :=
  decide (a.distance0 < a.distance1) && decide (a.index0 ≠ a.index1)

/-- State change of `Q2NNAccumulator::Update` (`Query.cpp` 31-42); the trailing
`Validate()` is the assertion `Validate (Update a d i)`. -/
def Update (a : Q2NNAccumulator) (d i : Nat) : Q2NNAccumulator :=
  if d < a.distance0 then
    ⟨d, a.distance0, i, a.index0⟩
  else if d ≠ a.distance0 ∧ d < a.distance1 then
    ⟨a.distance0, d, a.index0, i⟩
  else
    a

/-- Result of `Q2NNAccumulator::Combine` (`Query.cpp` 44-90), `a` being `*this`; the
trailing `r.Validate()` is the assertion `Validate (Combine a other)`. -/
def Combine (a other : Q2NNAccumulator) : Q2NNAccumulator :=
  if a.distance0 = other.distance0 then
    if a.distance1 < other.distance1 then
      ⟨a.distance0, a.distance1, a.index0, a.index1⟩
    else
      ⟨a.distance0, other.distance1, a.index0, other.index1⟩
  else if a.distance0 < other.distance0 then
    if other.distance0 < a.distance1 then
      ⟨a.distance0, other.distance0, a.index0, other.index0⟩
    else
      ⟨a.distance0, a.distance1, a.index0, a.index1⟩
  else
    if a.distance0 < other.distance1 then
      ⟨other.distance0, a.distance0, other.index0, a.index0⟩
    else
      ⟨other.distance0, other.distance1, other.index0, other.index1⟩

/-- Feeding a sequence of `(d, i)` pairs to `Update`, first pair first. -/
def feed (a : Q2NNAccumulator) (xs : List (Nat × Nat)) : Q2NNAccumulator :=
  xs.foldl (fun acc p => acc.Update p.1 p.2) a

/-- Slot 0 holds something other than its initial content `(+inf, -1)`. -/
def Set0 (a : Q2NNAccumulator) : Prop := a.distance0 ≠ UINT_MAX ∨ a.index0 ≠ UINT_MAX

/-- Slot 1 holds something other than its initial content `(+inf, -1)`. -/
def Set1 (a : Q2NNAccumulator) : Prop := a.distance1 ≠ UINT_MAX ∨ a.index1 ≠ UINT_MAX

instance (a : Q2NNAccumulator) : Decidable a.Set0 := by unfold Set0; infer_instance

instance (a : Q2NNAccumulator) : Decidable a.Set1 := by unfold Set1; infer_instance

/-- The six (distance, index) slots of three accumulators. -/
def slots3 (a b c : Q2NNAccumulator) : List (Nat × Nat) :=
  [(a.distance0, a.index0), (a.distance1, a.index1), (b.distance0, b.index0),
   (b.distance1, b.index1), (c.distance0, c.index0), (c.distance1, c.index1)]

end Q2NNAccumulator

/-- Lexicographic order on `(d, i)` pairs. -/
def lexLe (p q : Nat × Nat) : Prop := p.1 < q.1 ∨ (p.1 = q.1 ∧ p.2 ≤ q.2)

instance (p q : Nat × Nat) : Decidable (lexLe p q) := by unfold lexLe; infer_instance

/-- The conversion of a `size_t` to the `int` stored in `best2_accumulator::index`
(two's complement wrap-around to 32 bits). -/
def toInt32 (i : Nat) : Int :=
  Int.ofNat ((i + 2147483648) % 4294967296) - 2147483648

/-- `struct best2_accumulator` of `cpu_matching.cpp`; `F` stands for `float`. -/
structure best2_accumulator (F : Type) where
  distance0 : F
  distance1 : F
  index0 : Int
  index1 : Int

/-- State change of `best2_accumulator::update` (`cpu_matching.cpp` 39-50).  The float
comparisons `<` and `!=` are the parameters `lt` and `ne`, so nothing is assumed about
them (NaN included). -/
def best2_accumulator.update {F : Type} (lt ne : F → F → Bool) (a : best2_accumulator F)
    (d : F) (i : Nat) : best2_accumulator F :=
  if lt d a.distance0 then
    ⟨d, a.distance0, toInt32 i, a.index0⟩
  else if ne d a.distance0 && lt d a.distance1 then
    ⟨a.distance0, d, a.index0, toInt32 i⟩
  else
    a

/-! ## Descriptors, distances and bounding boxes (`KDTree.h` 19-46) -/

/-- `struct U8Descriptor`: `ufeatures[i]`, `i < 128`, are the 128 unsigned bytes. -/
structure U8Descriptor where
  ufeatures : Nat → Nat

/-- The components of a descriptor are bytes. -/
def U8Descriptor.IsU8 (d : U8Descriptor) : Prop := ∀ i, i < 128 → d.ufeatures i < 256

/-- `struct BoundingBox`. -/
structure BoundingBox where
  min : U8Descriptor
  max : U8Descriptor

/-- Modelled from the spec: `L1Distance::operator()(const U8Descriptor&, const
U8Descriptor&)` is declared in `KDTree.h` and defined outside `src/`; the spec (4.1)
gives it as the sum of absolute differences over the 128 bytes. -/
def L1Distance (a b : U8Descriptor) : Nat :=
  (List.range 128).foldl
    (fun sum i =>
      if a.ufeatures i < b.ufeatures i then sum + (b.ufeatures i - a.ufeatures i)
      else sum + (a.ufeatures i - b.ufeatures i)) 0

/-- `TreeQuery::BBDistance` (`Query.cpp` 298-310). -/
def BBDistance (bb : BoundingBox) (q : U8Descriptor) : Nat :=
  (List.range 128).foldl
    (fun sum i =>
      if q.ufeatures i < bb.min.ufeatures i then sum + (bb.min.ufeatures i - q.ufeatures i)
      else if q.ufeatures i > bb.max.ufeatures i then
        sum + (q.ufeatures i - bb.max.ufeatures i)
      else sum) 0

/-- Modelled from the spec: `GetBoundingBox` is declared in `KDTree.h` and defined
outside `src/`; the spec (3) gives the box as the component-wise extrema of the
descriptors named by `indexes`. -/
def GetBoundingBox (descriptors : Nat → U8Descriptor) (indexes : List Nat) : BoundingBox :=
  ⟨⟨fun k => indexes.foldl (fun m di => Nat.min m ((descriptors di).ufeatures k)) 255⟩,
   ⟨fun k => indexes.foldl (fun m di => Nat.max m ((descriptors di).ufeatures k)) 0⟩⟩

/-- Modelled from the spec: `Union` of two boxes is used by `KDTree::Build` and defined
outside `src/`; the spec (3) gives it as the component-wise min and max. -/
def Union (a b : BoundingBox) : BoundingBox :=
  ⟨⟨fun k => Nat.min (a.min.ufeatures k) (b.min.ufeatures k)⟩,
   ⟨fun k => Nat.max (a.max.ufeatures k) (b.max.ufeatures k)⟩⟩

/-! ## The random engine -/

/-- The `static std::mt19937_64 rng_engine` of `KDTree::Partition`, as the stream of raw
values it will produce and the position reached. -/
structure Rng where
  stream : Nat → Nat
  pos : Nat

/-- One draw of a `std::uniform_int_distribution` over `[lo, hi]` (`lo <= hi`): some
value of that interval determined by the engine, and the advanced engine. -/
def Rng.uniform (r : Rng) (lo hi : Nat) : Nat × Rng :=
  (lo + r.stream r.pos % (hi - lo + 1), ⟨r.stream, r.pos + 1⟩)

/-! ## KD-tree construction (`KDTree.cpp`) -/

/-- How a call can fail. -/
inductive Err where
  /-- `throw std::runtime_error("KDTree: partitioning failed.")`. -/
  | partition
  /-- A `POPSIFT_KDASSERT` does not hold. -/
  | assertion
  /-- Undefined behaviour: an access outside an array, an integer division by zero. -/
  | undefined
  /-- The model ran out of fuel. -/
  | fuel
deriving DecidableEq, Repr

/-- `KDTree::Node` as used by `KDTree.cpp`: `index` is the right link of an internal node
or the begin list index of a leaf, `end_` the end list index of a leaf; `dim` and `val`
are 8-bit fields. -/
structure Node where
  index : Nat
  end_ : Nat
  dim : Nat
  val : Nat
  leaf : Bool
deriving DecidableEq, Repr

/-- The node made by `_nodes.emplace_back(); _nodes.back().leaf = 1`. -/
def Node.fresh : Node := ⟨0, 0, 0, 0, true⟩

/-- The box made by `_bb.emplace_back()`. -/
def BoundingBox.fresh : BoundingBox := ⟨⟨fun _ => 0⟩, ⟨fun _ => 0⟩⟩

/-- `class KDTree`: the descriptor array (`_descriptors[i]` is `descriptors i`), its
count, the effective leaf size, the split dimensions (`_split_dimensions[k]`, `k < 5`),
and the three arrays `_bb`, `_nodes`, `_list`. -/
structure KDTree where
  descriptors : Nat → U8Descriptor
  dcount : Nat
  leaf_size : Nat
  split_dimensions : Nat → Nat
  bb : List BoundingBox
  nodes : List Node
  list : List Nat

/-- The elements `[lelem, relem)` of a list: `List(lelem, relem)`. -/
def slice (l : List Nat) (lelem relem : Nat) : List Nat := (l.drop lelem).take (relem - lelem)

/-- The smallest value of a non-empty list (`*mm.first` of `std::minmax_element`). -/
def listMin (xs : List Nat) : Nat := xs.foldl Nat.min (xs.headD 0)

/-- The largest value of a non-empty list (`*mm.second` of `std::minmax_element`). -/
def listMax (xs : List Nat) : Nat := xs.foldl Nat.max (xs.headD 0)

/-- The constructor `KDTree::KDTree` (`KDTree.cpp` 61-70): `_dcount` is `dcount`
converted to `unsigned`, `_list` has `dcount` entries of which the first `_dcount` are
set to their position; the check `dcount < UINT_MAX / 2` follows. -/
def KDTree.new (descriptors : Nat → U8Descriptor) (dcount : Nat) : Except Err KDTree :=
  if dcount < UINT_MAX / 2 then
    .ok { descriptors := descriptors
          dcount := dcount % 4294967296
          leaf_size := 0
          split_dimensions := fun _ => 0
          bb := []
          nodes := []
          list := List.range (dcount % 4294967296) ++
                    List.replicate (dcount - dcount % 4294967296) 0 }
  else .error .assertion

/-- One attempt loop of `KDTree::Partition` (`KDTree.cpp` 148-168) with `retries`
attempts left.  Returns the pivot offset, the `dim` and `val` written to the node, the
permuted `_list` and the engine.  `std::partition` is taken to keep the relative order
inside each half. -/
def KDTree.PartitionLoop (descriptors : Nat → U8Descriptor) (lelem relem : Nat) :
    Nat → Nat → List Nat → Rng → Except Err (Nat × Nat × Nat × List Nat × Rng)
  | 0, _, _, _ => .error .partition
  | retries + 1, split_dim, list, rng =>
    let proj := fun di => (descriptors di).ufeatures split_dim
    let seg := slice list lelem relem
    let mn := listMin (seg.map proj)
    let mx := listMax (seg.map proj)
    if mx - mn ≤ 1 then
      KDTree.PartitionLoop descriptors lelem relem retries (rng.uniform 0 127).1 list
        (rng.uniform 0 127).2
    else
      let split_val := (rng.uniform mn mx).1
      let rng1 := (rng.uniform mn mx).2
      let lo := seg.filter (fun di => decide (proj di < split_val))
      let hi := seg.filter (fun di => !decide (proj di < split_val))
      let list1 := list.take lelem ++ (lo ++ hi) ++ list.drop relem
      if lo.length = 0 ∨ lo.length = seg.length then
        KDTree.PartitionLoop descriptors lelem relem retries (rng1.uniform 0 127).1 list1
          (rng1.uniform 0 127).2
      else
        .ok (lo.length, split_dim % 256, split_val % 256, list1, rng1)

/-- `KDTree::Partition` (`KDTree.cpp` 137-169): the first dimension is drawn among the
five split dimensions, then up to 16 attempts are made.  Its assertion `node.leaf` is the
one `KDTree::Build` has just checked on the same node. -/
def KDTree.Partition (t : KDTree) (lelem relem : Nat) (rng : Rng) :
    Except Err (Nat × Nat × Nat × List Nat × Rng) :=
  KDTree.PartitionLoop t.descriptors lelem relem 16
    (t.split_dimensions (rng.uniform 0 4).1) t.list (rng.uniform 0 4).2

/-- `KDTree::Build(node_index, lelem, relem)` (`KDTree.cpp` 92-133).  `_nodes.size()`
stays below `2^32` (the constructor bounds `dcount` and no leaf is empty), so its
conversion to `unsigned` is the identity. -/
def KDTree.BuildRec : Nat → KDTree → Rng → Nat → Nat → Nat → Except Err (KDTree × Rng)
  | 0, _, _, _, _, _ => .error .fuel
  | fuel + 1, t, rng, node_index, lelem, relem =>
    if t.nodes.length ≠ t.bb.length then .error .assertion else
    match t.nodes[node_index]? with
    | none => .error .undefined
    | some node =>
      if node.leaf = false then .error .assertion else
      if ¬ lelem < relem then .error .assertion else
      if relem - lelem ≤ t.leaf_size then
        .ok ({ t with
                nodes := t.nodes.set node_index { node with index := lelem, end_ := relem }
                bb := t.bb.set node_index
                        (GetBoundingBox t.descriptors (slice t.list lelem relem)) }, rng)
      else
        match t.Partition lelem relem rng with
        | .error e => .error e
        | .ok (m, dim, val, list1, rng1) =>
          let melem := m + lelem
          let lc := t.nodes.length
          let t2 : KDTree :=
            { t with
                nodes := t.nodes.set node_index { node with dim := dim, val := val } ++
                          [Node.fresh]
                bb := t.bb ++ [BoundingBox.fresh]
                list := list1 }
          match KDTree.BuildRec fuel t2 rng1 lc lelem melem with
          | .error e => .error e
          | .ok (t3, rng3) =>
            let rc := t3.nodes.length
            let t4 : KDTree :=
              { t3 with nodes := t3.nodes ++ [Node.fresh], bb := t3.bb ++ [BoundingBox.fresh] }
            match KDTree.BuildRec fuel t4 rng3 rc melem relem with
            | .error e => .error e
            | .ok (t5, rng5) =>
              if lc ≠ node_index + 1 then .error .assertion else
              match t5.nodes[node_index]?, t5.bb[lc]?, t5.bb[rc]? with
              | some nd, some bl, some br =>
                .ok ({ t5 with
                        nodes := t5.nodes.set node_index { nd with index := rc, leaf := false }
                        bb := t5.bb.set node_index (Union bl br) }, rng5)
              | _, _, _ => .error .undefined

/-- `KDTree::Build(sdim, leaf_size)` (`KDTree.cpp` 73-87).  `2 * _dcount / leaf_size`
divides by zero when `leaf_size` is 0.  The recursion is given `_dcount + 1` units of
fuel (every recursive call is on a strictly shorter range). -/
def KDTree.Build (t : KDTree) (sdim : Nat → Nat) (leaf_size : Nat) (rng : Rng) :
    Except Err (KDTree × Rng) :=
  if leaf_size = 0 then .error .undefined else
  let t1 : KDTree :=
    { t with
        leaf_size := (leaf_size + 16) % 4294967296
        split_dimensions := sdim
        nodes := t.nodes ++ [Node.fresh]
        bb := t.bb ++ [BoundingBox.fresh] }
  match KDTree.BuildRec (t1.dcount + 1) t1 rng 0 0 t1.dcount with
  | .error e => .error e
  | .ok (t2, rng2) =>
    if t2.nodes.length ≠ t2.bb.length then .error .assertion else .ok (t2, rng2)

/-! ### Accessors of `KDTree` used by `Validate` and by the query -/

/-- Modelled from the spec: `KDTree::Left`; the left child of an internal node is the
next node of the array (spec 3; `lc == node_index + 1` in `KDTree::Build`). -/
def KDTree.Left (n : Nat) : Nat := n + 1

/-- Modelled from the spec: `KDTree::Right`; the right child is the link stored in the
node (`_nodes[node_index].index = rc` in `KDTree::Build`). -/
def KDTree.Right (nd : Node) : Nat := nd.index

/-- The static `Validate(kdt, n, sum)` (`KDTree.cpp` 9-30); `sum` is a `size_t`. -/
def Validate : Nat → KDTree → Nat → Nat → Except Err Nat
  | 0, _, _, _ => .error .fuel
  | fuel + 1, kdt, n, sum =>
    if ¬ n < kdt.nodes.length then .error .assertion else
    match kdt.bb[n]?, kdt.nodes[n]? with
    | some bb, some nd =>
      if ¬ (∀ i, i < 128 → bb.min.ufeatures i ≤ bb.max.ufeatures i) then .error .assertion
      else if nd.leaf then
        if ¬ (nd.index ≤ nd.end_ ∧ nd.end_ ≤ kdt.list.length) then .error .undefined
        else if ¬ (∀ x ∈ slice kdt.list nd.index nd.end_, x < kdt.dcount) then
          .error .assertion
        else
          .ok ((slice kdt.list nd.index nd.end_).foldl
                (fun s x => (s + x) % 18446744073709551616) sum)
      else
        if ¬ nd.dim < 128 then .error .assertion else
        match Validate fuel kdt (KDTree.Left n) sum with
        | .error e => .error e
        | .ok sum1 => Validate fuel kdt (KDTree.Right nd) sum1
    | _, _ => .error .undefined

/-- `Build(descriptors, dcount, sdim, leaf_size)` (`KDTree.cpp` 32-46): construct, build,
validate.  The traversal of `Validate` is given one unit of fuel per node, plus one. -/
def BuildTree (descriptors : Nat → U8Descriptor) (dcount : Nat) (sdim : Nat → Nat)
    (leaf_size : Nat) (rng : Rng) : Except Err (KDTree × Rng) :=
  match KDTree.new descriptors dcount with
  | .error e => .error e
  | .ok t0 =>
    match t0.Build sdim leaf_size rng with
    | .error e => .error e
    | .ok (t, rng1) =>
      match Validate (t.nodes.length + 1) t 0 0 with
      | .error e => .error e
      | .ok sum =>
        if sum = ((dcount + 18446744073709551615) % 18446744073709551616 * dcount)
                    % 18446744073709551616 / 2
        then .ok (t, rng1) else .error .assertion

/-- The loop of `Build(descriptors, descriptor_count, tree_count, leaf_size)`
(`KDTree.cpp` 54-55), the trees being built one after the other on the shared engine. -/
def BuildTrees (descriptors : Nat → U8Descriptor) (descriptor_count : Nat)
    (sdim : Nat → Nat) (leaf_size : Nat) : Nat → Rng → Except Err (List KDTree × Rng)
  | 0, rng => .ok ([], rng)
  | tree_count + 1, rng =>
    match BuildTree descriptors descriptor_count sdim leaf_size rng with
    | .error e => .error e
    | .ok (t, rng1) =>
      match BuildTrees descriptors descriptor_count sdim leaf_size tree_count rng1 with
      | .error e => .error e
      | .ok (ts, rng2) => .ok (t :: ts, rng2)

/-- `Build(descriptors, descriptor_count, tree_count, leaf_size)` (`KDTree.cpp` 48-57).
`GetSplitDimensions` is defined outside `src/`; the value it returns is the parameter
`sdim` (`sdim k`, `k < 5`). -/
def Build (descriptors : Nat → U8Descriptor) (descriptor_count tree_count leaf_size : Nat)
    (sdim : Nat → Nat) (rng : Rng) : Except Err (List KDTree × Rng) :=
  BuildTrees descriptors descriptor_count sdim leaf_size tree_count rng

/-! ## Best-bin-first query (`Query.cpp` 92-223) -/

/-- `Q2NNpq::Entry`: `distance` and `tree` are `unsigned short`, `node` is `unsigned`. -/
structure Entry where
  distance : Nat
  tree : Nat
  node : Nat
deriving DecidableEq, Repr

/-- `Q2NNpq::Push`: `push_back` followed by `std::push_heap`. -/
def Q2NNpq.Push (pq : List Entry) (e : Entry) : List Entry := pq ++ [e]

/-- The entry of least distance among `e :: rest` (the oldest one on a tie) and the
other entries. -/
def Q2NNpq.extractMin : Entry → List Entry → Entry × List Entry
  | e, [] => (e, [])
  | e, x :: xs =>
    if e.distance ≤ (Q2NNpq.extractMin x xs).1.distance then (e, x :: xs)
    else ((Q2NNpq.extractMin x xs).1, e :: (Q2NNpq.extractMin x xs).2)

/-- `Q2NNpq::Pop`: `front()` of the heap, which `operator<` orders with the smallest
distance on top, then `std::pop_heap` and `pop_back`.  Which entry of least distance is
on top is left open by the heap contract; the model takes the oldest. -/
def Q2NNpq.Pop (pq : List Entry) : Option (Entry × List Entry) :=
  match pq with
  | [] => none
  | e :: rest => some (Q2NNpq.extractMin e rest)

/-- `KDTree::Leaf`, a pair of pointers into the `_list` of a tree: the tree and the two
positions. -/
structure Leaf where
  tree : Nat
  first : Nat
  second : Nat
deriving DecidableEq, Repr

/-- The mutable members of `class Candidate2NNQuery`. -/
structure Candidate2NNQuery where
  pq : List Entry
  leafs : List Leaf
  found_descriptors : Nat

/-- Modelled from the spec: the overload `L1Distance(const U8Descriptor&, const
BoundingBox&)` called by `Candidate2NNQuery` is defined outside `src/`; the spec (4.5)
names it `l1_to_box`, which is what `TreeQuery::BBDistance` computes. -/
def L1DistanceBB (q : U8Descriptor) (bb : BoundingBox) : Nat := BBDistance bb q

/-- `Candidate2NNQuery::ProcessPQ` (`Query.cpp` 180-201).  `l`, `dl`, `r`, `dr` are
`unsigned short`. -/
def Candidate2NNQuery.ProcessPQ (trees : List KDTree) (descriptor : U8Descriptor)
    (c : Candidate2NNQuery) : Except Err (Bool × Candidate2NNQuery) :=
  match Q2NNpq.Pop c.pq with
  | none => .ok (false, c)
  | some (pqe, pq1) =>
    match trees[pqe.tree]? with
    | none => .error .undefined
    | some tree =>
      match tree.nodes[pqe.node]? with
      | none => .error .undefined
      | some nd =>
        if nd.leaf then
          if ¬ (nd.index ≤ nd.end_) then .error .undefined else
          .ok (true, { pq := pq1
                       leafs := c.leafs ++ [⟨pqe.tree, nd.index, nd.end_⟩]
                       found_descriptors := c.found_descriptors + (nd.end_ - nd.index) })
        else
          let l := KDTree.Left pqe.node % 65536
          let r := KDTree.Right nd % 65536
          match tree.bb[l]?, tree.bb[r]? with
          | some bl, some br =>
            let dl := L1DistanceBB descriptor bl % 65536
            let dr := L1DistanceBB descriptor br % 65536
            .ok (true, { pq := Q2NNpq.Push (Q2NNpq.Push pq1 ⟨dl, pqe.tree, l⟩) ⟨dr, pqe.tree, r⟩
                         leafs := c.leafs
                         found_descriptors := c.found_descriptors })
          | _, _ => .error .undefined

/-- The loop `while (_found_descriptors < _max_descriptors && ProcessPQ())`
(`Query.cpp` 174-175), with one unit of fuel per iteration. -/
def Candidate2NNQuery.loop (trees : List KDTree) (descriptor : U8Descriptor)
    (max_descriptors : Nat) : Nat → Candidate2NNQuery → Except Err Candidate2NNQuery
  | 0, _ => .error .fuel
  | fuel + 1, c =>
    if c.found_descriptors < max_descriptors then
      match c.ProcessPQ trees descriptor with
      | .error e => .error e
      | .ok (false, c1) => .ok c1
      | .ok (true, c1) => Candidate2NNQuery.loop trees descriptor max_descriptors fuel c1
    else .ok c

/-- The first loop of `Candidate2NNQuery::operator()` (`Query.cpp` 169-172) from tree
`i` on: the root of every tree is pushed with its box distance.  `i` and `d` are
`unsigned short`. -/
def Candidate2NNQuery.pushRoots (descriptor : U8Descriptor) :
    List KDTree → Nat → List Entry → Except Err (List Entry)
  | [], _, pq => .ok pq
  | t :: ts, i, pq =>
    match t.bb[0]? with
    | none => .error .undefined
    | some bb =>
      Candidate2NNQuery.pushRoots descriptor ts (i + 1)
        (Q2NNpq.Push pq ⟨L1DistanceBB descriptor bb % 65536, i, 0⟩)

/-- `Query2NNLeafs` (`Query.cpp` 203-207), i.e. `Candidate2NNQuery::operator()`
(167-178).  With 65536 trees or more the `unsigned short` counter of the first loop
wraps around and the loop does not end. -/
def Query2NNLeafs (fuel : Nat) (trees : List KDTree) (descriptor : U8Descriptor)
    (max_descriptors : Nat) : Except Err (List Leaf) :=
  if 65536 ≤ trees.length then .error .fuel else
  match Candidate2NNQuery.pushRoots descriptor trees 0 [] with
  | .error e => .error e
  | .ok pq =>
    match Candidate2NNQuery.loop trees descriptor max_descriptors fuel ⟨pq, [], 0⟩ with
    | .error e => .error e
    | .ok c => .ok c.leafs

/-- The entries `*leaf.first` visited by the inner loop of `Query2NN` for one leaf. -/
def Leaf.entries (trees : List KDTree) (leaf : Leaf) : Except Err (List Nat) :=
  match trees[leaf.tree]? with
  | none => .error .undefined
  | some t =>
    if leaf.first ≤ leaf.second ∧ leaf.second ≤ t.list.length then
      .ok (slice t.list leaf.first leaf.second)
    else .error .undefined

/-- The scoring loops of `Query2NN` (`Query.cpp` 215-220) over the entries of one leaf;
the `Validate()` at the end of every `Update` is checked. -/
def Query2NN.score (descriptors : Nat → U8Descriptor) (descriptor : U8Descriptor) :
    List Nat → Q2NNAccumulator → Except Err Q2NNAccumulator
  | [], acc => .ok acc
  | i :: rest, acc =>
    if (acc.Update (L1Distance descriptor (descriptors i)) i).Validate then
      Query2NN.score descriptors descriptor rest
        (acc.Update (L1Distance descriptor (descriptors i)) i)
    else .error .assertion

/-- The outer loop of `Query2NN` over the leaves. -/
def Query2NN.scoreLeafs (trees : List KDTree) (descriptors : Nat → U8Descriptor)
    (descriptor : U8Descriptor) : List Leaf → Q2NNAccumulator → Except Err Q2NNAccumulator
  | [], acc => .ok acc
  | leaf :: rest, acc =>
    match leaf.entries trees with
    | .error e => .error e
    | .ok xs =>
      match Query2NN.score descriptors descriptor xs acc with
      | .error e => .error e
      | .ok acc1 => Query2NN.scoreLeafs trees descriptors descriptor rest acc1

/-- `Query2NN` (`Query.cpp` 209-223); `trees.front()` of an empty forest is undefined. -/
def Query2NN (fuel : Nat) (trees : List KDTree) (descriptor : U8Descriptor)
    (max_descriptors : Nat) : Except Err (Nat × Nat) :=
  match trees with
  | [] => .error .undefined
  | t :: _ =>
    match Query2NNLeafs fuel trees descriptor max_descriptors with
    | .error e => .error e
    | .ok leafs =>
      match Query2NN.scoreLeafs trees t.descriptors descriptor leafs Q2NNAccumulator.init with
      | .error e => .error e
      | .ok acc => .ok (acc.index0, acc.index1)

/-- The subtree below a node of the arrays: a leaf with its range `[b, e)` of `_list`, the
entries of that range and its box; or an internal node with its `dim`, `val`, box and its
two children. -/
inductive TreeView where
  | leaf (b e : Nat) (xs : List Nat) (box : BoundingBox)
  | node (dim val : Nat) (box : BoundingBox) (l r : TreeView)

/-- Number of nodes. -/
def TreeView.size : TreeView → Nat
  | leaf _ _ _ _ => 1
  | node _ _ _ l r => 1 + l.size + r.size

/-- The descriptor indices of the leaves, left to right. -/
def TreeView.indices : TreeView → List Nat
  | leaf _ _ xs _ => xs
  | node _ _ _ l r => l.indices ++ r.indices

/-- The box of the root. -/
def TreeView.box : TreeView → BoundingBox
  | leaf _ _ _ bx => bx
  | node _ _ bx _ _ => bx

/-- The leaf ranges, left to right. -/
def TreeView.leaves : TreeView → List (Nat × Nat)
  | leaf b e _ _ => [(b, e)]
  | node _ _ _ l r => l.leaves ++ r.leaves

/-- `t` is stored at node `n` of the arrays `nodes` and `bbs`, in the layout of
`KDTree::Build`: the left child follows its parent, the right child follows the left
subtree and is the link of the parent. -/
def TreeView.Rep (nodes : List Node) (bbs : List BoundingBox) : Nat → TreeView → Prop
  | n, leaf b e _ bx =>
    ∃ nd, nodes[n]? = some nd ∧ nd.leaf = true ∧ nd.index = b ∧ nd.end_ = e ∧
      bbs[n]? = some bx
  | n, node dim val bx l r =>
    ∃ nd, nodes[n]? = some nd ∧ nd.leaf = false ∧ nd.dim = dim ∧ nd.val = val ∧
      nd.index = n + 1 + l.size ∧ bbs[n]? = some bx ∧
      Rep nodes bbs (n + 1) l ∧ Rep nodes bbs (n + 1 + l.size) r

/-- The leaves of `t` are the non-empty consecutive ranges that make up `[lo, hi)`, and
every leaf holds as many entries as its range is long. -/
def TreeView.Shape : TreeView → Nat → Nat → Prop
  | leaf b e xs _, lo, hi => b = lo ∧ e = hi ∧ lo < hi ∧ xs.length = hi - lo
  | node _ _ _ l r, lo, hi => ∃ m, Shape l lo m ∧ Shape r m hi

/-- Every leaf box is the box of the descriptors of the leaf and every other box is the
union of the boxes of the two children. -/
def TreeView.BoxOK (descriptors : Nat → U8Descriptor) : TreeView → Prop
  | leaf _ _ xs bx => bx = GetBoundingBox descriptors xs
  | node _ _ bx l r => bx = Union l.box r.box ∧ BoxOK descriptors l ∧ BoxOK descriptors r

/-- At every internal node the descriptors of the left subtree are below `val` along
`dim` and those of the right subtree are not. -/
def TreeView.SplitOK (descriptors : Nat → U8Descriptor) : TreeView → Prop
  | leaf _ _ _ _ => True
  | node dim val _ l r =>
    (∀ i ∈ l.indices, (descriptors i).ufeatures dim < val) ∧
    (∀ i ∈ r.indices, val ≤ (descriptors i).ufeatures dim) ∧
    SplitOK descriptors l ∧ SplitOK descriptors r

/-- What `KDTree::Build(node_index, lelem, relem)` leaves untouched between the state
`st` on entry and the state `st1` on exit. -/
def KDTree.Frame (st st1 : KDTree) (node_index lelem relem : Nat) : Prop :=
  (∀ j, j < node_index → st1.nodes[j]? = st.nodes[j]? ∧ st1.bb[j]? = st.bb[j]?) ∧
  st1.list.length = st.list.length ∧
  (∀ j, j < lelem ∨ relem ≤ j → st1.list[j]? = st.list[j]?) ∧
  (slice st1.list lelem relem).Perm (slice st.list lelem relem) ∧
  st1.descriptors = st.descriptors ∧ st1.dcount = st.dcount ∧
  st1.leaf_size = st.leaf_size ∧ st1.split_dimensions = st.split_dimensions

/-- The entries of every leaf of `t` are the entries of its range of `list`. -/
def TreeView.ListOK (list : List Nat) : TreeView → Prop
  | leaf b e xs _ => xs = slice list b e
  | node _ _ _ l r => ListOK list l ∧ ListOK list r

/-- `s` is `t` or one of the subtrees of `t`. -/
def TreeView.Sub (s : TreeView) : TreeView → Prop
  | leaf b e xs bx => s = leaf b e xs bx
  | node dim val bx l r => s = node dim val bx l r ∨ Sub s l ∨ Sub s r

/-- The descriptor indices held by the leaves of the subtree of node `n`, left to right:
the traversal of `Validate` (`KDTree.cpp` 19-29), collecting the list entries. -/
def KDTree.subtreeIndices (t : KDTree) : Nat → Nat → List Nat
  | 0, _ => []
  | fuel + 1, n =>
    match t.nodes[n]? with
    | none => []
    | some nd =>
      if nd.leaf then slice t.list nd.index nd.end_
      else KDTree.subtreeIndices t fuel (KDTree.Left n) ++
           KDTree.subtreeIndices t fuel (KDTree.Right nd)

/-- The concatenation of the list entries of all leaf nodes, in the order of `_nodes`. -/
def KDTree.allLeafEntries (t : KDTree) : List Nat :=
  ((t.nodes.filter (fun nd => nd.leaf)).map (fun nd => slice t.list nd.index nd.end_)).flatten

/-- The tree `t` over the `N` descriptors `descs` is laid out as the value `tv`. -/
def KDTree.Built (t : KDTree) (descs : Nat → U8Descriptor) (N : Nat) (tv : TreeView) : Prop :=
  TreeView.Rep t.nodes t.bb 0 tv ∧ TreeView.Shape tv 0 N ∧ tv.indices = t.list ∧
  TreeView.ListOK t.list tv ∧ TreeView.BoxOK descs tv ∧
  t.nodes.length = tv.size ∧ t.bb.length = tv.size ∧
  t.list.Perm (List.range N) ∧ t.descriptors = descs ∧ t.dcount = N ∧ t.list.length = N

/-- Eighteen descriptors that differ in components 0 and 1 only: descriptor 0 is
`(0, 0)`, descriptor 1 is `(8, 0)`, the sixteen others are `(3, 50)`. -/
def exDescs : Nat → U8Descriptor := fun i =>
  ⟨fun k => if k = 0 then (if i = 0 then 0 else if i = 1 then 8 else 3)
            else if k = 1 then (if i ≤ 1 then 0 else 50) else 0⟩

/-- The query `(4, 0)`, at L1 distance 4 of descriptors 0 and 1 and at distance 51 of the
others. -/
def exQ : U8Descriptor := ⟨fun k => if k = 0 then 4 else 0⟩

/-- An engine whose first raw values are 0 (split dimension `sdim[0]`) and 3 (split
value 3). -/
def exRng : Rng := ⟨fun n => [0, 3].getD n 0, 0⟩

/-- The split dimensions of the example: dimension 0 five times. -/
def exSdim : Nat → Nat := fun _ => 0

/-- The tree made by the constructor for the example. -/
def exTree0 : KDTree :=
  { descriptors := exDescs, dcount := 18, leaf_size := 0, split_dimensions := fun _ => 0,
    bb := [], nodes := [], list := List.range 18 }

/-- The tree built for the example: the root splits dimension 0 at 3, the left leaf is
`[0, 1)`, the right leaf `[1, 18)`. -/
def exTree : KDTree :=
  { descriptors := exDescs, dcount := 18, leaf_size := 17, split_dimensions := exSdim,
    bb := [Union (GetBoundingBox exDescs [0])
              (GetBoundingBox exDescs [1, 2, 3, 4, 5, 6, 7, 8, 9, 10, 11, 12, 13, 14, 15, 16, 17]),
           GetBoundingBox exDescs [0],
           GetBoundingBox exDescs [1, 2, 3, 4, 5, 6, 7, 8, 9, 10, 11, 12, 13, 14, 15, 16, 17]],
    nodes := [⟨2, 0, 0, 3, false⟩, ⟨0, 1, 0, 0, true⟩, ⟨1, 18, 0, 0, true⟩],
    list := List.range 18 }

/-! ## Scoring and the invariant of the query loop -/

/-- The entries of a leaf range, when the range is valid. -/
def Leaf.list (trees : List KDTree) (leaf : Leaf) : List Nat :=
  match trees[leaf.tree]? with
  | none => []
  | some t => slice t.list leaf.first leaf.second

/-- The number of nodes of the subtree of node `n`, by the traversal of `Validate`. -/
def KDTree.subtreeSize (t : KDTree) : Nat → Nat → Nat
  | 0, _ => 0
  | fuel + 1, n =>
    match t.nodes[n]? with
    | none => 0
    | some nd =>
      if nd.leaf then 1
      else 1 + KDTree.subtreeSize t fuel (KDTree.Left n) +
           KDTree.subtreeSize t fuel (KDTree.Right nd)

/-- The descriptor indices below the node of a heap entry. -/
def Entry.indices (trees : List KDTree) (e : Entry) : List Nat :=
  match trees[e.tree]? with
  | none => []
  | some t => t.subtreeIndices t.nodes.length e.node

/-- The number of nodes below (and including) the node of a heap entry. -/
def Entry.size (trees : List KDTree) (e : Entry) : Nat :=
  match trees[e.tree]? with
  | none => 0
  | some t => t.subtreeSize t.nodes.length e.node

/-- The heap entry `e` names a node of a built tree of the forest. -/
def Entry.OK (trees : List KDTree) (descs : Nat → U8Descriptor) (N : Nat) (e : Entry) : Prop :=
  ∃ t tv s, trees[e.tree]? = some t ∧ t.Built descs N tv ∧ t.nodes.length ≤ 65536 ∧
    TreeView.Sub s tv ∧ TreeView.Rep t.nodes t.bb e.node s

/-- The invariant of the loop of `Candidate2NNQuery::operator()` on a forest of `T` built
trees over `N` descriptors: the heap entries name nodes of the trees, the leaves found are
valid ranges, `_found_descriptors` plus the number of entries below the heap entries is
`T * N`, and every descriptor index is in a leaf found or below a heap entry. -/
def Candidate2NNQuery.Inv (trees : List KDTree) (descs : Nat → U8Descriptor) (N T : Nat)
    (c : Candidate2NNQuery) : Prop :=
  (∀ e ∈ c.pq, e.OK trees descs N) ∧
  (∀ leaf ∈ c.leafs, leaf.entries trees = .ok (leaf.list trees) ∧
    ∀ i ∈ leaf.list trees, i < N) ∧
  c.found_descriptors + (c.pq.map (fun e => (e.indices trees).length)).sum = T * N ∧
  (∀ i, i < N → i ∈ (c.leafs.map (fun leaf => leaf.list trees)).flatten ∨
    ∃ e ∈ c.pq, i ∈ e.indices trees)

/-- Eighteen descriptors for a forest of two trees: descriptor 0 is `(0, 0)`, descriptor 1
is `(30, 0)`, the sixteen others are `(3, 50)`; their L1 distances to the query `(4, 0)`
are 4, 26 and 51. -/
def exDescs2 : Nat → U8Descriptor := fun i =>
  ⟨fun k => if k = 0 then (if i = 0 then 0 else if i = 1 then 30 else 3)
            else if k = 1 then (if i ≤ 1 then 0 else 50) else 0⟩

/-- An engine whose raw values are 0, 3, 0, 3: both trees split dimension `sdim[0]` at 3. -/
def exRng2 : Rng := ⟨fun n => [0, 3, 0, 3].getD n 0, 0⟩

/-- The tree that `Build` makes, twice, for `exDescs2`: the left leaf holds descriptor 0,
the right leaf the seventeen others. -/
def exTree2 : KDTree :=
  { descriptors := exDescs2, dcount := 18, leaf_size := 17, split_dimensions := exSdim,
    bb := [Union (GetBoundingBox exDescs2 [0])
              (GetBoundingBox exDescs2 [1, 2, 3, 4, 5, 6, 7, 8, 9, 10, 11, 12, 13, 14, 15, 16, 17]),
           GetBoundingBox exDescs2 [0],
           GetBoundingBox exDescs2 [1, 2, 3, 4, 5, 6, 7, 8, 9, 10, 11, 12, 13, 14, 15, 16, 17]],
    nodes := [⟨2, 0, 0, 3, false⟩, ⟨0, 1, 0, 0, true⟩, ⟨1, 18, 0, 0, true⟩],
    list := List.range 18 }

/-! ## The attempts of `KDTree::Partition`, one by one -/

/-- The state of `KDTree::Partition` at the start of an attempt: the current splitting
dimension, `_list` and the engine. -/
structure Attempt where
  split_dim : Nat
  list : List Nat
  rng : Rng

/-- An attempt fails, in the words of the spec (4.3.1, steps 3 and 4): `max - min <= 1`
along the current dimension over the range, or the partition around `split_val` (drawn in
`[min, max]`) puts every element of the range on one side. -/
def Attempt.fails (descriptors : Nat → U8Descriptor) (lelem relem : Nat) (a : Attempt) :
    Bool :=
  let vals := (slice a.list lelem relem).map (fun di => (descriptors di).ufeatures a.split_dim)
  let split_val := (a.rng.uniform (listMin vals) (listMax vals)).1
  decide (listMax vals - listMin vals ≤ 1) ||
    decide ((vals.filter (fun v => decide (v < split_val))).length = 0) ||
    decide ((vals.filter (fun v => decide (v < split_val))).length = vals.length)

/-- The state in which the attempt after a failed one starts: a dimension drawn among all
128 and, if the failed attempt went as far as partitioning, the partitioned `_list`. -/
def Attempt.next (descriptors : Nat → U8Descriptor) (lelem relem : Nat) (a : Attempt) :
    Attempt :=
  let proj := fun di => (descriptors di).ufeatures a.split_dim
  let seg := slice a.list lelem relem
  let mn := listMin (seg.map proj)
  let mx := listMax (seg.map proj)
  if mx - mn ≤ 1 then ⟨(a.rng.uniform 0 127).1, a.list, (a.rng.uniform 0 127).2⟩
  else
    let split_val := (a.rng.uniform mn mx).1
    let rng1 := (a.rng.uniform mn mx).2
    let lo := seg.filter (fun di => decide (proj di < split_val))
    let hi := seg.filter (fun di => !decide (proj di < split_val))
    ⟨(rng1.uniform 0 127).1, a.list.take lelem ++ (lo ++ hi) ++ a.list.drop relem,
     (rng1.uniform 0 127).2⟩

/-- The state at the start of attempt `k` (counted from 0) when all attempts before it
have failed. -/
def Attempt.nth (descriptors : Nat → U8Descriptor) (lelem relem : Nat) :
    Nat → Attempt → Attempt
  | 0, a => a
  | k + 1, a => Attempt.nth descriptors lelem relem k (a.next descriptors lelem relem)

/-- What `KDTree::Partition` returns from an attempt that does not fail: the pivot offset,
the `dim` and `val` of the node, the partitioned `_list` and the engine. -/
def Attempt.result (descriptors : Nat → U8Descriptor) (lelem relem : Nat) (a : Attempt) :
    Nat × Nat × Nat × List Nat × Rng :=
  let proj := fun di => (descriptors di).ufeatures a.split_dim
  let seg := slice a.list lelem relem
  let mn := listMin (seg.map proj)
  let mx := listMax (seg.map proj)
  let split_val := (a.rng.uniform mn mx).1
  let lo := seg.filter (fun di => decide (proj di < split_val))
  let hi := seg.filter (fun di => !decide (proj di < split_val))
  (lo.length, a.split_dim % 256, split_val % 256,
   a.list.take lelem ++ (lo ++ hi) ++ a.list.drop relem, (a.rng.uniform mn mx).2)

/-- The state in which `KDTree::Partition` makes its first attempt: the dimension is
drawn among the five split dimensions. -/
def Attempt.first (t : KDTree) (rng : Rng) : Attempt :=
  ⟨t.split_dimensions (rng.uniform 0 4).1, t.list, (rng.uniform 0 4).2⟩

/-! ## Matching on the CPU (`cpu_matching.cpp`) -/

/-- The `float` operations that `cpu_matching.cpp` executes, over a type `F` standing for
`float`: the comparisons `<` and `!=`, the arithmetic of `l2_dist_sq`, the conversion of
the integer 0, the constant `FLT_MAX`, and `ratioLt a b` for the test
`a / b < 0.8*0.8` (a `float` quotient compared with a `double` constant). -/
structure FloatOps (F : Type) where
  lt : F → F → Bool
  ne : F → F → Bool
  add : F → F → F
  sub : F → F → F
  mul : F → F → F
  zero : F
  FLT_MAX : F
  ratioLt : F → F → Bool

/-- `l2_dist_sq` (`cpu_matching.cpp` 16-24); a `Descriptor` is given by its 128
`features`. -/
def l2_dist_sq {F : Type} (ops : FloatOps F) (a b : Nat → F) : F :=
  (List.range 128).foldl
    (fun sum i => ops.add sum (ops.mul (ops.sub (a i) (b i)) (ops.sub (a i) (b i)))) ops.zero

/-- The constructor of `best2_accumulator` (`cpu_matching.cpp` 33-37). -/
def best2_accumulator.init {F : Type} (ops : FloatOps F) : best2_accumulator F :=
  ⟨ops.FLT_MAX, ops.FLT_MAX, -1, -1⟩

/-- `best2_accumulator::update` with its two assertions (`cpu_matching.cpp` 39-50).
`assert` does nothing when the macro `NDEBUG` is defined. -/
def best2_accumulator.updateChecked {F : Type} (NDEBUG : Bool) (ops : FloatOps F)
    (a : best2_accumulator F) (d : F) (i : Nat) : Except Err (best2_accumulator F) :=
  if !NDEBUG && !ops.lt (a.update ops.lt ops.ne d i).distance0
      (a.update ops.lt ops.ne d i).distance1 then .error .assertion
  else if !NDEBUG && decide ((a.update ops.lt ops.ne d i).index0 =
      (a.update ops.lt ops.ne d i).index1) then .error .assertion
  else .ok (a.update ops.lt ops.ne d i)

/-- The inner loop of `match_one` (`cpu_matching.cpp` 61-64) over the descriptors
`desc[0 .. num_descs-1]` of the feature `vb[ib]`. -/
def match_one.scanFeature {F : Type} (NDEBUG : Bool) (ops : FloatOps F) (d1 : Nat → F)
    (ib : Nat) : List (Nat → F) → best2_accumulator F → Except Err (best2_accumulator F)
  | [], best2 => .ok best2
  | desc :: rest, best2 =>
    match best2.updateChecked NDEBUG ops (l2_dist_sq ops d1 desc) ib with
    | .error e => .error e
    | .ok best2a => match_one.scanFeature NDEBUG ops d1 ib rest best2a

/-- The outer loop of `match_one` (`cpu_matching.cpp` 59-65) from feature `ib` on. -/
def match_one.scan {F : Type} (NDEBUG : Bool) (ops : FloatOps F) (d1 : Nat → F) :
    List (List (Nat → F)) → Nat → best2_accumulator F → Except Err (best2_accumulator F)
  | [], _, best2 => .ok best2
  | fb :: rest, ib, best2 =>
    match match_one.scanFeature NDEBUG ops d1 ib fb best2 with
    | .error e => .error e
    | .ok best2a => match_one.scan NDEBUG ops d1 rest (ib + 1) best2a

/-- The end of `match_one` (`cpu_matching.cpp` 67-73): two assertions, then the ratio
test. -/
def match_one.finish {F : Type} (NDEBUG : Bool) (ops : FloatOps F)
    (best2 : best2_accumulator F) : Except Err Int :=
  if !NDEBUG && decide (best2.index0 = -1) then .error .assertion
  else if !NDEBUG && !ops.ne best2.distance1 ops.zero then .error .assertion
  else if best2.index1 = -1 then .ok best2.index0
  else if ops.ratioLt best2.distance0 best2.distance1 then .ok best2.index0
  else .ok (-1)

/-- `match_one` (`cpu_matching.cpp` 55-74).  A `Feature` is given by the list of its
descriptors `desc[0 .. num_descs-1]`. -/
def match_one {F : Type} (NDEBUG : Bool) (ops : FloatOps F) (d1 : Nat → F)
    (vb : List (List (Nat → F))) : Except Err Int :=
  match match_one.scan NDEBUG ops d1 vb 0 (best2_accumulator.init ops) with
  | .error e => .error e
  | .ok best2 => match_one.finish NDEBUG ops best2

/-- The inner loop of `cpu_matching` (`cpu_matching.cpp` 87-94) over the descriptors of
one feature of `ffa`: the value left in `matches[ia]`, initially -1. -/
def cpu_matching.matchFeature {F : Type} (NDEBUG : Bool) (ops : FloatOps F)
    (vb : List (List (Nat → F))) : List (Nat → F) → Except Err Int
  | [] => .ok (-1)
  | desc :: rest =>
    match match_one NDEBUG ops desc vb with
    | .error e => .error e
    | .ok ib =>
      if ib ≠ -1 then .ok ib else cpu_matching.matchFeature NDEBUG ops vb rest

/-- The outer loop of `cpu_matching` (`cpu_matching.cpp` 85-95). -/
def cpu_matching.matchAll {F : Type} (NDEBUG : Bool) (ops : FloatOps F)
    (vb : List (List (Nat → F))) : List (List (Nat → F)) → Except Err (List Int)
  | [] => .ok []
  | fa :: rest =>
    match cpu_matching.matchFeature NDEBUG ops vb fa with
    | .error e => .error e
    | .ok m =>
      match cpu_matching.matchAll NDEBUG ops vb rest with
      | .error e => .error e
      | .ok ms => .ok (m :: ms)

/-- `cpu_matching` (`cpu_matching.cpp` 76-98); `ffa` and `ffb` are the feature lists
`ffa.list()` and `ffb.list()`. -/
def cpu_matching {F : Type} (NDEBUG : Bool) (ops : FloatOps F)
    (ffa ffb : List (List (Nat → F))) : Except Err (List Int) :=
  if ffa.isEmpty || ffb.isEmpty then .ok []
  else cpu_matching.matchAll NDEBUG ops ffb ffa

/-! ### IEEE 754 arithmetic on floats of integer value -/

/-- The integer nearest to `n / d`, the even one on a tie (the rounding of IEEE 754). -/
def roundHalfEven (n d : Nat) : Nat :=
  if 2 * (n % d) < d then n / d
  else if d < 2 * (n % d) then n / d + 1
  else if (n / d) % 2 = 0 then n / d else n / d + 1

/-- The least `e` from `e0` on with `2^(p-1) <= (n / d) * 2^e`, searched for `fuel`
steps. -/
def binadeShift (p n d : Nat) : Nat → Nat → Nat
  | 0, e => e
  | fuel + 1, e => if 2 ^ (p - 1) * d ≤ n * 2 ^ e then e else binadeShift p n d fuel (e + 1)

/-- The rounding of `n / d` (with `0 < n / d < 2^p`) to `p` significant bits: the pair
`(m, e)` stands for `m / 2^e`.  The exponent range is not limited. -/
def roundTo (p n d : Nat) : Nat × Nat :=
  (roundHalfEven (n * 2 ^ binadeShift p n d (p + d) 0) d, binadeShift p n d (p + d) 0)

/-- The `double` constant `0.8*0.8`: the literal `0.8` is rounded to 53 bits and so is
the product. -/
def ratioThreshold : Nat × Nat :=
  roundTo 53 ((roundTo 53 4 5).1 * (roundTo 53 4 5).1) (2 ^ (2 * (roundTo 53 4 5).2))

/-- The test `distance[0] / distance[1] < 0.8*0.8` of `match_one` for `float` distances
of integer value `d0`, `d1` below `2^24`: the quotient is rounded to 24 bits, converted
to `double` (exactly) and compared with the constant.  A division by zero gives an
infinity or a NaN, which are not below the constant. -/
def ieeeRatioLt (d0 d1 : Nat) : Bool :=
  if d1 = 0 then false
  else decide ((roundTo 24 d0 d1).1 * 2 ^ ratioThreshold.2 <
                ratioThreshold.1 * 2 ^ (roundTo 24 d0 d1).2)

/-- The `float` operations on floats of integer value: sums, differences and products
are exact as long as they stay within `2^24` in magnitude, as they do for the squared
distance of descriptors with components in `0 .. 255`. -/
def intFloatOps : FloatOps Int :=
  { lt := fun a b => decide (a < b)
    ne := fun a b => decide (a ≠ b)
    add := fun a b => a + b
    sub := fun a b => a - b
    mul := fun a b => a * b
    zero := 0
    FLT_MAX := 340282346638528859811704183484516925440
    ratioLt := fun a b => ieeeRatioLt a.toNat b.toNat }

/-- The descriptor whose component 0 is `v` and whose other components are 0. -/
def exDesc (v : Int) : Nat → Int := fun k => if k = 0 then v else 0

/-! ## `best2_accumulator` against `Q2NNAccumulator` -/

/-- The state of a `best2_accumulator` after the updates `xs`, assertions left aside. -/
def best2_accumulator.feed {F : Type} (ops : FloatOps F) (a : best2_accumulator F)
    (xs : List (F × Nat)) : best2_accumulator F :=
  xs.foldl (fun acc p => acc.update ops.lt ops.ne p.1 p.2) a

/-- The two assertions of `best2_accumulator::update` hold after each of the updates
`xs`. -/
def best2_accumulator.ChecksOK {F : Type} (ops : FloatOps F) :
    best2_accumulator F → List (F × Nat) → Prop
  | _, [] => True
  | a, p :: rest =>
    ops.lt (a.update ops.lt ops.ne p.1 p.2).distance0
      (a.update ops.lt ops.ne p.1 p.2).distance1 = true ∧
    (a.update ops.lt ops.ne p.1 p.2).index0 ≠ (a.update ops.lt ops.ne p.1 p.2).index1 ∧
    best2_accumulator.ChecksOK ops (a.update ops.lt ops.ne p.1 p.2) rest

/-- The `(distance, index)` pairs that `match_one` feeds to `update`, in order, for the
features `vb` numbered from `ib` on. -/
def match_one.pairs {F : Type} (ops : FloatOps F) (d1 : Nat → F) :
    List (List (Nat → F)) → Nat → List (F × Nat)
  | [], _ => []
  | fb :: rest, ib =>
    fb.map (fun desc => (l2_dist_sq ops d1 desc, ib)) ++ match_one.pairs ops d1 rest (ib + 1)

/-- The `best2_accumulator` over floats of integer value that holds the content of a
`Q2NNAccumulator`: `UINT_MAX` stands for `FLT_MAX` and for the index -1. -/
def toBest2 (a : Q2NNAccumulator) : best2_accumulator Int :=
  ⟨if a.distance0 = UINT_MAX then intFloatOps.FLT_MAX else (a.distance0 : Int),
   if a.distance1 = UINT_MAX then intFloatOps.FLT_MAX else (a.distance1 : Int),
   toInt32 a.index0, toInt32 a.index1⟩

/-- An index slot of `best2_accumulator` holds -1 or a feature index below `n`. -/
def IdxBelow (n : Nat) (x : Int) : Prop := x = -1 ∨ ∃ i, i < n ∧ x = toInt32 i

/-- The pairs of `match_one.pairs` for features of one descriptor each, over floats of
integer value, with the distances as naturals. -/
def match_one.natPairs (d1 : Nat → Int) : List (Nat → Int) → Nat → List (Nat × Nat)
  | [], _ => []
  | desc :: rest, ib =>
    ((l2_dist_sq intFloatOps d1 desc).toNat, ib) :: match_one.natPairs d1 rest (ib + 1)

/-! ## The entries popped by the candidate enumerator -/

/-- The loop of `Candidate2NNQuery::operator()` as in `Candidate2NNQuery.loop`, recording
in addition the entries popped from the heap, in order. -/
def Candidate2NNQuery.loopTrace (trees : List KDTree) (descriptor : U8Descriptor)
    (max_descriptors : Nat) :
    Nat → Candidate2NNQuery → List Entry → Except Err (Candidate2NNQuery × List Entry)
  | 0, _, _ => .error .fuel
  | fuel + 1, c, tr =>
    if c.found_descriptors < max_descriptors then
      match c.ProcessPQ trees descriptor with
      | .error e => .error e
      | .ok (false, c1) => .ok (c1, tr)
      | .ok (true, c1) =>
        Candidate2NNQuery.loopTrace trees descriptor max_descriptors fuel c1
          (match Q2NNpq.Pop c.pq with
           | some (e, _) => tr ++ [e]
           | none => tr)
    else .ok (c, tr)

/-- `Query2NNLeafs` as in the definition of that name, returning in addition the entries
popped from the heap, in order. -/
def Query2NNLeafs.trace (fuel : Nat) (trees : List KDTree) (descriptor : U8Descriptor)
    (max_descriptors : Nat) : Except Err (List Leaf × List Entry) :=
  if 65536 ≤ trees.length then .error .fuel else
  match Candidate2NNQuery.pushRoots descriptor trees 0 [] with
  | .error e => .error e
  | .ok pq =>
    match Candidate2NNQuery.loopTrace trees descriptor max_descriptors fuel ⟨pq, [], 0⟩ [] with
    | .error e => .error e
    | .ok (c, tr) => .ok (c.leafs, tr)

/-- The heap entry `e` names a node of a built tree of the forest and carries the box
distance of that node to `q`. -/
def Entry.DistOK (trees : List KDTree) (descs : Nat → U8Descriptor) (N : Nat)
    (q : U8Descriptor) (e : Entry) : Prop :=
  ∃ t tv s, trees[e.tree]? = some t ∧ t.Built descs N tv ∧ t.nodes.length ≤ 65536 ∧
    TreeView.Sub s tv ∧ TreeView.Rep t.nodes t.bb e.node s ∧
    e.distance = L1DistanceBB q s.box

/-- The leaf range that `ProcessPQ` appends when it pops the entry `e`, if the node of `e`
is a leaf. -/
def Entry.leafRange (trees : List KDTree) (e : Entry) : Option Leaf :=
  match trees[e.tree]? with
  | none => none
  | some t =>
    match t.nodes[e.node]? with
    | none => none
    | some nd => if nd.leaf then some ⟨e.tree, nd.index, nd.end_⟩ else none

/-! ## Leaf ranges and the box distance of the spec -/

/-- The ranges `[index, end)` of the leaves of the subtree of node `n`, left to right:
the traversal of `Validate` (`KDTree.cpp` 19-29), collecting `kdt.List(n)` of every
leaf. -/
def KDTree.subtreeLeaves (t : KDTree) : Nat → Nat → List (Nat × Nat)
  | 0, _ => []
  | fuel + 1, n =>
    match t.nodes[n]? with
    | none => []
    | some nd =>
      if nd.leaf then [(nd.index, nd.end_)]
      else KDTree.subtreeLeaves t fuel (KDTree.Left n) ++
           KDTree.subtreeLeaves t fuel (KDTree.Right nd)

/-- The ranges of `rs` are non-empty, the first one begins at `lo`, each one begins where
the one before ends, and the last one ends at `hi`. -/
def Tiles : List (Nat × Nat) → Nat → Nat → Prop
  | [], lo, hi => lo = hi
  | r :: rest, lo, hi => r.1 = lo ∧ r.1 < r.2 ∧ Tiles rest r.2 hi

/-- The box distance in the words of the spec (4.1, `l1_to_box`): every component `i`
contributes `max(bb.min[i] - q[i], q[i] - bb.max[i], 0)`, over the integers. -/
def l1_to_box (q : U8Descriptor) (bb : BoundingBox) : Int :=
  ((List.range 128).map (fun i =>
    max (max ((bb.min.ufeatures i : Int) - (q.ufeatures i : Int))
             ((q.ufeatures i : Int) - (bb.max.ufeatures i : Int))) 0)).sum

/-- The descriptor `q` lies inside the box `bb`. -/
def BoundingBox.Contains (bb : BoundingBox) (q : U8Descriptor) : Prop :=
  ∀ i, i < 128 → bb.min.ufeatures i ≤ q.ufeatures i ∧ q.ufeatures i ≤ bb.max.ufeatures i

/-! ## A tree split along a dimension drawn on retry -/

/-- Split dimensions for the example: dimension 5, along which all descriptors of
`exDescs` are 0, five times. -/
def exSdim5 : Nat → Nat := fun _ => 5

/-- An engine whose first raw values are 0 (split dimension `sdim[0]`), 1 (the dimension
drawn on retry) and 10 (split value 10). -/
def exRngRetry : Rng := ⟨fun n => [0, 1, 10].getD n 0, 0⟩

/-- The tree built for `exDescs` with the split dimensions `exSdim5` and the engine
`exRngRetry`: the first attempt of the root (dimension 5) fails, the second one splits
dimension 1 at 10; the left leaf is `[0, 2)`, the right leaf `[2, 18)`. -/
def exTreeRetry : KDTree :=
  { descriptors := exDescs, dcount := 18, leaf_size := 17, split_dimensions := exSdim5,
    bb := [Union (GetBoundingBox exDescs [0, 1])
              (GetBoundingBox exDescs [2, 3, 4, 5, 6, 7, 8, 9, 10, 11, 12, 13, 14, 15, 16, 17]),
           GetBoundingBox exDescs [0, 1],
           GetBoundingBox exDescs [2, 3, 4, 5, 6, 7, 8, 9, 10, 11, 12, 13, 14, 15, 16, 17]],
    nodes := [⟨2, 0, 1, 10, false⟩, ⟨0, 2, 0, 0, true⟩, ⟨2, 18, 0, 0, true⟩],
    list := List.range 18 }

/-! ## The leaves of a forest -/

/-- The leaves below the node of a heap entry, left to right, as `Query2NNLeafs` returns
them: the tree and the range of its `_list`. -/
def Entry.leaves (trees : List KDTree) (e : Entry) : List Leaf :=
  match trees[e.tree]? with
  | none => []
  | some t => (t.subtreeLeaves t.nodes.length e.node).map (fun r => ⟨e.tree, r.1, r.2⟩)

/-- `KDTree::Node` as declared in `KDTree.h` (51-57): `left` and `right` are the links of
an internal node, or the begin and end list index of a leaf; `dim` and `val` are 8-bit
fields and `leaf` is a 1-bit field (`KDTree.cpp` names the first two `index` and
`end`). -/
structure KDTree.Node where
  left : Nat
  right : Nat
  dim : Nat
  val : Nat
  leaf : Bool
deriving DecidableEq, Repr

/-- How `KDTree::List(const Node&)` can fail: the `std::logic_error` it throws, with its
message, or undefined behaviour. -/
inductive ListError where
  | logic_error (what : String)
  | undefined
deriving DecidableEq, Repr

/-- `KDTree::List(const Node&)` (`KDTree.h` 68-72).  The two pointers
`_list.data() + node.left` and `_list.data() + node.right` are given by their positions in
`_list`; forming a pointer beyond the end of the array is undefined. -/
def KDTree.List (t : KDTree) (node : KDTree.Node) : Except ListError (Nat × Nat) :=
  if node.leaf then .error (.logic_error "KDTree::List: node is not a leaf")
  else if node.left ≤ t.list.length ∧ node.right ≤ t.list.length then
    .ok (node.left, node.right)
  else .error .undefined

/-! ## Theorems -/

open Q2NNAccumulator

theorem feed_append (a : Q2NNAccumulator) (xs ys : List (Nat × Nat)) :
    a.feed (xs ++ ys) = (a.feed xs).feed ys := by
  simp [Q2NNAccumulator.feed, List.foldl_append]

theorem feed_cons (a : Q2NNAccumulator) (p : Nat × Nat) (xs : List (Nat × Nat)) :
    a.feed (p :: xs) = (a.Update p.1 p.2).feed xs := rfl

/-- C5: `Update(d, i)` shifts slot 0 into slot 1 and stores `(d, i)` in slot 0 when
`d < dist[0]`; otherwise, when `d != dist[0]` and `d < dist[1]`, it replaces slot 1 and
keeps slot 0; otherwise it changes nothing.  The same holds for
`best2_accumulator::update` with the float comparisons it executes. -/
theorem C5_update_cases :
    (∀ (a : Q2NNAccumulator) (d i : Nat),
      (d < a.distance0 → a.Update d i = ⟨d, a.distance0, i, a.index0⟩) ∧
      (¬ d < a.distance0 → d ≠ a.distance0 → d < a.distance1 →
        a.Update d i = ⟨a.distance0, d, a.index0, i⟩) ∧
      (¬ d < a.distance0 → ¬ (d ≠ a.distance0 ∧ d < a.distance1) → a.Update d i = a)) ∧
    (∀ (F : Type) (lt ne : F → F → Bool) (a : best2_accumulator F) (d : F) (i : Nat),
      (lt d a.distance0 = true →
        a.update lt ne d i = ⟨d, a.distance0, toInt32 i, a.index0⟩) ∧
      (lt d a.distance0 = false → ne d a.distance0 = true → lt d a.distance1 = true →
        a.update lt ne d i = ⟨a.distance0, d, a.index0, toInt32 i⟩) ∧
      (lt d a.distance0 = false → ¬ (ne d a.distance0 = true ∧ lt d a.distance1 = true) →
        a.update lt ne d i = a) ∧
      (i < 2147483648 → toInt32 i = (i : Int))) := by
  refine ⟨?_, ?_⟩
  · intro a d i
    refine ⟨?_, ?_, ?_⟩
    · intro h; simp [Q2NNAccumulator.Update, h]
    · intro h1 h2 h3; simp [Q2NNAccumulator.Update, h1, h2, h3]
    · intro h1 h2; simp only [Q2NNAccumulator.Update, if_neg h1, if_neg h2]
  · intro F lt ne a d i
    refine ⟨?_, ?_, ?_, ?_⟩
    · intro h; simp [best2_accumulator.update, h]
    · intro h1 h2 h3; simp [best2_accumulator.update, h1, h2, h3]
    · intro h1 h2
      have : (ne d a.distance0 && lt d a.distance1) = false := by
        cases hn : ne d a.distance0 <;> cases hl : lt d a.distance1 <;> simp_all
      simp [best2_accumulator.update, h1, this]
    · intro h
      unfold toInt32
      have : (i + 2147483648) % 4294967296 = i + 2147483648 := Nat.mod_eq_of_lt (by omega)
      rw [this]
      simp

/-! ### Invariants of `Update` sequences -/

/-- What a fresh accumulator looks like after any sequence of `Update` calls: either it
is still fresh, or slot 0 holds a pair that was fed, `distance0 < distance1`, and slot 1
is either fresh or holds a pair that was fed. -/
theorem feed_init_inv (xs : List (Nat × Nat)) :
    init.feed xs = init ∨
    ((init.feed xs).distance0 < (init.feed xs).distance1 ∧
      (init.feed xs).distance1 ≤ UINT_MAX ∧
      ((init.feed xs).distance0, (init.feed xs).index0) ∈ xs ∧
      (((init.feed xs).distance1 = UINT_MAX ∧ (init.feed xs).index1 = UINT_MAX) ∨
        ((init.feed xs).distance1, (init.feed xs).index1) ∈ xs)) := by
  induction xs using List.reverseRecOn with
  | nil => left; rfl
  | append_singleton xs p ih =>
    rw [feed_append]
    generalize init.feed xs = a at ih
    obtain ⟨d, i⟩ := p
    have hstep : a.feed [(d, i)] = a.Update d i := rfl
    rw [hstep]
    rcases ih with h | ⟨h1, h2, h3, h4⟩
    · subst h
      by_cases hd : d < UINT_MAX
      · right
        simp [Q2NNAccumulator.Update, init, hd]
      · left
        have : ¬ (d ≠ UINT_MAX ∧ d < UINT_MAX) := fun h => hd h.2
        simp [Q2NNAccumulator.Update, init, hd]
    · right
      obtain ⟨d0, d1, i0, i1⟩ := a
      simp only at h1 h2 h3 h4
      unfold Q2NNAccumulator.Update
      simp only
      split_ifs with c1 c2 <;> dsimp only
      · exact ⟨c1, by omega, List.mem_append_right _ (List.mem_singleton.2 rfl),
          Or.inr (List.mem_append_left _ h3)⟩
      · exact ⟨by omega, by omega, List.mem_append_left _ h3,
          Or.inr (List.mem_append_right _ (List.mem_singleton.2 rfl))⟩
      · refine ⟨h1, h2, List.mem_append_left _ h3, ?_⟩
        rcases h4 with h4 | h4
        · exact Or.inl h4
        · exact Or.inr (List.mem_append_left _ h4)

/-- Slot 0 after a sequence of `Update` calls is the first pair of least distance, as
soon as one distance below `UINT_MAX` was fed; before that the accumulator is fresh. -/
theorem feed_init_first_min (xs : List (Nat × Nat)) :
    ((∀ p ∈ xs, UINT_MAX ≤ p.1) → init.feed xs = init) ∧
    ((∃ p ∈ xs, p.1 < UINT_MAX) →
      ∃ pre post, xs = pre ++ ((init.feed xs).distance0, (init.feed xs).index0) :: post ∧
        (∀ p ∈ pre, (init.feed xs).distance0 < p.1) ∧
        (∀ p ∈ post, (init.feed xs).distance0 ≤ p.1)) := by
  induction xs using List.reverseRecOn with
  | nil => exact ⟨fun _ => rfl, fun ⟨p, hp, _⟩ => absurd hp (List.not_mem_nil p)⟩
  | append_singleton xs p ih =>
    obtain ⟨ih1, ih2⟩ := ih
    rw [feed_append]
    obtain ⟨d, i⟩ := p
    have hstep : ∀ a : Q2NNAccumulator, a.feed [(d, i)] = a.Update d i := fun _ => rfl
    rw [hstep]
    by_cases hall : ∀ p ∈ xs, UINT_MAX ≤ p.1
    · have hinit := ih1 hall
      rw [hinit]
      constructor
      · intro h
        have hd : UINT_MAX ≤ d := h (d, i) (by simp)
        have h1 : ¬ d < UINT_MAX := by omega
        simp [Q2NNAccumulator.Update, init, h1]
      · rintro ⟨p, hp, hlt⟩
        have hd : d < UINT_MAX := by
          rcases List.mem_append.1 hp with h | h
          · exact absurd (hall p h) (by omega)
          · simp only [List.mem_singleton] at h
            subst h; exact hlt
        refine ⟨xs, [], ?_, ?_, ?_⟩
        · simp [Q2NNAccumulator.Update, init, hd]
        · intro q hq
          have := hall q hq
          simp only [Q2NNAccumulator.Update, init, hd, if_true]
          omega
        · intro q hq; exact absurd hq (List.not_mem_nil q)
    · have hex : ∃ p ∈ xs, p.1 < UINT_MAX := by
        push_neg at hall
        exact hall
      obtain ⟨pre, post, hxs, hpre, hpost⟩ := ih2 hex
      generalize init.feed xs = a at hxs hpre hpost
      obtain ⟨d0, d1, i0, i1⟩ := a
      simp only at hxs hpre hpost
      constructor
      · intro h
        obtain ⟨p, hp, hlt⟩ := hex
        exact absurd (h p (List.mem_append_left _ hp)) (by omega)
      · intro _
        unfold Q2NNAccumulator.Update
        simp only
        have hmin : ∀ q ∈ xs, d0 ≤ q.1 := by
          intro q hq
          rw [hxs] at hq
          rcases List.mem_append.1 hq with h | h
          · exact le_of_lt (hpre q h)
          · rcases List.mem_cons.1 h with h | h
            · subst h; exact le_refl _
            · exact hpost q h
        split_ifs with c1 c2
        · refine ⟨xs, [], rfl, ?_, ?_⟩
          · intro q hq; exact lt_of_lt_of_le c1 (hmin q hq)
          · intro q hq; exact absurd hq (List.not_mem_nil q)
        · refine ⟨pre, post ++ [(d, i)], ?_, hpre, ?_⟩
          · simp [hxs]
          · intro q hq
            rcases List.mem_append.1 hq with h | h
            · exact hpost q h
            · simp only [List.mem_singleton] at h
              subst h; simp only; omega
        · refine ⟨pre, post ++ [(d, i)], ?_, hpre, ?_⟩
          · simp [hxs]
          · intro q hq
            rcases List.mem_append.1 hq with h | h
            · exact hpost q h
            · simp only [List.mem_singleton] at h
              subst h; simp only; omega

/-! ### C6 -/

/-- C6 (as stated) fails: feeding `(5, 7)` and then `(3, 7)` to a fresh accumulator
sets both slots and leaves `index[0] = index[1] = 7`. -/
theorem C6_counterexample :
    ¬ (∀ k, (init.feed ([(5, 7), (3, 7)].take k)).Set0 →
        (init.feed ([(5, 7), (3, 7)].take k)).Set1 →
        (init.feed ([(5, 7), (3, 7)].take k)).distance0 <
          (init.feed ([(5, 7), (3, 7)].take k)).distance1 ∧
        (init.feed ([(5, 7), (3, 7)].take k)).index0 ≠
          (init.feed ([(5, 7), (3, 7)].take k)).index1) := by
  intro h
  have h2 := h 2
  revert h2
  decide

/-- C6 (amended): after every call of any sequence of `Update` calls on a fresh
accumulator, `distance[0] < distance[1]` whenever both slots are set; and
`index[0] != index[1]` whenever both slots are set, provided no index is fed with two
different distances (as in `Query2NN`, where the distance is computed from the index). -/
theorem C6_update_invariant (xs : List (Nat × Nat)) (k : Nat) :
    ((init.feed (xs.take k)).Set0 → (init.feed (xs.take k)).Set1 →
      (init.feed (xs.take k)).distance0 < (init.feed (xs.take k)).distance1) ∧
    ((∀ p ∈ xs, ∀ q ∈ xs, p.2 = q.2 → p.1 = q.1) →
      (init.feed (xs.take k)).Set0 → (init.feed (xs.take k)).Set1 →
      (init.feed (xs.take k)).index0 ≠ (init.feed (xs.take k)).index1) := by
  have hinv := feed_init_inv (xs.take k)
  have hsub : ∀ p, p ∈ xs.take k → p ∈ xs := fun p hp => List.mem_of_mem_take hp
  generalize init.feed (xs.take k) = a at hinv
  rcases hinv with h | ⟨h1, h2, h3, h4⟩
  · subst h
    constructor
    · intro h0; exact absurd h0 (by decide)
    · intro _ h0; exact absurd h0 (by decide)
  · refine ⟨fun _ _ => h1, ?_⟩
    intro hcons _ hs1 heq
    rcases h4 with ⟨h4, h5⟩ | h4
    · rcases hs1 with h | h
      · exact h h4
      · exact h h5
    · have := hcons _ (hsub _ h3) _ (hsub _ h4) heq
      simp only at this
      omega

/-- Witness for C6: the sequence `(5, 7), (3, 8)` after its second call. -/
theorem C6_update_invariant_witness :
    (init.feed ([(5, 7), (3, 8)].take 2)).distance0 <
      (init.feed ([(5, 7), (3, 8)].take 2)).distance1 ∧
    (init.feed ([(5, 7), (3, 8)].take 2)).index0 ≠
      (init.feed ([(5, 7), (3, 8)].take 2)).index1 :=
  ⟨(C6_update_invariant [(5, 7), (3, 8)] 2).1 (by decide) (by decide),
   (C6_update_invariant [(5, 7), (3, 8)] 2).2 (by decide) (by decide) (by decide)⟩

/-! ### C7 -/

/-- C7 (as stated) fails: after `(5, 9)` and `(5, 3)` slot 0 is `(5, 9)`, which is not
the lexicographically smallest pair `(5, 3)`. -/
theorem C7_counterexample :
    ¬ ((init.feed [(5, 9), (5, 3)]).distance0 ≤ (init.feed [(5, 9), (5, 3)]).distance1 ∧
       ((init.feed [(5, 9), (5, 3)]).distance0, (init.feed [(5, 9), (5, 3)]).index0) ∈
          [(5, 9), (5, 3)] ∧
       ∀ p ∈ [(5, 9), (5, 3)],
          lexLe ((init.feed [(5, 9), (5, 3)]).distance0,
                 (init.feed [(5, 9), (5, 3)]).index0) p) := by
  decide

/-- C7 (amended): after any sequence of `Update` calls on a fresh accumulator
`dist[0] <= dist[1]`; and as soon as one fed distance is below `UINT_MAX`,
`(dist[0], idx[0])` is the first pair of least distance in the sequence: every earlier
pair has a strictly larger distance, every later pair a distance at least as large. -/
theorem C7_slot0_first_minimum (xs : List (Nat × Nat)) :
    (init.feed xs).distance0 ≤ (init.feed xs).distance1 ∧
    ((∃ p ∈ xs, p.1 < UINT_MAX) →
      ∃ pre post, xs = pre ++ ((init.feed xs).distance0, (init.feed xs).index0) :: post ∧
        (∀ p ∈ pre, (init.feed xs).distance0 < p.1) ∧
        (∀ p ∈ post, (init.feed xs).distance0 ≤ p.1)) := by
  refine ⟨?_, (feed_init_first_min xs).2⟩
  rcases feed_init_inv xs with h | h
  · rw [h]; decide
  · exact le_of_lt h.1

/-- Witness for C7: the sequence `(5, 9), (5, 3)` keeps the first pair `(5, 9)`. -/
theorem C7_slot0_first_minimum_witness :
    ∃ pre post, [(5, 9), (5, 3)] =
        pre ++ ((init.feed [(5, 9), (5, 3)]).distance0,
                (init.feed [(5, 9), (5, 3)]).index0) :: post ∧
      (∀ p ∈ pre, (init.feed [(5, 9), (5, 3)]).distance0 < p.1) ∧
      (∀ p ∈ post, (init.feed [(5, 9), (5, 3)]).distance0 ≤ p.1) :=
  (C7_slot0_first_minimum [(5, 9), (5, 3)]).2 ⟨(5, 9), by decide, by decide⟩

/-! ### C8, C9, C10: `Combine` -/

/-- The two distances of `Combine` do not depend on the order of the operands. -/
theorem Combine_distance_comm (a b : Q2NNAccumulator) :
    (a.Combine b).distance0 = (b.Combine a).distance0 ∧
    (a.Combine b).distance1 = (b.Combine a).distance1 := by
  obtain ⟨a0, a1, ai0, ai1⟩ := a
  obtain ⟨b0, b1, bi0, bi1⟩ := b
  unfold Q2NNAccumulator.Combine
  dsimp only
  split_ifs <;> dsimp only <;> omega

/-- C8 (as stated) fails: `a = (3, 5; 10, 11)` and `b = (3, 7; 20, 21)` both satisfy the
invariant, but `a.Combine(b)` has `index[0] = 10` and `b.Combine(a)` has
`index[0] = 20`. -/
theorem C8_counterexample :
    ¬ ((init.feed [(3, 10), (5, 11)]).Validate = true →
       (init.feed [(3, 20), (7, 21)]).Validate = true →
       (init.feed [(3, 10), (5, 11)]).Combine (init.feed [(3, 20), (7, 21)]) =
       (init.feed [(3, 20), (7, 21)]).Combine (init.feed [(3, 10), (5, 11)])) := by
  decide

/-- C8 (amended): for all accumulators `a` and `b`, `a.Combine(b)` and `b.Combine(a)`
have the same two distances; they are the same accumulator (indices included) exactly
when `a.dist[0] != b.dist[0]`, or when the operands agree on `index[0]` and either
`a.dist[1] != b.dist[1]` or they agree on `index[1]`. -/
theorem C8_combine_comm (a b : Q2NNAccumulator) :
    (a.Combine b).distance0 = (b.Combine a).distance0 ∧
    (a.Combine b).distance1 = (b.Combine a).distance1 ∧
    (a.Combine b = b.Combine a ↔
      (a.distance0 ≠ b.distance0 ∨
        (a.index0 = b.index0 ∧ (a.distance1 ≠ b.distance1 ∨ a.index1 = b.index1)))) := by
  refine ⟨(Combine_distance_comm a b).1, (Combine_distance_comm a b).2, ?_⟩
  obtain ⟨a0, a1, ai0, ai1⟩ := a
  obtain ⟨b0, b1, bi0, bi1⟩ := b
  unfold Q2NNAccumulator.Combine
  dsimp only
  split_ifs <;> rw [Q2NNAccumulator.mk.injEq] <;> omega

/-- C9 (as stated) fails: with `a = (1, 2; 10, 11)`, `b = (1, 3; 20, 21)` and
`c = (2, 3; 30, 31)`, all satisfying the invariant, `(a.Combine(b)).Combine(c)` has
`index[1] = 11` while `a.Combine(b.Combine(c))` has `index[1] = 30`. -/
theorem C9_counterexample :
    ¬ ((init.feed [(1, 10), (2, 11)]).Validate = true →
       (init.feed [(1, 20), (3, 21)]).Validate = true →
       (init.feed [(2, 30), (3, 31)]).Validate = true →
       ((init.feed [(1, 10), (2, 11)]).Combine (init.feed [(1, 20), (3, 21)])).Combine
          (init.feed [(2, 30), (3, 31)]) =
       (init.feed [(1, 10), (2, 11)]).Combine
          ((init.feed [(1, 20), (3, 21)]).Combine (init.feed [(2, 30), (3, 31)]))) := by
  decide

theorem Combine_distance0 (a b : Q2NNAccumulator) :
    (a.Combine b).distance0 = min a.distance0 b.distance0 := by
  unfold Q2NNAccumulator.Combine
  split_ifs <;> dsimp only <;> omega

theorem Combine_index0 (a b : Q2NNAccumulator) :
    (a.Combine b).index0 = if a.distance0 ≤ b.distance0 then a.index0 else b.index0 := by
  unfold Q2NNAccumulator.Combine
  split_ifs <;> dsimp only <;> omega

theorem Combine_distance1 (a b : Q2NNAccumulator) :
    (a.Combine b).distance1 =
      if a.distance0 = b.distance0 then min a.distance1 b.distance1
      else if a.distance0 < b.distance0 then min b.distance0 a.distance1
      else min a.distance0 b.distance1 := by
  unfold Q2NNAccumulator.Combine
  split_ifs <;> dsimp only <;> omega

/-- The two distances and `index[0]` of a double `Combine` do not depend on the
grouping. -/
theorem Combine_assoc_distance (a b c : Q2NNAccumulator) :
    ((a.Combine b).Combine c).distance0 = (a.Combine (b.Combine c)).distance0 ∧
    ((a.Combine b).Combine c).distance1 = (a.Combine (b.Combine c)).distance1 ∧
    ((a.Combine b).Combine c).index0 = (a.Combine (b.Combine c)).index0 := by
  simp only [Combine_distance0, Combine_distance1, Combine_index0]
  obtain ⟨a0, a1, ai0, ai1⟩ := a
  obtain ⟨b0, b1, bi0, bi1⟩ := b
  obtain ⟨c0, c1, ci0, ci1⟩ := c
  dsimp only
  refine ⟨?_, ?_, ?_⟩
  · omega
  · split_ifs <;> omega
  · split_ifs <;> omega

/-- Each slot of `a.Combine(b)` is one of the four slots of the operands. -/
theorem Combine_slot_mem (a b : Q2NNAccumulator) :
    ((a.Combine b).distance0, (a.Combine b).index0) ∈
      [(a.distance0, a.index0), (a.distance1, a.index1),
       (b.distance0, b.index0), (b.distance1, b.index1)] ∧
    ((a.Combine b).distance1, (a.Combine b).index1) ∈
      [(a.distance0, a.index0), (a.distance1, a.index1),
       (b.distance0, b.index0), (b.distance1, b.index1)] := by
  unfold Q2NNAccumulator.Combine
  split_ifs <;> simp

/-- Each slot of a double `Combine`, in either grouping, is one of the six slots of the
operands. -/
theorem Combine3_slot_mem (a b c : Q2NNAccumulator) :
    (((a.Combine b).Combine c).distance1, ((a.Combine b).Combine c).index1) ∈ slots3 a b c ∧
    ((a.Combine (b.Combine c)).distance1, (a.Combine (b.Combine c)).index1) ∈
      slots3 a b c := by
  have hab := Combine_slot_mem a b
  have hbc := Combine_slot_mem b c
  have h1 := (Combine_slot_mem (a.Combine b) c).2
  have h2 := (Combine_slot_mem a (b.Combine c)).2
  simp only [List.mem_cons, List.mem_singleton, List.mem_nil_iff, or_false] at hab hbc h1 h2
  simp only [slots3, List.mem_cons, List.mem_singleton, List.mem_nil_iff, or_false]
  constructor
  · rcases h1 with h | h | h | h
    · rw [h]; rcases hab.1 with h | h | h | h <;> simp [h]
    · rw [h]; rcases hab.2 with h | h | h | h <;> simp [h]
    · simp [h]
    · simp [h]
  · rcases h2 with h | h | h | h
    · simp [h]
    · simp [h]
    · rw [h]; rcases hbc.1 with h | h | h | h <;> simp [h]
    · rw [h]; rcases hbc.2 with h | h | h | h <;> simp [h]

/-- C9 (amended): for all accumulators `a`, `b`, `c`, the two groupings
`(a.Combine(b)).Combine(c)` and `a.Combine(b.Combine(c))` have the same two distances
and the same `index[0]`; they are the same accumulator (`index[1]` included) whenever
slots of equal distance among the six input slots carry equal indices (in particular
when the six input distances are pairwise distinct). -/
theorem C9_combine_assoc (a b c : Q2NNAccumulator) :
    ((a.Combine b).Combine c).distance0 = (a.Combine (b.Combine c)).distance0 ∧
    ((a.Combine b).Combine c).distance1 = (a.Combine (b.Combine c)).distance1 ∧
    ((a.Combine b).Combine c).index0 = (a.Combine (b.Combine c)).index0 ∧
    ((∀ p ∈ slots3 a b c, ∀ q ∈ slots3 a b c, p.1 = q.1 → p.2 = q.2) →
      (a.Combine b).Combine c = a.Combine (b.Combine c)) := by
  obtain ⟨h0, h1, h2⟩ := Combine_assoc_distance a b c
  refine ⟨h0, h1, h2, ?_⟩
  intro hcons
  obtain ⟨m1, m2⟩ := Combine3_slot_mem a b c
  have hi := hcons _ m1 _ m2 h1
  generalize (a.Combine b).Combine c = l at *
  generalize a.Combine (b.Combine c) = r at *
  obtain ⟨l0, l1, li0, li1⟩ := l
  obtain ⟨r0, r1, ri0, ri1⟩ := r
  simp only at h0 h1 h2 hi
  rw [h0, h1, h2, hi]

/-- Witness for C9: three accumulators with six distinct distances. -/
theorem C9_combine_assoc_witness :
    ((init.feed [(1, 10), (4, 11)]).Combine (init.feed [(2, 20), (5, 21)])).Combine
        (init.feed [(3, 30), (6, 31)]) =
    (init.feed [(1, 10), (4, 11)]).Combine
        ((init.feed [(2, 20), (5, 21)]).Combine (init.feed [(3, 30), (6, 31)])) :=
  (C9_combine_assoc (init.feed [(1, 10), (4, 11)]) (init.feed [(2, 20), (5, 21)])
    (init.feed [(3, 30), (6, 31)])).2.2.2 (by decide)

/-- C10: for accumulators with `dist[0] < dist[1]`, `a.Combine(b)` has `distance[0]`
the smallest of the four input distances and `distance[1]` the smallest input distance
above it, so `distance[0] < distance[1]`; when `a.dist[0] == b.dist[0]`, slot 0 carries
`a`'s index and slot 1 is the slot 1 of `a` or of `b` with the smaller distance. -/
theorem C10_combine_two_smallest (a b : Q2NNAccumulator)
    (ha : a.distance0 < a.distance1) (hb : b.distance0 < b.distance1) :
    (a.Combine b).distance0 ∈ [a.distance0, a.distance1, b.distance0, b.distance1] ∧
    (∀ x ∈ [a.distance0, a.distance1, b.distance0, b.distance1],
      (a.Combine b).distance0 ≤ x) ∧
    (a.Combine b).distance1 ∈ [a.distance0, a.distance1, b.distance0, b.distance1] ∧
    (a.Combine b).distance0 < (a.Combine b).distance1 ∧
    (∀ x ∈ [a.distance0, a.distance1, b.distance0, b.distance1],
      (a.Combine b).distance0 < x → (a.Combine b).distance1 ≤ x) ∧
    (a.distance0 = b.distance0 →
      (a.Combine b).distance0 = a.distance0 ∧
      (a.Combine b).index0 = a.index0 ∧
      (a.Combine b).distance1 = min a.distance1 b.distance1 ∧
      (((a.Combine b).distance1, (a.Combine b).index1) = (a.distance1, a.index1) ∨
       ((a.Combine b).distance1, (a.Combine b).index1) = (b.distance1, b.index1))) := by
  obtain ⟨a0, a1, ai0, ai1⟩ := a
  obtain ⟨b0, b1, bi0, bi1⟩ := b
  dsimp only at ha hb
  simp only [List.mem_cons, List.mem_singleton, List.mem_nil_iff, or_false,
    forall_eq_or_imp, forall_eq, Prod.mk.injEq]
  unfold Q2NNAccumulator.Combine
  dsimp only
  split_ifs <;> dsimp only <;> omega

/-- Witness for C10: `a = (3, 5; 10, 11)` and `b = (3, 7; 20, 21)`. -/
theorem C10_combine_two_smallest_witness :
    ((⟨3, 5, 10, 11⟩ : Q2NNAccumulator).Combine ⟨3, 7, 20, 21⟩).distance0 <
      ((⟨3, 5, 10, 11⟩ : Q2NNAccumulator).Combine ⟨3, 7, 20, 21⟩).distance1 :=
  (C10_combine_two_smallest ⟨3, 5, 10, 11⟩ ⟨3, 7, 20, 21⟩ (by decide) (by decide)).2.2.2.1

/-! ### Construction of the tree: slices, partition, `KDTree::Build` -/

open TreeView

theorem slice_getElem? (L : List Nat) (a b k : Nat) :
    (slice L a b)[k]? = if k < b - a then L[a + k]? else none := by
  unfold slice
  rw [List.getElem?_take]
  split_ifs with h
  · rw [List.getElem?_drop]
  · rfl

theorem slice_congr (L L' : List Nat) (a b : Nat)
    (h : ∀ j, a ≤ j → j < b → L'[j]? = L[j]?) : slice L' a b = slice L a b := by
  apply List.ext_getElem?
  intro k
  rw [slice_getElem?, slice_getElem?]
  split_ifs with hk
  · exact h (a + k) (by omega) (by omega)
  · rfl

theorem slice_length (L : List Nat) (a b : Nat) (hb : b ≤ L.length) :
    (slice L a b).length = b - a := by
  unfold slice
  rw [List.length_take, List.length_drop]
  omega

theorem slice_split (L : List Nat) (a m b : Nat) (h1 : a ≤ m) (h2 : m ≤ b) :
    slice L a b = slice L a m ++ slice L m b := by
  unfold slice
  have e1 : b - a = (m - a) + (b - m) := by omega
  have e2 : L.drop m = (L.drop a).drop (m - a) := by
    rw [List.drop_drop]; congr 1; omega
  rw [e1, e2, List.take_add]

theorem slice_full (L : List Nat) : slice L 0 L.length = L := by
  simp [slice]

theorem list_decomp (L : List Nat) (a b : Nat) (h : a ≤ b) :
    L = L.take a ++ slice L a b ++ L.drop b := by
  unfold slice
  have e2 : L.drop b = (L.drop a).drop (b - a) := by
    rw [List.drop_drop]; congr 1; omega
  rw [e2, List.append_assoc, List.take_append_drop, List.take_append_drop]

theorem frame_length (L seg : List Nat) (a b : Nat) (hab : a ≤ b) (hb : b ≤ L.length)
    (hs : seg.length = b - a) : (L.take a ++ seg ++ L.drop b).length = L.length := by
  simp only [List.length_append, List.length_take, List.length_drop]
  omega

theorem frame_getElem? (L seg : List Nat) (a b : Nat) (hab : a ≤ b) (hb : b ≤ L.length)
    (hs : seg.length = b - a) (j : Nat) (hj : j < a ∨ b ≤ j) :
    (L.take a ++ seg ++ L.drop b)[j]? = L[j]? := by
  have hta : (L.take a).length = a := by rw [List.length_take]; omega
  rcases hj with hj | hj
  · rw [List.append_assoc, List.getElem?_append_left (by omega),
      List.getElem?_take_of_lt hj]
  · rw [List.getElem?_append_right (by simp only [List.length_append]; omega),
      List.getElem?_drop]
    congr 1
    simp only [List.length_append]
    omega

theorem frame_slice (L seg : List Nat) (a b : Nat) (hab : a ≤ b) (hb : b ≤ L.length)
    (hs : seg.length = b - a) : slice (L.take a ++ seg ++ L.drop b) a b = seg := by
  have hta : (L.take a).length = a := by rw [List.length_take]; omega
  unfold slice
  rw [List.append_assoc, List.drop_append_of_le_length (by omega),
    List.drop_of_length_le (by omega), List.nil_append, ← hs, List.take_left']
  rfl

/-- A list that agrees with `L` outside `[a, b)` and whose slice `[a, b)` is a permutation
of that of `L`, is a permutation of `L`. -/
theorem perm_of_frame (L L' : List Nat) (a b : Nat) (hab : a ≤ b)
    (hout : ∀ j, j < a ∨ b ≤ j → L'[j]? = L[j]?)
    (hperm : (slice L' a b).Perm (slice L a b)) : L'.Perm L := by
  have ht : L'.take a = L.take a := by
    apply List.ext_getElem?
    intro k
    rw [List.getElem?_take, List.getElem?_take]
    split_ifs with hk
    · exact hout k (Or.inl hk)
    · rfl
  have hd : L'.drop b = L.drop b := by
    apply List.ext_getElem?
    intro k
    rw [List.getElem?_drop, List.getElem?_drop]
    exact hout (b + k) (Or.inr (by omega))
  rw [list_decomp L a b hab, list_decomp L' a b hab, ht, hd]
  exact List.Perm.append_right _ (List.Perm.append_left _ hperm)

theorem uniform_lt (r : Rng) (n : Nat) : (r.uniform 0 n).1 < n + 1 := by
  unfold Rng.uniform
  simp only [Nat.zero_add, Nat.sub_zero]
  exact Nat.mod_lt _ (by omega)

theorem filter_not_eq_self_of_filter_length_zero (p : Nat → Bool) (xs : List Nat)
    (h : (xs.filter p).length = 0) : xs.filter (fun x => !p x) = xs := by
  have h1 : xs.filter p = [] := List.length_eq_zero.1 h
  rw [List.filter_eq_nil_iff] at h1
  rw [List.filter_eq_self]
  intro a ha
  have := h1 a ha
  simpa using this

theorem filter_not_eq_nil_of_filter_length (p : Nat → Bool) (xs : List Nat)
    (h : (xs.filter p).length = xs.length) :
    xs.filter p = xs ∧ xs.filter (fun x => !p x) = [] := by
  have h1 : xs.filter p = xs := (List.filter_sublist xs).eq_of_length h
  refine ⟨h1, ?_⟩
  rw [List.filter_eq_self] at h1
  rw [List.filter_eq_nil_iff]
  intro a ha
  simp [h1 a ha]

theorem filter_split_perm (p : Nat → Bool) (xs : List Nat) :
    (xs.filter p ++ xs.filter (fun x => !p x)).Perm xs :=
  List.filter_append_perm p xs

/-- What a successful `PartitionLoop` returns. -/
theorem PartitionLoop_spec (descs : Nat → U8Descriptor) (l r : Nat) (hlr : l < r) :
    ∀ (retries sd : Nat) (L : List Nat) (rng : Rng) (m dim val : Nat) (L1 : List Nat)
      (rng1 : Rng),
      r ≤ L.length →
      KDTree.PartitionLoop descs l r retries sd L rng = .ok (m, dim, val, L1, rng1) →
      ∃ sd' sv, dim = sd' % 256 ∧ val = sv % 256 ∧ (sd' = sd ∨ sd' < 128) ∧
        0 < m ∧ m < r - l ∧ L1.length = L.length ∧
        (∀ j, j < l ∨ r ≤ j → L1[j]? = L[j]?) ∧
        (slice L1 l r).Perm (slice L l r) ∧
        (∀ i ∈ slice L1 l (l + m), (descs i).ufeatures sd' < sv) ∧
        (∀ i ∈ slice L1 (l + m) r, sv ≤ (descs i).ufeatures sd') := by
  intro retries
  induction retries with
  | zero =>
    intro sd L rng m dim val L1 rng1 _ h
    simp [KDTree.PartitionLoop] at h
  | succ k ih =>
    intro sd L rng m dim val L1 rng1 hL h
    unfold KDTree.PartitionLoop at h
    dsimp only at h
    have hseg : (slice L l r).length = r - l := slice_length L l r hL
    split_ifs at h with c1 c2
    · obtain ⟨sd', sv, h1, h2, h3, rest⟩ := ih _ _ _ _ _ _ _ _ hL h
      refine ⟨sd', sv, h1, h2, ?_, rest⟩
      rcases h3 with h3 | h3
      · right; rw [h3]; exact uniform_lt _ 127
      · right; exact h3
    · -- the partition put everything on one side: the list is unchanged
      have hsame : L.take l ++
          ((slice L l r).filter (fun di => decide ((descs di).ufeatures sd <
              (rng.uniform (listMin ((slice L l r).map fun di => (descs di).ufeatures sd))
                (listMax ((slice L l r).map fun di => (descs di).ufeatures sd))).1)) ++
           (slice L l r).filter (fun di => !decide ((descs di).ufeatures sd <
              (rng.uniform (listMin ((slice L l r).map fun di => (descs di).ufeatures sd))
                (listMax ((slice L l r).map fun di => (descs di).ufeatures sd))).1))) ++
          L.drop r = L := by
        have hd := list_decomp L l r (le_of_lt hlr)
        rcases c2 with c2 | c2
        · rw [filter_not_eq_self_of_filter_length_zero _ _ c2, List.length_eq_zero.1 c2,
            List.nil_append]
          exact hd.symm
        · obtain ⟨e1, e2⟩ := filter_not_eq_nil_of_filter_length _ _ c2
          rw [e1, e2, List.append_nil]
          exact hd.symm
      rw [hsame] at h
      obtain ⟨sd', sv, h1, h2, h3, rest⟩ := ih _ _ _ _ _ _ _ _ hL h
      refine ⟨sd', sv, h1, h2, ?_, rest⟩
      rcases h3 with h3 | h3
      · right; rw [h3]; exact uniform_lt _ 127
      · right; exact h3
    · simp only [Except.ok.injEq, Prod.mk.injEq] at h
      obtain ⟨hm, hdim, hval, hL1, _⟩ := h
      push_neg at c2
      generalize hsv : (rng.uniform (listMin ((slice L l r).map fun di => (descs di).ufeatures sd))
                (listMax ((slice L l r).map fun di => (descs di).ufeatures sd))).1 = sv
        at hm hval hL1 c2
      generalize hlo : (slice L l r).filter (fun di => decide ((descs di).ufeatures sd < sv))
        = lo at hm hL1 c2
      generalize hhi : (slice L l r).filter (fun di => !decide ((descs di).ufeatures sd < sv))
        = hi at hL1
      have hperm : (lo ++ hi).Perm (slice L l r) := by
        rw [← hlo, ← hhi]; exact filter_split_perm _ _
      have hlen : (lo ++ hi).length = r - l := by rw [hperm.length_eq, hseg]
      have hlole : lo.length ≤ (slice L l r).length := by
        rw [← hlo]; exact List.length_filter_le _ _
      have hL1len : L1.length = L.length := by
        rw [← hL1]; exact frame_length L _ l r (le_of_lt hlr) hL hlen
      have hsl : slice L1 l r = lo ++ hi := by
        rw [← hL1]; exact frame_slice L _ l r (le_of_lt hlr) hL hlen
      have hmr : l + m ≤ r := by omega
      have hsplit := slice_split L1 l (l + m) r (by omega) hmr
      rw [hsl] at hsplit
      have hl1 : (slice L1 l (l + m)).length = lo.length := by
        rw [slice_length L1 l (l + m) (by omega)]; omega
      obtain ⟨e1, e2⟩ := List.append_inj hsplit hl1.symm
      refine ⟨sd, sv, hdim.symm, hval.symm, Or.inl rfl, by omega, by omega, hL1len, ?_, ?_,
        ?_, ?_⟩
      · intro j hj
        rw [← hL1]
        exact frame_getElem? L _ l r (le_of_lt hlr) hL hlen j hj
      · rw [hsl]; exact hperm
      · intro i hi'
        rw [← e1, ← hlo, List.mem_filter] at hi'
        simpa using hi'.2
      · intro i hi'
        rw [← e2, ← hhi, List.mem_filter] at hi'
        simpa using hi'.2

theorem TreeView.size_pos (t : TreeView) : 0 < t.size := by
  cases t <;> simp [TreeView.size]

theorem TreeView.Rep_congr (nodes nodes1 : List Node) (bbs bbs1 : List BoundingBox) :
    ∀ (t : TreeView) (n : Nat),
      (∀ j, n ≤ j → j < n + t.size → nodes1[j]? = nodes[j]? ∧ bbs1[j]? = bbs[j]?) →
      Rep nodes bbs n t → Rep nodes1 bbs1 n t := by
  intro t
  induction t with
  | leaf b e xs bx =>
    intro n h hr
    obtain ⟨nd, h1, h2, h3, h4, h5⟩ := hr
    have := h n (le_refl _) (by simp [TreeView.size])
    exact ⟨nd, by rw [this.1]; exact h1, h2, h3, h4, by rw [this.2]; exact h5⟩
  | node dim val bx l r ihl ihr =>
    intro n h hr
    obtain ⟨nd, h1, h2, h3, h4, h5, h6, h7, h8⟩ := hr
    have hn := h n (le_refl _) (by simp [TreeView.size])
    refine ⟨nd, by rw [hn.1]; exact h1, h2, h3, h4, h5, by rw [hn.2]; exact h6, ?_, ?_⟩
    · apply ihl (n + 1) _ h7
      intro j hj1 hj2
      exact h j (by omega) (by simp only [TreeView.size]; omega)
    · apply ihr (n + 1 + l.size) _ h8
      intro j hj1 hj2
      exact h j (by omega) (by simp only [TreeView.size]; omega)

theorem TreeView.Rep_box (nodes : List Node) (bbs : List BoundingBox) (t : TreeView) (n : Nat)
    (h : Rep nodes bbs n t) : bbs[n]? = some t.box := by
  cases t with
  | leaf b e xs bx => obtain ⟨nd, _, _, _, _, h5⟩ := h; exact h5
  | node dim val bx l r => obtain ⟨nd, _, _, _, _, _, h6, _⟩ := h; exact h6

theorem TreeView.Shape_lt (t : TreeView) : ∀ lo hi, Shape t lo hi → lo < hi := by
  induction t with
  | leaf b e xs bx => intro lo hi h; exact h.2.2.1
  | node dim val bx l r ihl ihr =>
    intro lo hi h
    obtain ⟨m, h1, h2⟩ := h
    exact lt_trans (ihl _ _ h1) (ihr _ _ h2)

theorem TreeView.Shape_length (t : TreeView) :
    ∀ lo hi, Shape t lo hi → t.indices.length = hi - lo := by
  induction t with
  | leaf b e xs bx => intro lo hi h; exact h.2.2.2
  | node dim val bx l r ihl ihr =>
    intro lo hi h
    obtain ⟨m, h1, h2⟩ := h
    have := Shape_lt _ _ _ h1
    have := Shape_lt _ _ _ h2
    simp only [TreeView.indices, List.length_append, ihl _ _ h1, ihr _ _ h2]
    omega

theorem BuildRec_spec : ∀ (fuel : Nat) (st : KDTree) (rng : Rng) (n l r : Nat)
    (st1 : KDTree) (rng1 : Rng),
    st.nodes.length = n + 1 → r ≤ st.list.length →
    KDTree.BuildRec fuel st rng n l r = .ok (st1, rng1) →
    ∃ t, Rep st1.nodes st1.bb n t ∧ Shape t l r ∧ t.indices = slice st1.list l r ∧
      BoxOK st.descriptors t ∧
      ((∀ k, k < 5 → st.split_dimensions k < 128) →
        (∀ i ∈ slice st.list l r, (st.descriptors i).IsU8) → SplitOK st.descriptors t) ∧
      st1.nodes.length = n + t.size ∧ st1.bb.length = n + t.size ∧
      KDTree.Frame st st1 n l r := by
  intro fuel
  induction fuel with
  | zero =>
    intro st rng n l r st1 rng1 _ _ h
    simp [KDTree.BuildRec] at h
  | succ fuel ih =>
    intro st rng n l r st1 rng1 hn hr h
    unfold KDTree.BuildRec at h
    by_cases c0 : st.nodes.length ≠ st.bb.length
    · rw [if_pos c0] at h; simp at h
    rw [if_neg c0] at h
    push_neg at c0
    cases hnode : st.nodes[n]? with
    | none => rw [hnode] at h; simp at h
    | some node =>
      rw [hnode] at h
      dsimp only at h
      by_cases c1 : node.leaf = false
      · rw [if_pos c1] at h; simp at h
      rw [if_neg c1] at h
      by_cases c2 : ¬ l < r
      · rw [if_pos c2] at h; simp at h
      rw [if_neg c2] at h
      push_neg at c2
      by_cases c3 : r - l ≤ st.leaf_size
      · rw [if_pos c3] at h
        simp only [Except.ok.injEq, Prod.mk.injEq] at h
        obtain ⟨hst, _⟩ := h
        subst hst
        have hnlt : n < st.nodes.length := by omega
        have hblt : n < st.bb.length := by omega
        refine ⟨TreeView.leaf l r (slice st.list l r)
          (GetBoundingBox st.descriptors (slice st.list l r)), ?_, ?_, rfl, rfl, ?_, ?_, ?_, ?_⟩
        · exact ⟨_, List.getElem?_set_self hnlt, by simpa using c1, rfl, rfl,
            List.getElem?_set_self hblt⟩
        · exact ⟨rfl, rfl, c2, slice_length _ _ _ hr⟩
        · intro _ _; trivial
        · simp [TreeView.size, hn]
        · simp [TreeView.size, ← c0, hn]
        · refine ⟨?_, rfl, fun _ _ => rfl, List.Perm.refl _, rfl, rfl, rfl, rfl⟩
          intro j hj
          exact ⟨List.getElem?_set_ne (by omega), List.getElem?_set_ne (by omega)⟩
      · rw [if_neg c3] at h
        split at h
        · simp at h
        · rename_i m dim val L1 rngp hp
          split at h
          · simp at h
          · rename_i t3 rng3 hb1
            split at h
            · simp at h
            · rename_i t5 rng5 hb2
              by_cases c4 : st.nodes.length ≠ n + 1
              · rw [if_pos c4] at h; simp at h
              rw [if_neg c4] at h
              split at h
              · rename_i nd bl br hnd hbl hbr
                simp only [Except.ok.injEq, Prod.mk.injEq] at h
                obtain ⟨hst, _⟩ := h
                subst hst
                have c4' : st.nodes.length = n + 1 := hn
                -- the partition
                obtain ⟨sd', sv, hdim, hval, hsd, hm0, hmlt, hL1len, hL1out, hL1perm, hlo, hhi⟩ :=
                  PartitionLoop_spec st.descriptors l r c2 16 _ st.list _ m dim val L1 rngp hr hp
                rw [Nat.add_comm l m] at hlo hhi
                have hml : m + l ≤ r := by omega
                -- the left child
                obtain ⟨tl, hrepl, hshl, hindl, hboxl, hspll, hlen3, hlenb3, hfr3⟩ :=
                  ih _ _ _ _ _ _ _ (by simp [hn]) (by simp only; omega) hb1
                obtain ⟨f3n, f3len, f3out, f3perm, f3d, f3c, f3ls, f3sd⟩ := hfr3
                simp only at f3len f3out f3perm f3d f3c f3ls f3sd hboxl hspll
                -- the right child
                obtain ⟨tr, hrepr, hshr, hindr, hboxr, hsplr, hlen5, hlenb5, hfr5⟩ :=
                  ih _ _ _ _ _ _ _ (by simp) (by simp only; omega) hb2
                obtain ⟨f5n, f5len, f5out, f5perm, f5d, f5c, f5ls, f5sd⟩ := hfr5
                simp only at f5len f5out f5perm f5d f5c f5ls f5sd hboxr hsplr
                rw [hn] at hlen3 hlenb3 hrepl f3n
                -- index bookkeeping
                have hrc : t3.nodes.length = n + 1 + tl.size := hlen3
                have hB : ∀ j, j < t3.nodes.length →
                    t5.nodes[j]? = t3.nodes[j]? ∧ t5.bb[j]? = t3.bb[j]? := by
                  intro j hj
                  have := f5n j hj
                  simp only at this
                  rw [List.getElem?_append_left hj,
                    List.getElem?_append_left (by omega)] at this
                  exact this
                have hD : ∀ j, j < n + 1 →
                    t3.nodes[j]? = (st.nodes.set n { node with dim := dim, val := val })[j]? ∧
                    t3.bb[j]? = st.bb[j]? := by
                  intro j hj
                  have := f3n j hj
                  simp only at this
                  rw [List.getElem?_append_left (by simp; omega),
                    List.getElem?_append_left (by omega)] at this
                  exact this
                have hndeq : nd = { node with dim := dim, val := val } := by
                  have h1 := (hB n (by omega)).1
                  have h2 := (hD n (by omega)).1
                  rw [h1, h2, List.getElem?_set_self (by omega)] at hnd
                  exact (Option.some.inj hnd).symm
                have hbleq : bl = tl.box := by
                  have h1 := (hB (n + 1) (by have := tl.size_pos; omega)).2
                  rw [hn, h1, TreeView.Rep_box _ _ _ _ hrepl] at hbl
                  exact (Option.some.inj hbl).symm
                have hbreq : br = tr.box := by
                  rw [TreeView.Rep_box _ _ _ _ hrepr] at hbr
                  exact (Option.some.inj hbr).symm
                have hlist53 : slice t5.list l (m + l) = slice t3.list l (m + l) := by
                  apply slice_congr
                  intro j _ hj2
                  exact f5out j (Or.inl hj2)
                have hlist32 : slice t3.list (m + l) r = slice L1 (m + l) r := by
                  apply slice_congr
                  intro j hj1 _
                  exact f3out j (Or.inr hj1)
                have hmemL : ∀ i ∈ tl.indices, i ∈ slice L1 l (m + l) := by
                  intro i hi
                  rw [hindl] at hi
                  exact f3perm.mem_iff.1 hi
                have hmemR : ∀ i ∈ tr.indices, i ∈ slice L1 (m + l) r := by
                  intro i hi
                  rw [hindr] at hi
                  have := f5perm.mem_iff.1 hi
                  rw [hlist32] at this
                  exact this
                have hsubL : ∀ i ∈ slice L1 l (m + l), i ∈ slice st.list l r := by
                  intro i hi
                  apply hL1perm.mem_iff.1
                  rw [slice_split L1 l (m + l) r (by omega) hml]
                  exact List.mem_append_left _ hi
                have hsubR : ∀ i ∈ slice L1 (m + l) r, i ∈ slice st.list l r := by
                  intro i hi
                  apply hL1perm.mem_iff.1
                  rw [slice_split L1 l (m + l) r (by omega) hml]
                  exact List.mem_append_right _ hi
                refine ⟨TreeView.node nd.dim nd.val (Union bl br) tl tr, ?_, ?_, ?_, ?_, ?_, ?_,
                  ?_, ?_⟩
                · -- Rep
                  refine ⟨_, List.getElem?_set_self (by omega), rfl, rfl, rfl, hrc,
                    List.getElem?_set_self (by omega), ?_, ?_⟩
                  · apply TreeView.Rep_congr _ _ _ _ tl (n + 1) _ hrepl
                    intro j hj1 hj2
                    simp only
                    rw [List.getElem?_set_ne (by omega), List.getElem?_set_ne (by omega)]
                    exact hB j (by omega)
                  · rw [← hrc]
                    apply TreeView.Rep_congr _ _ _ _ tr _ _ hrepr
                    intro j hj1 hj2
                    simp only
                    rw [List.getElem?_set_ne (by omega), List.getElem?_set_ne (by omega)]
                    exact ⟨rfl, rfl⟩
                · exact ⟨m + l, hshl, hshr⟩
                · simp only [TreeView.indices]
                  rw [slice_split t5.list l (m + l) r (by omega) hml, hlist53, hindl, hindr]
                · refine ⟨by rw [hbleq, hbreq], hboxl, ?_⟩
                  rw [f3d] at hboxr
                  exact hboxr
                · intro hs hu
                  have hsd' : sd' < 128 := by
                    rcases hsd with h | h
                    · rw [h]; exact hs _ (uniform_lt _ 4)
                    · exact h
                  have hsv : sv < 256 := by
                    have hne : slice L1 (m + l) r ≠ [] := by
                      intro h0
                      have := slice_length L1 (m + l) r (by omega)
                      rw [h0] at this
                      simp at this
                      omega
                    obtain ⟨i, hi⟩ := List.exists_mem_of_ne_nil _ hne
                    have h1 := hhi i hi
                    have h2 := hu i (hsubR i hi) sd' hsd'
                    omega
                  have hdim' : nd.dim = sd' := by
                    rw [hndeq]; simp only; rw [hdim]; exact Nat.mod_eq_of_lt (by omega)
                  have hval' : nd.val = sv := by
                    rw [hndeq]; simp only; rw [hval]; exact Nat.mod_eq_of_lt hsv
                  refine ⟨?_, ?_, ?_, ?_⟩
                  · intro i hi
                    rw [hdim', hval']
                    exact hlo i (hmemL i hi)
                  · intro i hi
                    rw [hdim', hval']
                    exact hhi i (hmemR i hi)
                  · exact hspll hs (fun i hi => hu i (hsubL i hi))
                  · rw [f3d, f3sd] at hsplr
                    apply hsplr hs
                    intro i hi
                    rw [hlist32] at hi
                    exact hu i (hsubR i hi)
                · simp only [List.length_set, TreeView.size]
                  rw [hlen5, hrc]; omega
                · simp only [List.length_set, TreeView.size]
                  rw [hlenb5, hrc]; omega
                · refine ⟨?_, ?_, ?_, ?_, ?_, ?_, ?_, ?_⟩
                  · intro j hj
                    simp only
                    rw [List.getElem?_set_ne (by omega), List.getElem?_set_ne (by omega)]
                    have h1 := hB j (by omega)
                    have h2 := hD j (by omega)
                    rw [List.getElem?_set_ne (by omega)] at h2
                    exact ⟨h1.1.trans h2.1, h1.2.trans h2.2⟩
                  · simp only; rw [f5len, f3len, hL1len]
                  · intro j hj
                    simp only
                    rw [f5out j (by omega), f3out j (by omega), hL1out j hj]
                  · simp only
                    rw [slice_split t5.list l (m + l) r (by omega) hml, hlist53]
                    have h1 : (slice t3.list l (m + l) ++ slice t5.list (m + l) r).Perm
                        (slice L1 l (m + l) ++ slice L1 (m + l) r) := by
                      apply List.Perm.append f3perm
                      rw [← hlist32]
                      exact f5perm
                    rw [← slice_split L1 l (m + l) r (by omega) hml] at h1
                    exact h1.trans hL1perm
                  · simp only; rw [f5d, f3d]
                  · simp only; rw [f5c, f3c]
                  · simp only; rw [f5ls, f3ls]
                  · simp only; rw [f5sd, f3sd]
              · simp at h

theorem TreeView.ListOK_of_Shape (list : List Nat) :
    ∀ (t : TreeView) (lo hi : Nat), Shape t lo hi → hi ≤ list.length →
      t.indices = slice list lo hi → ListOK list t := by
  intro t
  induction t with
  | leaf b e xs bx =>
    intro lo hi hs _ hi'
    obtain ⟨h1, h2, _, _⟩ := hs
    subst h1; subst h2
    exact hi'
  | node dim val bx l r ihl ihr =>
    intro lo hi hs hlen hind
    obtain ⟨m, h1, h2⟩ := hs
    have hlm := Shape_lt _ _ _ h1
    have hmh := Shape_lt _ _ _ h2
    simp only [TreeView.indices] at hind
    rw [slice_split list lo m hi (le_of_lt hlm) (le_of_lt hmh)] at hind
    have hl : l.indices.length = (slice list lo m).length := by
      rw [Shape_length _ _ _ h1, slice_length _ _ _ (by omega)]
    obtain ⟨e1, e2⟩ := List.append_inj hind hl
    exact ⟨ihl _ _ h1 (by omega) e1, ihr _ _ h2 hlen e2⟩

theorem TreeView.Sub_refl (t : TreeView) : Sub t t := by
  cases t with
  | leaf b e xs bx => rfl
  | node dim val bx l r => exact Or.inl rfl

theorem TreeView.Sub_size (s : TreeView) : ∀ t, Sub s t → s.size ≤ t.size := by
  intro t
  induction t with
  | leaf b e xs bx => intro h; rw [h]
  | node dim val bx l r ihl ihr =>
    intro h
    rcases h with h | h | h
    · rw [h]
    · have := ihl h; simp only [TreeView.size]; omega
    · have := ihr h; simp only [TreeView.size]; omega

theorem TreeView.Sub_BoxOK (descs : Nat → U8Descriptor) (s : TreeView) :
    ∀ t, Sub s t → BoxOK descs t → BoxOK descs s := by
  intro t
  induction t with
  | leaf b e xs bx => intro h hb; rw [h]; exact hb
  | node dim val bx l r ihl ihr =>
    intro h hb
    rcases h with h | h | h
    · rw [h]; exact hb
    · exact ihl h hb.2.1
    · exact ihr h hb.2.2

theorem TreeView.Sub_SplitOK (descs : Nat → U8Descriptor) (s : TreeView) :
    ∀ t, Sub s t → SplitOK descs t → SplitOK descs s := by
  intro t
  induction t with
  | leaf b e xs bx => intro h hb; rw [h]; exact hb
  | node dim val bx l r ihl ihr =>
    intro h hb
    rcases h with h | h | h
    · rw [h]; exact hb
    · exact ihl h hb.2.2.1
    · exact ihr h hb.2.2.2

theorem TreeView.Sub_ListOK (list : List Nat) (s : TreeView) :
    ∀ t, Sub s t → ListOK list t → ListOK list s := by
  intro t
  induction t with
  | leaf b e xs bx => intro h hb; rw [h]; exact hb
  | node dim val bx l r ihl ihr =>
    intro h hb
    rcases h with h | h | h
    · rw [h]; exact hb
    · exact ihl h hb.1
    · exact ihr h hb.2

theorem TreeView.Sub_indices (s : TreeView) :
    ∀ t, Sub s t → ∀ i ∈ s.indices, i ∈ t.indices := by
  intro t
  induction t with
  | leaf b e xs bx => intro h i hi; rw [h] at hi; exact hi
  | node dim val bx l r ihl ihr =>
    intro h i hi
    rcases h with h | h | h
    · rw [h] at hi; exact hi
    · exact List.mem_append_left _ (ihl h i hi)
    · exact List.mem_append_right _ (ihr h i hi)

/-- Every node of the arrays inside the block of `t` is the root of a subtree of `t`. -/
theorem TreeView.Rep_sub (nodes : List Node) (bbs : List BoundingBox) :
    ∀ (t : TreeView) (n j : Nat), Rep nodes bbs n t → n ≤ j → j < n + t.size →
      ∃ s, Sub s t ∧ Rep nodes bbs j s := by
  intro t
  induction t with
  | leaf b e xs bx =>
    intro n j h h1 h2
    simp only [TreeView.size] at h2
    have : j = n := by omega
    subst this
    exact ⟨_, rfl, h⟩
  | node dim val bx l r ihl ihr =>
    intro n j h h1 h2
    simp only [TreeView.size] at h2
    obtain ⟨nd, q1, q2, q3, q4, q5, q6, q7, q8⟩ := h
    by_cases e : j = n
    · subst e
      exact ⟨_, Or.inl rfl, ⟨nd, q1, q2, q3, q4, q5, q6, q7, q8⟩⟩
    · by_cases hl : j < n + 1 + l.size
      · obtain ⟨s, hs, hr⟩ := ihl (n + 1) j q7 (by omega) (by omega)
        exact ⟨s, Or.inr (Or.inl hs), hr⟩
      · obtain ⟨s, hs, hr⟩ := ihr (n + 1 + l.size) j q8 (by omega) (by omega)
        exact ⟨s, Or.inr (Or.inr hs), hr⟩

/-- The traversal from the node where `s` is stored collects the indices of `s`. -/
theorem subtreeIndices_eq (t : KDTree) :
    ∀ (s : TreeView) (n fuel : Nat), Rep t.nodes t.bb n s → ListOK t.list s →
      s.size ≤ fuel → t.subtreeIndices fuel n = s.indices := by
  intro s
  induction s with
  | leaf b e xs bx =>
    intro n fuel h hl hf
    obtain ⟨nd, q1, q2, q3, q4, _⟩ := h
    simp only [TreeView.size] at hf
    obtain ⟨f, rfl⟩ : ∃ f, fuel = f + 1 := ⟨fuel - 1, by omega⟩
    simp only [KDTree.subtreeIndices, q1, q2, if_true, TreeView.indices, q3, q4]
    exact hl.symm
  | node dim val bx l r ihl ihr =>
    intro n fuel h hl hf
    obtain ⟨nd, q1, q2, q3, q4, q5, q6, q7, q8⟩ := h
    simp only [TreeView.size] at hf
    obtain ⟨f, rfl⟩ : ∃ f, fuel = f + 1 := ⟨fuel - 1, by omega⟩
    simp only [KDTree.subtreeIndices, q1, q2, TreeView.indices, KDTree.Left, KDTree.Right, q5]
    rw [ihl (n + 1) f q7 hl.1 (by omega), ihr (n + 1 + l.size) f q8 hl.2 (by omega)]
    simp

theorem drop_eq_cons_of_getElem? {α : Type} (xs : List α) (n : Nat) (a : α)
    (h : xs[n]? = some a) : xs.drop n = a :: xs.drop (n + 1) := by
  obtain ⟨hlt, heq⟩ := List.getElem?_eq_some.1 h
  rw [← heq]
  exact List.drop_eq_getElem_cons hlt

/-- The leaves stored in the block of `s`, in array order, hold the indices of `s`. -/
theorem leafEntries_block (nodes : List Node) (bbs : List BoundingBox) (list : List Nat) :
    ∀ (s : TreeView) (n : Nat), Rep nodes bbs n s → ListOK list s →
      ((((nodes.drop n).take s.size).filter (fun nd => nd.leaf)).map
        (fun nd => slice list nd.index nd.end_)).flatten = s.indices := by
  intro s
  induction s with
  | leaf b e xs bx =>
    intro n h hl
    obtain ⟨nd, q1, q2, q3, q4, _⟩ := h
    rw [drop_eq_cons_of_getElem? nodes n nd q1]
    simp only [TreeView.size, List.take_succ_cons, List.take_zero, TreeView.indices]
    simp [q2, q3, q4]
    exact hl.symm
  | node dim val bx l r ihl ihr =>
    intro n h hl
    obtain ⟨nd, q1, q2, q3, q4, q5, q6, q7, q8⟩ := h
    rw [drop_eq_cons_of_getElem? nodes n nd q1]
    have e1 : (1 + l.size + r.size) = (l.size + r.size) + 1 := by omega
    simp only [TreeView.size, e1, List.take_succ_cons, TreeView.indices]
    rw [List.filter_cons_of_neg (by simp [q2]), List.take_add, List.drop_drop,
      List.filter_append, List.map_append, List.flatten_append]
    rw [ihl (n + 1) q7 hl.1, ihr (n + 1 + l.size) q8 hl.2]

theorem KDTree_new_spec (descs : Nat → U8Descriptor) (N : Nat) (t0 : KDTree)
    (h : KDTree.new descs N = .ok t0) :
    N < 2147483647 ∧ t0.descriptors = descs ∧ t0.dcount = N ∧ t0.nodes = [] ∧ t0.bb = [] ∧
      t0.list = List.range N := by
  unfold KDTree.new at h
  have hU : UINT_MAX / 2 = 2147483647 := by decide
  rw [hU] at h
  split_ifs at h with c
  simp only [Except.ok.injEq] at h
  subst h
  have hm : N % 4294967296 = N := Nat.mod_eq_of_lt (by omega)
  simp [hm, c]

theorem KDTree_Build_spec (descs : Nat → U8Descriptor) (N : Nat) (sdim : Nat → Nat)
    (leaf_size : Nat) (rng rng1 : Rng) (t0 t : KDTree)
    (h0 : KDTree.new descs N = .ok t0) (h : t0.Build sdim leaf_size rng = .ok (t, rng1)) :
    ∃ tv, t.Built descs N tv ∧
      ((∀ k, k < 5 → sdim k < 128) → (∀ i, i < N → (descs i).IsU8) → SplitOK descs tv) ∧
      t.split_dimensions = sdim ∧ 0 < leaf_size := by
  obtain ⟨hN, hd, hc, hnodes, hbb, hlist⟩ := KDTree_new_spec descs N t0 h0
  unfold KDTree.Build at h
  split_ifs at h with c0
  dsimp only at h
  split at h
  · simp at h
  · rename_i t2 rng2 hb
    split_ifs at h with c1
    simp only [Except.ok.injEq, Prod.mk.injEq] at h
    obtain ⟨ht, _⟩ := h
    subst ht
    rw [hc] at hb
    obtain ⟨tv, hrep, hsh, hind, hbox, hspl, hlen, hlenb, hfr⟩ :=
      BuildRec_spec _ _ _ _ _ _ _ _ (by simp [hnodes]) (by simp [hlist]) hb
    obtain ⟨_, flen, _, fperm, fd, fc, _, fsd⟩ := hfr
    simp only [hlist, hd, hc, List.length_range] at flen fperm fd fc fsd hbox hspl
    have hfull : slice t2.list 0 N = t2.list := by
      rw [← flen]; exact slice_full _
    have hfull0 : slice (List.range N) 0 N = List.range N := by
      have := slice_full (List.range N)
      rw [List.length_range] at this
      exact this
    rw [hfull] at hind fperm
    rw [hfull0] at fperm hspl
    refine ⟨tv, ⟨hrep, hsh, hind, ?_, hbox, by omega, by omega, fperm, fd, fc, flen⟩, ?_, fsd,
      by omega⟩
    · apply ListOK_of_Shape t2.list tv 0 N hsh (by omega)
      rw [hfull]; exact hind
    · intro hs hu
      apply hspl hs
      intro i hi
      exact hu i (List.mem_range.1 hi)

theorem BuildTree_spec (descs : Nat → U8Descriptor) (N : Nat) (sdim : Nat → Nat)
    (leaf_size : Nat) (rng rng1 : Rng) (t : KDTree)
    (h : BuildTree descs N sdim leaf_size rng = .ok (t, rng1)) :
    ∃ t0 rng0, KDTree.new descs N = .ok t0 ∧ t0.Build sdim leaf_size rng0 = .ok (t, rng1) := by
  unfold BuildTree at h
  split at h
  · simp at h
  · rename_i t0 h0
    split at h
    · simp at h
    · rename_i t1 rngb hb
      split at h
      · simp at h
      · split_ifs at h
        simp only [Except.ok.injEq, Prod.mk.injEq] at h
        obtain ⟨e1, e2⟩ := h
        subst e1; subst e2
        exact ⟨t0, rng, h0, hb⟩

/-- Every tree of a forest returned by `Build` was completed by `KDTree::Build`. -/
theorem BuildTrees_spec (descs : Nat → U8Descriptor) (N : Nat) (sdim : Nat → Nat)
    (leaf_size : Nat) :
    ∀ (tree_count : Nat) (rng rng1 : Rng) (ts : List KDTree),
      BuildTrees descs N sdim leaf_size tree_count rng = .ok (ts, rng1) →
      ts.length = tree_count ∧
      ∀ t ∈ ts, ∃ t0 rng0 rng2, KDTree.new descs N = .ok t0 ∧
        t0.Build sdim leaf_size rng0 = .ok (t, rng2) := by
  intro tree_count
  induction tree_count with
  | zero =>
    intro rng rng1 ts h
    simp only [BuildTrees, Except.ok.injEq, Prod.mk.injEq] at h
    obtain ⟨e, _⟩ := h
    subst e
    exact ⟨rfl, fun t ht => absurd ht (List.not_mem_nil t)⟩
  | succ k ih =>
    intro rng rng1 ts h
    unfold BuildTrees at h
    split at h
    · simp at h
    · rename_i t rngt ht
      split at h
      · simp at h
      · rename_i ts' rng' hts
        simp only [Except.ok.injEq, Prod.mk.injEq] at h
        obtain ⟨e, _⟩ := h
        subst e
        obtain ⟨hl, hall⟩ := ih _ _ _ hts
        refine ⟨by simp [hl], ?_⟩
        intro t' ht'
        rcases List.mem_cons.1 ht' with e | e
        · subst e
          obtain ⟨t0, rng0, h0, hb⟩ := BuildTree_spec _ _ _ _ _ _ _ ht
          exact ⟨t0, rng0, rngt, h0, hb⟩
        · exact hall t' e

theorem foldl_min_le (f : Nat → Nat) (xs : List Nat) :
    ∀ init, xs.foldl (fun m di => Nat.min m (f di)) init ≤ init ∧
      ∀ i ∈ xs, xs.foldl (fun m di => Nat.min m (f di)) init ≤ f i := by
  induction xs with
  | nil => intro init; exact ⟨le_refl _, fun i hi => absurd hi (List.not_mem_nil i)⟩
  | cons x xs ih =>
    intro init
    simp only [List.foldl_cons]
    obtain ⟨h1, h2⟩ := ih (Nat.min init (f x))
    refine ⟨le_trans h1 (Nat.min_le_left _ _), ?_⟩
    intro i hi
    rcases List.mem_cons.1 hi with e | e
    · subst e; exact le_trans h1 (Nat.min_le_right _ _)
    · exact h2 i e

theorem le_foldl_max (f : Nat → Nat) (xs : List Nat) :
    ∀ init, init ≤ xs.foldl (fun m di => Nat.max m (f di)) init ∧
      ∀ i ∈ xs, f i ≤ xs.foldl (fun m di => Nat.max m (f di)) init := by
  induction xs with
  | nil => intro init; exact ⟨le_refl _, fun i hi => absurd hi (List.not_mem_nil i)⟩
  | cons x xs ih =>
    intro init
    simp only [List.foldl_cons]
    obtain ⟨h1, h2⟩ := ih (Nat.max init (f x))
    refine ⟨le_trans (Nat.le_max_left _ _) h1, ?_⟩
    intro i hi
    rcases List.mem_cons.1 hi with e | e
    · subst e; exact le_trans (Nat.le_max_right _ _) h1
    · exact h2 i e

/-- The box of a subtree contains every descriptor of the subtree, component by
component. -/
theorem TreeView.box_contains (descs : Nat → U8Descriptor) :
    ∀ t, BoxOK descs t → ∀ i ∈ t.indices, ∀ k,
      t.box.min.ufeatures k ≤ (descs i).ufeatures k ∧
      (descs i).ufeatures k ≤ t.box.max.ufeatures k := by
  intro t
  induction t with
  | leaf b e xs bx =>
    intro h i hi k
    simp only [TreeView.BoxOK] at h
    simp only [TreeView.indices] at hi
    subst h
    exact ⟨(foldl_min_le (fun di => (descs di).ufeatures k) xs 255).2 i hi,
      (le_foldl_max (fun di => (descs di).ufeatures k) xs 0).2 i hi⟩
  | node dim val bx l r ihl ihr =>
    intro h i hi k
    obtain ⟨hb, hl, hr⟩ := h
    simp only [TreeView.indices, List.mem_append] at hi
    simp only [TreeView.box]
    subst hb
    simp only [Union]
    rcases hi with hi | hi
    · obtain ⟨h1, h2⟩ := ihl hl i hi k
      exact ⟨le_trans (Nat.min_le_left _ _) h1, le_trans h2 (Nat.le_max_left _ _)⟩
    · obtain ⟨h1, h2⟩ := ihr hr i hi k
      exact ⟨le_trans (Nat.min_le_right _ _) h1, le_trans h2 (Nat.le_max_right _ _)⟩

theorem foldl_le_foldl (f g : Nat → Nat → Nat) (ks : List Nat)
    (h : ∀ a b k, a ≤ b → f a k ≤ g b k) :
    ∀ a b, a ≤ b → ks.foldl f a ≤ ks.foldl g b := by
  induction ks with
  | nil => intro a b hab; exact hab
  | cons k ks ih =>
    intro a b hab
    simp only [List.foldl_cons]
    exact ih _ _ (h a b k hab)

/-- The box distance of `q` is a lower bound of the L1 distance of `q` to any descriptor
inside the box. -/
theorem BBDistance_le_L1Distance (bb : BoundingBox) (q x : U8Descriptor)
    (h : ∀ k, bb.min.ufeatures k ≤ x.ufeatures k ∧ x.ufeatures k ≤ bb.max.ufeatures k) :
    BBDistance bb q ≤ L1Distance q x := by
  unfold BBDistance L1Distance
  apply foldl_le_foldl _ _ _ _ 0 0 (le_refl _)
  intro a b k hab
  obtain ⟨h1, h2⟩ := h k
  split_ifs <;> omega

/-- In a built tree every node that exists is the root of a subtree of the whole tree,
and the traversal from it collects the indices of that subtree. -/
theorem Built_node (t : KDTree) (descs : Nat → U8Descriptor) (N : Nat) (tv : TreeView)
    (hb : t.Built descs N tv) (n : Nat) (hn : n < t.nodes.length) :
    ∃ s, Sub s tv ∧ Rep t.nodes t.bb n s ∧ ListOK t.list s ∧
      ∀ fuel, t.nodes.length ≤ fuel → t.subtreeIndices fuel n = s.indices := by
  obtain ⟨hrep, _, _, hlist, _, hlen, _⟩ := hb
  obtain ⟨s, hs, hr⟩ := Rep_sub t.nodes t.bb tv 0 n hrep (Nat.zero_le _) (by omega)
  have hl := Sub_ListOK t.list s tv hs hlist
  refine ⟨s, hs, hr, hl, ?_⟩
  intro fuel hf
  exact subtreeIndices_eq t s n fuel hr hl (le_trans (Sub_size s tv hs) (by omega))

/-- C2: in every tree completed by `KDTree::Build` over `N` descriptors, `_list` is a
permutation of `0 .. N-1`, the concatenation of the list entries of all leaf nodes is
`_list` itself (so it contains every index exactly once: no overlap, no index missed),
and the leaves reached from the root are the same entries. -/
theorem C2_leaves_hold_every_index_once (descs : Nat → U8Descriptor) (N : Nat)
    (sdim : Nat → Nat) (leaf_size : Nat) (rng rng1 : Rng) (t0 t : KDTree)
    (h0 : KDTree.new descs N = .ok t0) (h : t0.Build sdim leaf_size rng = .ok (t, rng1)) :
    t.list.Perm (List.range N) ∧ t.allLeafEntries = t.list ∧
    t.allLeafEntries.Perm (List.range N) ∧ t.allLeafEntries.Nodup ∧
    (∀ i, i < N → t.allLeafEntries.count i = 1) ∧
    (∀ fuel, t.nodes.length ≤ fuel → t.subtreeIndices fuel 0 = t.list) := by
  obtain ⟨tv, hb, _, _, _⟩ := KDTree_Build_spec descs N sdim leaf_size rng rng1 t0 t h0 h
  have hb' := hb
  obtain ⟨hrep, hsh, hind, hlist, _, hlen, _, hperm, _, _, _⟩ := hb
  have hall : t.allLeafEntries = t.list := by
    have := leafEntries_block t.nodes t.bb t.list tv 0 hrep hlist
    rw [List.drop_zero, ← hlen, List.take_length, hind] at this
    exact this
  have hnd : t.list.Nodup := hperm.nodup_iff.2 (List.nodup_range N)
  refine ⟨hperm, hall, by rw [hall]; exact hperm, by rw [hall]; exact hnd, ?_, ?_⟩
  · intro i hi
    rw [hall]
    exact List.count_eq_one_of_mem hnd (hperm.mem_iff.2 (List.mem_range.2 hi))
  · intro fuel hf
    have hpos : 0 < t.nodes.length := by rw [hlen]; exact tv.size_pos
    obtain ⟨s, hs, hr, hl, hsub⟩ := Built_node t descs N tv hb' 0 hpos
    rw [← hind]
    exact subtreeIndices_eq t tv 0 fuel hrep hlist (by omega)

/-- C3: in every tree completed by `KDTree::Build` (split dimensions below 128, byte
descriptors), for every internal node `n` with stored `(dim, val)`, every descriptor index
in a leaf of the left subtree of `n` has `descriptor[i][dim] < val` and every descriptor
index in a leaf of the right subtree has `descriptor[i][dim] >= val`. -/
theorem C3_split_order (descs : Nat → U8Descriptor) (N : Nat)
    (sdim : Nat → Nat) (leaf_size : Nat) (rng rng1 : Rng) (t0 t : KDTree)
    (h0 : KDTree.new descs N = .ok t0) (h : t0.Build sdim leaf_size rng = .ok (t, rng1))
    (hs : ∀ k, k < 5 → sdim k < 128) (hu : ∀ i, i < N → (descs i).IsU8)
    (n : Nat) (nd : Node) (hn : t.nodes[n]? = some nd) (hleaf : nd.leaf = false)
    (fuel : Nat) (hf : t.nodes.length ≤ fuel) :
    (∀ i ∈ t.subtreeIndices fuel (KDTree.Left n), (descs i).ufeatures nd.dim < nd.val) ∧
    (∀ i ∈ t.subtreeIndices fuel (KDTree.Right nd), nd.val ≤ (descs i).ufeatures nd.dim) := by
  obtain ⟨tv, hb, hspl, _, _⟩ := KDTree_Build_spec descs N sdim leaf_size rng rng1 t0 t h0 h
  have hsplit := hspl hs hu
  have hnlt : n < t.nodes.length := (List.getElem?_eq_some.1 hn).1
  obtain ⟨s, hsub, hr, hl, _⟩ := Built_node t descs N tv hb n hnlt
  have hss := Sub_SplitOK descs s tv hsub hsplit
  have hsz := Sub_size s tv hsub
  have hlen : t.nodes.length = tv.size := hb.2.2.2.2.2.1
  cases s with
  | leaf b e xs bx =>
    obtain ⟨nd', q1, q2, _⟩ := hr
    rw [hn] at q1
    have := Option.some.inj q1
    subst this
    rw [hleaf] at q2
    exact absurd q2 (by decide)
  | node dim val bx l r =>
    obtain ⟨nd', q1, q2, q3, q4, q5, q6, q7, q8⟩ := hr
    rw [hn] at q1
    have := Option.some.inj q1
    subst this
    simp only [TreeView.size] at hsz
    have el : t.subtreeIndices fuel (KDTree.Left n) = l.indices :=
      subtreeIndices_eq t l (n + 1) fuel q7 hl.1 (by omega)
    have er : t.subtreeIndices fuel (KDTree.Right nd) = r.indices := by
      unfold KDTree.Right
      rw [q5]
      exact subtreeIndices_eq t r (n + 1 + l.size) fuel q8 hl.2 (by omega)
    rw [el, er, q3, q4]
    exact ⟨hss.1, hss.2.1⟩

/-- C4: in every tree completed by `KDTree::Build`, for every query `q`, every node `n`
and every descriptor index `i` held by a leaf of the subtree of `n`, the box distance
`BBDistance(bbox[n], q)` is at most the L1 distance between `q` and descriptor `i`. -/
theorem C4_box_distance_lower_bound (descs : Nat → U8Descriptor) (N : Nat)
    (sdim : Nat → Nat) (leaf_size : Nat) (rng rng1 : Rng) (t0 t : KDTree)
    (h0 : KDTree.new descs N = .ok t0) (h : t0.Build sdim leaf_size rng = .ok (t, rng1))
    (q : U8Descriptor) (n : Nat) (bb : BoundingBox) (hn : t.bb[n]? = some bb)
    (fuel : Nat) (hf : t.nodes.length ≤ fuel) :
    ∀ i ∈ t.subtreeIndices fuel n, BBDistance bb q ≤ L1Distance q (descs i) := by
  obtain ⟨tv, hb, _, _, _⟩ := KDTree_Build_spec descs N sdim leaf_size rng rng1 t0 t h0 h
  have hnlt : n < t.nodes.length := by
    have := (List.getElem?_eq_some.1 hn).1
    have h1 : t.nodes.length = tv.size := hb.2.2.2.2.2.1
    have h2 : t.bb.length = tv.size := hb.2.2.2.2.2.2.1
    omega
  obtain ⟨s, hsub, hr, hl, hidx⟩ := Built_node t descs N tv hb n hnlt
  have hbox := Sub_BoxOK descs s tv hsub hb.2.2.2.2.1
  have hbb : bb = s.box := by
    have := Rep_box _ _ _ _ hr
    rw [hn] at this
    exact Option.some.inj this
  intro i hi
  rw [hidx fuel hf] at hi
  rw [hbb]
  exact BBDistance_le_L1Distance _ _ _ (fun k => box_contains descs s hbox i hi k)

theorem exTree0_new : KDTree.new exDescs 18 = .ok exTree0 := by rfl

set_option maxRecDepth 100000 in
theorem exTree_Build : exTree0.Build exSdim 1 exRng = .ok (exTree, ⟨exRng.stream, 2⟩) := by rfl

theorem exSdim_lt : ∀ k, k < 5 → exSdim k < 128 := by
  intro k _; simp [exSdim]

theorem exDescs_IsU8 : ∀ i, i < 18 → (exDescs i).IsU8 := by
  intro i _ k _
  simp only [exDescs]
  split_ifs <;> omega

set_option maxRecDepth 100000 in
/-- Witness for C2: the example tree. -/
theorem C2_leaves_hold_every_index_once_witness :
    exTree.list.Perm (List.range 18) ∧ exTree.allLeafEntries = exTree.list ∧
    exTree.subtreeIndices 3 0 = exTree.list :=
  ⟨(C2_leaves_hold_every_index_once exDescs 18 exSdim 1 exRng _ exTree0 exTree exTree0_new
      exTree_Build).1,
   (C2_leaves_hold_every_index_once exDescs 18 exSdim 1 exRng _ exTree0 exTree exTree0_new
      exTree_Build).2.1,
   (C2_leaves_hold_every_index_once exDescs 18 exSdim 1 exRng _ exTree0 exTree exTree0_new
      exTree_Build).2.2.2.2.2 3 (by decide)⟩

set_option maxRecDepth 100000 in
/-- Witness for C3: the root of the example tree, which stores `(dim, val) = (0, 3)`. -/
theorem C3_split_order_witness :
    (∀ i ∈ exTree.subtreeIndices 3 (KDTree.Left 0), (exDescs i).ufeatures 0 < 3) ∧
    (∀ i ∈ exTree.subtreeIndices 3 (KDTree.Right ⟨2, 0, 0, 3, false⟩),
      3 ≤ (exDescs i).ufeatures 0) :=
  C3_split_order exDescs 18 exSdim 1 exRng _ exTree0 exTree exTree0_new exTree_Build
    exSdim_lt exDescs_IsU8 0 ⟨2, 0, 0, 3, false⟩ rfl rfl 3 (by decide)

set_option maxRecDepth 100000 in
/-- Witness for C4: the right leaf (node 2) of the example tree, its entry 1 and the query
`(4, 0)`. -/
theorem C4_box_distance_lower_bound_witness :
    BBDistance
      (GetBoundingBox exDescs [1, 2, 3, 4, 5, 6, 7, 8, 9, 10, 11, 12, 13, 14, 15, 16, 17])
      exQ ≤ L1Distance exQ (exDescs 1) :=
  C4_box_distance_lower_bound exDescs 18 exSdim 1 exRng _ exTree0 exTree exTree0_new
    exTree_Build exQ 2 _ rfl 3 (by decide) 1 (by decide)

/-! ### The query: accumulator as a function of the candidate set, the heap loop, C1 -/

/-- After feeding a non-empty sequence of pairs with distances below `UINT_MAX` to a
fresh accumulator, slot 0 is a pair of least distance, and slot 1 is either fresh (all
distances are equal) or a pair of least distance among those above slot 0. -/
theorem feed_init_char (xs : List (Nat × Nat)) (hlt : ∀ p ∈ xs, p.1 < UINT_MAX)
    (hne : xs ≠ []) :
    ((init.feed xs).distance0, (init.feed xs).index0) ∈ xs ∧
    (∀ p ∈ xs, (init.feed xs).distance0 ≤ p.1) ∧
    (((init.feed xs).distance1 = UINT_MAX ∧ (init.feed xs).index1 = UINT_MAX ∧
        ∀ p ∈ xs, p.1 = (init.feed xs).distance0) ∨
     (((init.feed xs).distance1, (init.feed xs).index1) ∈ xs ∧
        (init.feed xs).distance0 < (init.feed xs).distance1 ∧
        ∀ p ∈ xs, (init.feed xs).distance0 < p.1 → (init.feed xs).distance1 ≤ p.1)) := by
  induction xs using List.reverseRecOn with
  | nil => exact absurd rfl hne
  | append_singleton xs p ih =>
    obtain ⟨d, i⟩ := p
    have hd : d < UINT_MAX := hlt (d, i) (by simp)
    rw [feed_append]
    have hstep : ∀ a : Q2NNAccumulator, a.feed [(d, i)] = a.Update d i := fun _ => rfl
    rw [hstep]
    by_cases hxs : xs = []
    · subst hxs
      have e : (init.feed []).Update d i = ⟨d, UINT_MAX, i, UINT_MAX⟩ := by
        show init.Update d i = _
        simp [Q2NNAccumulator.Update, init, hd]
      rw [e]
      simp
    · have hlt' : ∀ p ∈ xs, p.1 < UINT_MAX := fun p hp => hlt p (List.mem_append_left _ hp)
      obtain ⟨h1, h2, h3⟩ := ih hlt' hxs
      generalize init.feed xs = a at h1 h2 h3
      obtain ⟨d0, d1, i0, i1⟩ := a
      dsimp only at h1 h2 h3
      have hd0 : d0 < UINT_MAX := hlt' _ h1
      unfold Q2NNAccumulator.Update
      dsimp only
      split_ifs with c1 c2 <;> dsimp only
      · refine ⟨by simp, ?_, Or.inr ⟨by simp [h1], c1, ?_⟩⟩
        · intro p hp
          rcases List.mem_append.1 hp with hp | hp
          · exact le_trans (le_of_lt c1) (h2 p hp)
          · simp only [List.mem_singleton] at hp; subst hp; exact le_refl _
        · intro p hp hlt2
          rcases List.mem_append.1 hp with hp | hp
          · exact h2 p hp
          · simp only [List.mem_singleton] at hp; subst hp
            exact absurd hlt2 (lt_irrefl _)
      · refine ⟨by simp [h1], ?_, Or.inr ⟨by simp, by omega, ?_⟩⟩
        · intro p hp
          rcases List.mem_append.1 hp with hp | hp
          · exact h2 p hp
          · simp only [List.mem_singleton] at hp; subst hp; dsimp only; omega
        · intro p hp hlt2
          rcases List.mem_append.1 hp with hp | hp
          · rcases h3 with ⟨_, _, h3⟩ | ⟨_, _, h3⟩
            · have := h3 p hp; omega
            · have := h3 p hp hlt2; omega
          · simp only [List.mem_singleton] at hp; subst hp; exact le_refl _
      · refine ⟨by simp [h1], ?_, ?_⟩
        · intro p hp
          rcases List.mem_append.1 hp with hp | hp
          · exact h2 p hp
          · simp only [List.mem_singleton] at hp; subst hp; dsimp only; omega
        · rcases h3 with ⟨e1, e2, h3⟩ | ⟨m1, l1, h3⟩
          · left
            refine ⟨e1, e2, ?_⟩
            intro p hp
            rcases List.mem_append.1 hp with hp | hp
            · exact h3 p hp
            · simp only [List.mem_singleton] at hp; subst hp; dsimp only
              by_contra hne'
              exact c2 ⟨hne', by omega⟩
          · right
            refine ⟨by simp [m1], l1, ?_⟩
            intro p hp hlt2
            rcases List.mem_append.1 hp with hp | hp
            · exact h3 p hp hlt2
            · simp only [List.mem_singleton] at hp; subst hp; dsimp only at hlt2 ⊢
              by_contra hne'
              exact c2 ⟨by omega, by omega⟩

theorem foldl_le_add_mul (f : Nat → Nat → Nat) (B : Nat) (l : List Nat)
    (h : ∀ s k, k ∈ l → f s k ≤ s + B) : ∀ s, l.foldl f s ≤ s + B * l.length := by
  induction l with
  | nil => intro s; simp
  | cons k l ih =>
    intro s
    simp only [List.foldl_cons, List.length_cons]
    have h1 := ih (fun s k' hk => h s k' (List.mem_cons_of_mem _ hk)) (f s k)
    have h2 := h s k (List.mem_cons_self _ _)
    have : B * (l.length + 1) = B * l.length + B := by ring
    omega

/-- The L1 distance of two byte descriptors is at most `128 * 255`. -/
theorem L1Distance_le (a b : U8Descriptor) (ha : a.IsU8) (hb : b.IsU8) :
    L1Distance a b ≤ 32640 := by
  unfold L1Distance
  have := foldl_le_add_mul
    (fun sum i =>
      if a.ufeatures i < b.ufeatures i then sum + (b.ufeatures i - a.ufeatures i)
      else sum + (a.ufeatures i - b.ufeatures i)) 255 (List.range 128)
    (by
      intro s k hk
      have hk' := List.mem_range.1 hk
      have h1 := ha k hk'
      have h2 := hb k hk'
      dsimp only
      split_ifs <;> omega) 0
  rw [List.length_range] at this
  omega

theorem TreeView.Sub_trans (a b c : TreeView) (h1 : Sub a b) : Sub b c → Sub a c := by
  induction c with
  | leaf b' e xs bx => intro h2; rw [h2] at h1; exact h1
  | node dim val bx l r ihl ihr =>
    intro h2
    rcases h2 with h | h | h
    · rw [h] at h1; exact h1
    · exact Or.inr (Or.inl (ihl h))
    · exact Or.inr (Or.inr (ihr h))

theorem TreeView.Sub_Shape (s : TreeView) :
    ∀ (t : TreeView) (lo hi : Nat), Shape t lo hi → Sub s t →
      ∃ lo' hi', Shape s lo' hi' ∧ lo ≤ lo' ∧ hi' ≤ hi := by
  intro t
  induction t with
  | leaf b e xs bx =>
    intro lo hi hs h
    rw [h]
    exact ⟨lo, hi, hs, le_refl _, le_refl _⟩
  | node dim val bx l r ihl ihr =>
    intro lo hi hs h
    rcases h with h | h | h
    · rw [h]; exact ⟨lo, hi, hs, le_refl _, le_refl _⟩
    · obtain ⟨m, h1, h2⟩ := hs
      obtain ⟨lo', hi', q1, q2, q3⟩ := ihl lo m h1 h
      exact ⟨lo', hi', q1, q2, le_trans q3 (le_of_lt (Shape_lt _ _ _ h2))⟩
    · obtain ⟨m, h1, h2⟩ := hs
      obtain ⟨lo', hi', q1, q2, q3⟩ := ihr m hi h2 h
      exact ⟨lo', hi', q1, le_trans (le_of_lt (Shape_lt _ _ _ h1)) q2, q3⟩

theorem TreeView.Rep_bound (nodes : List Node) (bbs : List BoundingBox) :
    ∀ (s : TreeView) (n : Nat), Rep nodes bbs n s → n + s.size ≤ nodes.length := by
  intro s
  induction s with
  | leaf b e xs bx =>
    intro n h
    obtain ⟨nd, q1, _⟩ := h
    have := (List.getElem?_eq_some.1 q1).1
    simp only [TreeView.size]; omega
  | node dim val bx l r ihl ihr =>
    intro n h
    obtain ⟨nd, q1, q2, q3, q4, q5, q6, q7, q8⟩ := h
    have := ihr _ q8
    simp only [TreeView.size]; omega

theorem subtreeSize_eq (t : KDTree) :
    ∀ (s : TreeView) (n fuel : Nat), Rep t.nodes t.bb n s →
      s.size ≤ fuel → t.subtreeSize fuel n = s.size := by
  intro s
  induction s with
  | leaf b e xs bx =>
    intro n fuel h hf
    obtain ⟨nd, q1, q2, q3, q4, _⟩ := h
    simp only [TreeView.size] at hf
    obtain ⟨f, rfl⟩ : ∃ f, fuel = f + 1 := ⟨fuel - 1, by omega⟩
    simp [KDTree.subtreeSize, q1, q2, TreeView.size]
  | node dim val bx l r ihl ihr =>
    intro n fuel h hf
    obtain ⟨nd, q1, q2, q3, q4, q5, q6, q7, q8⟩ := h
    simp only [TreeView.size] at hf
    obtain ⟨f, rfl⟩ : ∃ f, fuel = f + 1 := ⟨fuel - 1, by omega⟩
    simp only [KDTree.subtreeSize, q1, q2, TreeView.size, KDTree.Left, KDTree.Right, q5]
    rw [ihl (n + 1) f q7 (by omega), ihr (n + 1 + l.size) f q8 (by omega)]
    simp

/-- What a valid heap entry stands for. -/
theorem Entry.OK_data (trees : List KDTree) (descs : Nat → U8Descriptor) (N : Nat)
    (e : Entry) (h : e.OK trees descs N) :
    ∃ t tv s, trees[e.tree]? = some t ∧ t.Built descs N tv ∧ t.nodes.length ≤ 65536 ∧
      Sub s tv ∧ Rep t.nodes t.bb e.node s ∧ ListOK t.list s ∧
      e.indices trees = s.indices ∧ e.size trees = s.size ∧
      e.node + s.size ≤ t.nodes.length := by
  obtain ⟨t, tv, s, ht, hb, hn, hsub, hrep⟩ := h
  have hl := Sub_ListOK t.list s tv hsub hb.2.2.2.1
  have hsz : s.size ≤ t.nodes.length := by
    have := Sub_size s tv hsub
    have h2 : t.nodes.length = tv.size := hb.2.2.2.2.2.1
    omega
  refine ⟨t, tv, s, ht, hb, hn, hsub, hrep, hl, ?_, ?_, Rep_bound _ _ _ _ hrep⟩
  · simp only [Entry.indices, ht]
    exact subtreeIndices_eq t s e.node _ hrep hl hsz
  · simp only [Entry.size, ht]
    exact subtreeSize_eq t s e.node _ hrep hsz

theorem extractMin_perm : ∀ (rest : List Entry) (e : Entry),
    ((Q2NNpq.extractMin e rest).1 :: (Q2NNpq.extractMin e rest).2).Perm (e :: rest) := by
  intro rest
  induction rest with
  | nil => intro e; simp [Q2NNpq.extractMin]
  | cons x xs ih =>
    intro e
    unfold Q2NNpq.extractMin
    split_ifs
    · exact List.Perm.refl _
    · dsimp only
      exact (List.Perm.swap _ _ _).trans (List.Perm.cons e (ih x))

theorem slice_subset (L : List Nat) (a b : Nat) : ∀ i ∈ slice L a b, i ∈ L := by
  intro i hi
  unfold slice at hi
  exact List.mem_of_mem_drop (List.mem_of_mem_take hi)

theorem ProcessPQ_nil (trees : List KDTree) (q : U8Descriptor) (c : Candidate2NNQuery)
    (h : c.pq = []) : c.ProcessPQ trees q = .ok (false, c) := by
  unfold Candidate2NNQuery.ProcessPQ
  rw [h]
  rfl

/-- One iteration of `ProcessPQ` on a non-empty heap keeps the invariant and removes at
least one node from below the heap entries. -/
theorem ProcessPQ_step (trees : List KDTree) (descs : Nat → U8Descriptor) (N T : Nat)
    (q : U8Descriptor) (c : Candidate2NNQuery) (hinv : c.Inv trees descs N T)
    (e0 : Entry) (rest : List Entry) (hpq : c.pq = e0 :: rest) :
    ∃ c1, c.ProcessPQ trees q = .ok (true, c1) ∧ c1.Inv trees descs N T ∧
      (c1.pq.map (fun e => e.size trees)).sum < (c.pq.map (fun e => e.size trees)).sum := by
  obtain ⟨i1, i2, i3, i4⟩ := hinv
  have hperm := extractMin_perm rest e0
  rw [← hpq] at hperm
  generalize hpqe : (Q2NNpq.extractMin e0 rest).1 = pqe at hperm
  generalize hpq1 : (Q2NNpq.extractMin e0 rest).2 = pq1 at hperm
  have hpop : Q2NNpq.Pop c.pq = some (pqe, pq1) := by
    rw [hpq]; simp only [Q2NNpq.Pop]; rw [← hpqe, ← hpq1]
  have hmem : pqe ∈ c.pq := hperm.mem_iff.1 (List.mem_cons_self _ _)
  have hsub1 : ∀ e ∈ pq1, e ∈ c.pq := fun e he => hperm.mem_iff.1 (List.mem_cons_of_mem _ he)
  have hsumI : (c.pq.map (fun e => (e.indices trees).length)).sum =
      (pqe.indices trees).length + (pq1.map (fun e => (e.indices trees).length)).sum := by
    rw [← (hperm.map _).sum_eq]; simp
  have hsumS : (c.pq.map (fun e => e.size trees)).sum =
      pqe.size trees + (pq1.map (fun e => e.size trees)).sum := by
    rw [← (hperm.map _).sum_eq]; simp
  obtain ⟨t, tv, s, ht, hb, hn, hsub, hrep, hl, hidx, hsz, hbound⟩ :=
    Entry.OK_data trees descs N pqe (i1 pqe hmem)
  have hcov : ∀ i, i < N → i ∈ (c.leafs.map (fun leaf => leaf.list trees)).flatten ∨
      i ∈ pqe.indices trees ∨ ∃ e ∈ pq1, i ∈ e.indices trees := by
    intro i hi
    rcases i4 i hi with h | ⟨e, he, hie⟩
    · exact Or.inl h
    · rcases List.mem_cons.1 (hperm.mem_iff.2 he) with h | h
      · subst h; exact Or.inr (Or.inl hie)
      · exact Or.inr (Or.inr ⟨e, h, hie⟩)
  have hshape : Shape tv 0 N := hb.2.1
  have hlistlen : t.list.length = N := hb.2.2.2.2.2.2.2.2.2.2
  have hlistperm : t.list.Perm (List.range N) := hb.2.2.2.2.2.2.2.1
  cases s with
  | leaf b e xs bx =>
    obtain ⟨nd, q1, q2, q3, q4, q5⟩ := hrep
    obtain ⟨lo', hi', hsh, _, hhi⟩ := Sub_Shape _ tv 0 N hshape hsub
    obtain ⟨s1, s2, s3, s4⟩ := hsh
    subst s1; subst s2
    simp only [TreeView.ListOK] at hl
    simp only [TreeView.indices] at hidx
    simp only [TreeView.size] at hsz
    have hle : nd.index ≤ nd.end_ := by omega
    refine ⟨⟨pq1, c.leafs ++ [⟨pqe.tree, nd.index, nd.end_⟩],
      c.found_descriptors + (nd.end_ - nd.index)⟩, ?_, ⟨?_, ?_, ?_, ?_⟩, ?_⟩
    · unfold Candidate2NNQuery.ProcessPQ
      rw [hpop]
      simp only [ht, q1, q2, if_true]
      rw [if_neg (by simpa using hle)]
    · intro e' he'; exact i1 e' (hsub1 e' he')
    · intro leaf hleaf
      rcases List.mem_append.1 hleaf with h | h
      · exact i2 leaf h
      · simp only [List.mem_singleton] at h
        subst h
        have hlist : Leaf.list trees ⟨pqe.tree, nd.index, nd.end_⟩ =
            slice t.list nd.index nd.end_ := by
          simp only [Leaf.list, ht]
        refine ⟨?_, ?_⟩
        · rw [hlist]
          simp only [Leaf.entries, ht]
          rw [if_pos ⟨by omega, by omega⟩]
        · intro i hi
          rw [hlist] at hi
          exact List.mem_range.1 (hlistperm.mem_iff.1 (slice_subset _ _ _ i hi))
    · dsimp only
      rw [hsumI, hidx, s4] at i3
      omega
    · intro i hi
      dsimp only
      rcases hcov i hi with h | h | h
      · left
        simp only [List.map_append, List.flatten_append, List.mem_append]
        exact Or.inl h
      · left
        simp only [List.map_append, List.flatten_append, List.mem_append]
        right
        rw [hidx, hl] at h
        simp only [Leaf.list, ht, q3, q4, List.map_cons, List.map_nil, List.flatten_cons,
          List.flatten_nil, List.append_nil]
        exact h
      · exact Or.inr h
    · dsimp only
      rw [hsumS, hsz]
      omega
  | node dim val bx l r =>
    obtain ⟨nd, q1, q2, q3, q4, q5, q6, q7, q8⟩ := hrep
    simp only [TreeView.size] at hsz hbound
    simp only [TreeView.indices] at hidx
    have hl1 : KDTree.Left pqe.node % 65536 = pqe.node + 1 := by
      unfold KDTree.Left
      have := l.size_pos
      have := r.size_pos
      exact Nat.mod_eq_of_lt (by omega)
    have hr1 : KDTree.Right nd % 65536 = pqe.node + 1 + l.size := by
      unfold KDTree.Right
      rw [q5]
      have := r.size_pos
      exact Nat.mod_eq_of_lt (by omega)
    have hbl := Rep_box _ _ _ _ q7
    have hbr := Rep_box _ _ _ _ q8
    have hokl : Entry.OK trees descs N ⟨L1DistanceBB q l.box % 65536, pqe.tree, pqe.node + 1⟩ :=
      ⟨t, tv, l, ht, hb, hn, Sub_trans l (node dim val bx l r) tv
        (show Sub l (node dim val bx l r) from Or.inr (Or.inl (Sub_refl l))) hsub, q7⟩
    have hokr : Entry.OK trees descs N
        ⟨L1DistanceBB q r.box % 65536, pqe.tree, pqe.node + 1 + l.size⟩ :=
      ⟨t, tv, r, ht, hb, hn, Sub_trans r (node dim val bx l r) tv
        (show Sub r (node dim val bx l r) from Or.inr (Or.inr (Sub_refl r))) hsub, q8⟩
    -- the subtrees found for the two new entries are `l` and `r`
    have hil : Entry.indices trees ⟨L1DistanceBB q l.box % 65536, pqe.tree, pqe.node + 1⟩ =
        l.indices := by
      simp only [Entry.indices, ht]
      exact subtreeIndices_eq t l _ _ q7 hl.1 (by have := Rep_bound _ _ _ _ q7; omega)
    have hir : Entry.indices trees
        ⟨L1DistanceBB q r.box % 65536, pqe.tree, pqe.node + 1 + l.size⟩ = r.indices := by
      simp only [Entry.indices, ht]
      exact subtreeIndices_eq t r _ _ q8 hl.2 (by have := Rep_bound _ _ _ _ q8; omega)
    have hsl : Entry.size trees ⟨L1DistanceBB q l.box % 65536, pqe.tree, pqe.node + 1⟩ =
        l.size := by
      simp only [Entry.size, ht]
      exact subtreeSize_eq t l _ _ q7 (by have := Rep_bound _ _ _ _ q7; omega)
    have hsr : Entry.size trees
        ⟨L1DistanceBB q r.box % 65536, pqe.tree, pqe.node + 1 + l.size⟩ = r.size := by
      simp only [Entry.size, ht]
      exact subtreeSize_eq t r _ _ q8 (by have := Rep_bound _ _ _ _ q8; omega)
    refine ⟨⟨Q2NNpq.Push (Q2NNpq.Push pq1
        ⟨L1DistanceBB q l.box % 65536, pqe.tree, pqe.node + 1⟩)
        ⟨L1DistanceBB q r.box % 65536, pqe.tree, pqe.node + 1 + l.size⟩,
      c.leafs, c.found_descriptors⟩, ?_, ⟨?_, ?_, ?_, ?_⟩, ?_⟩
    · unfold Candidate2NNQuery.ProcessPQ
      rw [hpop]
      simp only [ht, q1, q2, hl1, hr1, hbl, hbr]
      rfl
    · intro e' he'
      simp only [Q2NNpq.Push, List.mem_append, List.mem_singleton] at he'
      rcases he' with (h | h) | h
      · exact i1 e' (hsub1 e' h)
      · rw [h]; exact hokl
      · rw [h]; exact hokr
    · exact i2
    · dsimp only
      simp only [Q2NNpq.Push, List.map_append, List.sum_append, List.map_cons, List.map_nil,
        List.sum_cons, List.sum_nil, hil, hir]
      rw [hsumI, hidx, List.length_append] at i3
      omega
    · intro i hi
      dsimp only
      rcases hcov i hi with h | h | ⟨e', he', hie⟩
      · exact Or.inl h
      · right
        rw [hidx] at h
        rcases List.mem_append.1 h with h | h
        · exact ⟨⟨L1DistanceBB q l.box % 65536, pqe.tree, pqe.node + 1⟩,
            by simp [Q2NNpq.Push], by rw [hil]; exact h⟩
        · exact ⟨⟨L1DistanceBB q r.box % 65536, pqe.tree, pqe.node + 1 + l.size⟩,
            by simp [Q2NNpq.Push], by rw [hir]; exact h⟩
      · right
        exact ⟨e', by simp [Q2NNpq.Push, he'], hie⟩
    · dsimp only
      simp only [Q2NNpq.Push, List.map_append, List.sum_append, List.map_cons, List.map_nil,
        List.sum_cons, List.sum_nil, hsl, hsr]
      rw [hsumS, hsz]
      omega

/-- The first loop of `Candidate2NNQuery::operator()` pushes the root of every tree. -/
theorem pushRoots_spec (trees : List KDTree) (descs : Nat → U8Descriptor) (N : Nat)
    (q : U8Descriptor)
    (hall : ∀ t ∈ trees, (∃ tv, t.Built descs N tv) ∧ t.nodes.length ≤ 65536) :
    ∀ (ts : List KDTree) (i : Nat) (pq : List Entry), (∀ k, ts[k]? = trees[i + k]?) →
      ∃ ents, Candidate2NNQuery.pushRoots q ts i pq = .ok (pq ++ ents) ∧
        (∀ e ∈ ents, e.OK trees descs N) ∧
        (ents.map (fun e => (e.indices trees).length)).sum = ts.length * N ∧
        (ents.map (fun e => e.size trees)).sum = (ts.map (fun t => t.nodes.length)).sum ∧
        (ts ≠ [] → ∀ j, j < N → ∃ e ∈ ents, j ∈ e.indices trees) := by
  intro ts
  induction ts with
  | nil =>
    intro i pq _
    exact ⟨[], by simp [Candidate2NNQuery.pushRoots], by simp, by simp, by simp, by simp⟩
  | cons t ts ih =>
    intro i pq hk
    have ht : trees[i]? = some t := by
      have := hk 0
      simpa using this.symm
    have htm : t ∈ trees := List.getElem?_mem ht
    obtain ⟨⟨tv, hb⟩, hn⟩ := hall t htm
    have hrep : Rep t.nodes t.bb 0 tv := hb.1
    have hbox := Rep_box _ _ _ _ hrep
    have hok : Entry.OK trees descs N ⟨L1DistanceBB q tv.box % 65536, i, 0⟩ :=
      ⟨t, tv, tv, ht, hb, hn, Sub_refl tv, hrep⟩
    obtain ⟨t', tv', s', ht', _, _, _, hrep', _, hidx, hsz, _⟩ :=
      Entry.OK_data trees descs N _ hok
    have hlen : t.nodes.length = tv.size := hb.2.2.2.2.2.1
    have hidx2 : Entry.indices trees ⟨L1DistanceBB q tv.box % 65536, i, 0⟩ = t.list := by
      simp only [Entry.indices, ht]
      rw [subtreeIndices_eq t tv 0 _ hrep hb.2.2.2.1 (by omega)]
      exact hb.2.2.1
    have hsz2 : Entry.size trees ⟨L1DistanceBB q tv.box % 65536, i, 0⟩ = t.nodes.length := by
      simp only [Entry.size, ht]
      rw [subtreeSize_eq t tv 0 _ hrep (by omega)]
      exact hlen.symm
    have hll : t.list.length = N := hb.2.2.2.2.2.2.2.2.2.2
    obtain ⟨ents, h1, h2, h3, h4, _⟩ := ih (i + 1)
      (Q2NNpq.Push pq ⟨L1DistanceBB q tv.box % 65536, i, 0⟩)
      (by
        intro k
        have := hk (k + 1)
        simp only [List.getElem?_cons_succ] at this
        rw [this]; congr 1; omega)
    refine ⟨⟨L1DistanceBB q tv.box % 65536, i, 0⟩ :: ents, ?_, ?_, ?_, ?_, ?_⟩
    · unfold Candidate2NNQuery.pushRoots
      rw [hbox]
      dsimp only
      rw [h1]
      simp [Q2NNpq.Push]
    · intro e he
      rcases List.mem_cons.1 he with h | h
      · rw [h]; exact hok
      · exact h2 e h
    · simp only [List.map_cons, List.sum_cons, h3, hidx2, hll, List.length_cons]
      ring
    · simp only [List.map_cons, List.sum_cons, h4, hsz2]
    · intro _ j hj
      refine ⟨_, List.mem_cons_self _ _, ?_⟩
      rw [hidx2]
      exact hb.2.2.2.2.2.2.2.1.mem_iff.2 (List.mem_range.2 hj)

/-- Every tree of a forest returned by `Build` over `N` descriptors is laid out as some
`TreeView`, keeps the descriptor array, and `N` is positive and below `2^31 - 1`. -/
theorem Build_forest_spec (descs : Nat → U8Descriptor) (N T leaf_size : Nat)
    (sdim : Nat → Nat) (rng rng1 : Rng) (forest : List KDTree)
    (h : Build descs N T leaf_size sdim rng = .ok (forest, rng1)) :
    forest.length = T ∧
    ∀ t ∈ forest, (∃ tv, t.Built descs N tv) ∧ 0 < N ∧ N < 2147483647 := by
  obtain ⟨hl, hall⟩ := BuildTrees_spec descs N sdim leaf_size T rng rng1 forest h
  refine ⟨hl, ?_⟩
  intro t ht
  obtain ⟨t0, rng0, rng2, h0, hb⟩ := hall t ht
  obtain ⟨tv, hbt, _, _, _⟩ := KDTree_Build_spec descs N sdim leaf_size rng0 rng2 t0 t h0 hb
  have hN := (KDTree_new_spec descs N t0 h0).1
  have hpos := Shape_lt tv 0 N hbt.2.1
  exact ⟨⟨tv, hbt⟩, hpos, hN⟩

set_option maxRecDepth 100000 in
theorem exForest2_Build :
    Build exDescs2 18 2 1 exSdim exRng2 = .ok ([exTree2, exTree2], ⟨exRng2.stream, 4⟩) := by
  rfl

theorem exQ_IsU8 : exQ.IsU8 := by
  intro k _
  simp only [exQ]
  split_ifs <;> omega

theorem Update_distance0 (a : Q2NNAccumulator) (d i : Nat) :
    (a.Update d i).distance0 = min d a.distance0 := by
  unfold Q2NNAccumulator.Update
  split_ifs <;> first | omega | (show _ = min _ _; omega) | (dsimp only; omega)

theorem Update_distance1 (a : Q2NNAccumulator) (d i : Nat) :
    (a.Update d i).distance1 =
      if d < a.distance0 then a.distance0
      else if d ≠ a.distance0 ∧ d < a.distance1 then d else a.distance1 := by
  unfold Q2NNAccumulator.Update
  split_ifs <;> rfl

theorem Update_index0 (a : Q2NNAccumulator) (d i : Nat) :
    (a.Update d i).index0 = if d < a.distance0 then i else a.index0 := by
  unfold Q2NNAccumulator.Update
  split_ifs <;> rfl

/-- A fresh accumulator fed with any sequence has `distance0 < distance1`, or both
distances still `UINT_MAX`; no distance exceeds `UINT_MAX`. -/
theorem feed_init_ordered (xs : List (Nat × Nat)) :
    (init.feed xs).distance1 ≤ UINT_MAX ∧
    ((init.feed xs).distance0 < (init.feed xs).distance1 ∨
      ((init.feed xs).distance0 = UINT_MAX ∧ (init.feed xs).distance1 = UINT_MAX)) := by
  rcases feed_init_inv xs with h | ⟨h1, h2, _, _⟩
  · rw [h]; exact ⟨le_refl _, Or.inr ⟨rfl, rfl⟩⟩
  · exact ⟨h2, Or.inl h1⟩

/-- Feeding `ys` to an accumulator `a` gives the two distances and the `index[0]` of
`a.Combine(b)`, `b` being a fresh accumulator fed with `ys`. -/
theorem feed_eq_Combine_fields (a : Q2NNAccumulator) (ha1 : a.distance1 ≤ UINT_MAX)
    (ha : a.distance0 < a.distance1 ∨ (a.distance0 = UINT_MAX ∧ a.distance1 = UINT_MAX))
    (ys : List (Nat × Nat)) :
    (a.feed ys).distance0 = (a.Combine (init.feed ys)).distance0 ∧
    (a.feed ys).distance1 = (a.Combine (init.feed ys)).distance1 ∧
    (a.feed ys).index0 = (a.Combine (init.feed ys)).index0 := by
  induction ys using List.reverseRecOn with
  | nil =>
    have hU : UINT_MAX = 4294967295 := rfl
    simp only [Combine_distance0, Combine_distance1, Combine_index0]
    show a.distance0 = min a.distance0 UINT_MAX ∧ a.distance1 = _ ∧ a.index0 = _
    have e0 : init.distance0 = UINT_MAX := rfl
    have e1 : init.distance1 = UINT_MAX := rfl
    have hf : init.feed [] = init := rfl
    rw [hf, e0, e1]
    refine ⟨by omega, ?_, ?_⟩
    · split_ifs <;> omega
    · split_ifs <;> first | rfl | omega
  | append_singleton ys p ih =>
    obtain ⟨d, i⟩ := p
    obtain ⟨h0, h1, h2⟩ := ih
    obtain ⟨hb1, hb⟩ := feed_init_ordered ys
    rw [feed_append, feed_append]
    have hstep : ∀ c : Q2NNAccumulator, c.feed [(d, i)] = c.Update d i := fun _ => rfl
    rw [hstep, hstep]
    simp only [Combine_distance0, Combine_distance1, Combine_index0] at h0 h1 h2 ⊢
    simp only [Update_distance0, Update_distance1, Update_index0, h0, h1, h2]
    generalize init.feed ys = b at hb1 hb
    obtain ⟨a0, a1, ai0, ai1⟩ := a
    obtain ⟨b0, b1, bi0, bi1⟩ := b
    dsimp only at ha ha1 hb hb1 ⊢
    refine ⟨by omega, ?_, ?_⟩
    · split_ifs <;> omega
    · split_ifs <;> first | rfl | omega

/-- Each slot of a fresh accumulator fed with `xs` is the initial `(+inf, -1)` or a fed pair. -/
theorem feed_init_slots (xs : List (Nat × Nat)) :
    (((init.feed xs).distance0, (init.feed xs).index0) = (UINT_MAX, UINT_MAX) ∨
      ((init.feed xs).distance0, (init.feed xs).index0) ∈ xs) ∧
    (((init.feed xs).distance1, (init.feed xs).index1) = (UINT_MAX, UINT_MAX) ∨
      ((init.feed xs).distance1, (init.feed xs).index1) ∈ xs) := by
  rcases feed_init_inv xs with h | ⟨_, _, h3, h4⟩
  · rw [h]; exact ⟨Or.inl rfl, Or.inl rfl⟩
  · refine ⟨Or.inr h3, ?_⟩
    rcases h4 with ⟨h, h'⟩ | h
    · left; rw [h, h']
    · exact Or.inr h

/-- C11 (counterexample): with xs = [(5,1),(7,2)] and ys = [(5,3),(7,4)] (disjoint index
sets, two distinct distances each, all below UINT_MAX) the combined accumulator ends with
index[1] = 4 while the sequentially fed one ends with index[1] = 2. -/
theorem C11_counterexample :
    (∀ p ∈ [(5, 1), (7, 2)], ∀ q ∈ [(5, 3), (7, 4)], (p : Nat × Nat).2 ≠ (q : Nat × Nat).2) ∧
    (∃ p ∈ [(5, 1), (7, 2)], ∃ q ∈ [(5, 1), (7, 2)], (p : Nat × Nat).1 ≠ (q : Nat × Nat).1) ∧
    (∃ p ∈ [(5, 3), (7, 4)], ∃ q ∈ [(5, 3), (7, 4)], (p : Nat × Nat).1 ≠ (q : Nat × Nat).1) ∧
    (∀ p ∈ [(5, 1), (7, 2), (5, 3), (7, 4)], (p : Nat × Nat).1 < UINT_MAX) ∧
    (init.feed [(5, 1), (7, 2)]).Combine (init.feed [(5, 3), (7, 4)]) = ⟨5, 7, 1, 4⟩ ∧
    init.feed ([(5, 1), (7, 2)] ++ [(5, 3), (7, 4)]) = ⟨5, 7, 1, 2⟩ ∧
    (init.feed [(5, 1), (7, 2)]).Combine (init.feed [(5, 3), (7, 4)]) ≠
      init.feed ([(5, 1), (7, 2)] ++ [(5, 3), (7, 4)]) := by
  refine ⟨by decide, by decide, by decide, by decide, by decide, by decide, by decide⟩

/-- C11 (amended): for any two sequences xs and ys, accumulator A fed with xs (from fresh)
and then combined with accumulator B fed with ys has the same two distances and the same
index[0] as one accumulator fed with xs followed by ys; when moreover every fed distance is
below UINT_MAX and equal fed distances carry equal indices, the two accumulators are equal. -/
theorem C11_combine_matches_sequential_feed (xs ys : List (Nat × Nat)) :
    ((init.feed xs).Combine (init.feed ys)).distance0 = (init.feed (xs ++ ys)).distance0 ∧
    ((init.feed xs).Combine (init.feed ys)).distance1 = (init.feed (xs ++ ys)).distance1 ∧
    ((init.feed xs).Combine (init.feed ys)).index0 = (init.feed (xs ++ ys)).index0 ∧
    ((∀ p ∈ xs ++ ys, p.1 < UINT_MAX) →
      (∀ p ∈ xs ++ ys, ∀ q ∈ xs ++ ys, p.1 = q.1 → p.2 = q.2) →
      (init.feed xs).Combine (init.feed ys) = init.feed (xs ++ ys)) := by
  obtain ⟨ha1, ha⟩ := feed_init_ordered xs
  obtain ⟨h0, h1, h2⟩ := feed_eq_Combine_fields (init.feed xs) ha1 ha ys
  rw [← feed_append] at h0 h1 h2
  refine ⟨h0.symm, h1.symm, h2.symm, fun hlt hinj => ?_⟩
  obtain ⟨_, hs1⟩ := feed_init_slots (xs ++ ys)
  obtain ⟨_, hc1⟩ := Combine_slot_mem (init.feed xs) (init.feed ys)
  obtain ⟨hx0, hx1⟩ := feed_init_slots xs
  obtain ⟨hy0, hy1⟩ := feed_init_slots ys
  have key : ∀ p : Nat × Nat, (p = (UINT_MAX, UINT_MAX) ∨ p ∈ xs) ∨
      (p = (UINT_MAX, UINT_MAX) ∨ p ∈ ys) →
      (p.1 = UINT_MAX ∧ p.2 = UINT_MAX) ∨ p ∈ xs ++ ys := by
    intro p hp
    rcases hp with (h | h) | (h | h)
    · left; rw [h]; exact ⟨rfl, rfl⟩
    · right; exact List.mem_append_left _ h
    · left; rw [h]; exact ⟨rfl, rfl⟩
    · right; exact List.mem_append_right _ h
  have hc := key (((init.feed xs).Combine (init.feed ys)).distance1,
      ((init.feed xs).Combine (init.feed ys)).index1) (by
    simp only [List.mem_cons, List.mem_singleton, List.not_mem_nil, or_false] at hc1
    rcases hc1 with h | h | h | h
    · rw [h]; exact Or.inl hx0
    · rw [h]; exact Or.inl hx1
    · rw [h]; exact Or.inr hy0
    · rw [h]; exact Or.inr hy1)
  dsimp only at hc
  have hi1 : ((init.feed xs).Combine (init.feed ys)).index1 = (init.feed (xs ++ ys)).index1 := by
    rcases hc with ⟨c1, c2⟩ | c
    · rcases hs1 with s | s
      · rw [c2]; exact (congrArg Prod.snd s).symm
      · have := hlt _ s
        dsimp only at this
        omega
    · rcases hs1 with s | s
      · have := hlt _ c
        have s1 := congrArg Prod.fst s
        dsimp only at this s1
        omega
      · exact hinj _ c _ s h1.symm
  generalize (init.feed xs).Combine (init.feed ys) = c at h0 h1 h2 hi1
  generalize init.feed (xs ++ ys) = s at h0 h1 h2 hi1
  obtain ⟨c0, c1, ci0, ci1⟩ := c
  obtain ⟨s0, s1, si0, si1⟩ := s
  dsimp only at h0 h1 h2 hi1
  rw [h0, h1, h2, hi1]

/-- C11 witness: xs = [(7,1),(9,2)], ys = [(5,3),(8,4)]. -/
theorem C11_combine_matches_sequential_feed_witness :
    (init.feed [(7, 1), (9, 2)]).Combine (init.feed [(5, 3), (8, 4)]) =
      init.feed ([(7, 1), (9, 2)] ++ [(5, 3), (8, 4)]) :=
  (C11_combine_matches_sequential_feed [(7, 1), (9, 2)] [(5, 3), (8, 4)]).2.2.2
    (by decide) (by decide)

/-! ### C12: the budget of the candidate enumerator -/

/-- `ProcessPQ` keeps `_found_descriptors` equal to the summed length of the ranges found,
and appends at most one range. -/
theorem ProcessPQ_found (trees : List KDTree) (q : U8Descriptor) (c c1 : Candidate2NNQuery)
    (b : Bool) (h : c.ProcessPQ trees q = .ok (b, c1))
    (hf : c.found_descriptors = (c.leafs.map (fun l => l.second - l.first)).sum) :
    c1.found_descriptors = (c1.leafs.map (fun l => l.second - l.first)).sum ∧
    (c1.leafs = c.leafs ∨ ∃ leaf, c1.leafs = c.leafs ++ [leaf]) := by
  unfold Candidate2NNQuery.ProcessPQ at h
  cases hpop : Q2NNpq.Pop c.pq with
  | none =>
    rw [hpop] at h
    simp only [Except.ok.injEq, Prod.mk.injEq] at h
    rw [← h.2]
    exact ⟨hf, Or.inl rfl⟩
  | some p =>
    obtain ⟨pqe, pq1⟩ := p
    rw [hpop] at h
    dsimp only at h
    cases ht : trees[pqe.tree]? with
    | none => rw [ht] at h; cases h
    | some tree =>
      rw [ht] at h
      dsimp only at h
      cases hn : tree.nodes[pqe.node]? with
      | none => rw [hn] at h; cases h
      | some nd =>
        rw [hn] at h
        dsimp only at h
        by_cases hl : nd.leaf = true
        · rw [if_pos hl] at h
          by_cases hr : nd.index ≤ nd.end_
          · rw [if_neg (not_not.2 hr)] at h
            simp only [Except.ok.injEq, Prod.mk.injEq] at h
            rw [← h.2]
            dsimp only
            refine ⟨?_, Or.inr ⟨_, rfl⟩⟩
            rw [List.map_append, List.sum_append, hf]
            simp
          · rw [if_pos hr] at h; cases h
        · rw [if_neg hl] at h
          cases hbl : tree.bb[KDTree.Left pqe.node % 65536]? with
          | none => rw [hbl] at h; cases h
          | some bl =>
            cases hbr : tree.bb[KDTree.Right nd % 65536]? with
            | none => rw [hbl, hbr] at h; cases h
            | some br =>
              rw [hbl, hbr] at h
              simp only [Except.ok.injEq, Prod.mk.injEq] at h
              rw [← h.2]
              exact ⟨hf, Or.inl rfl⟩

/-- The loop of the enumerator stops with the ranges found before the last one summing to
less than the budget. -/
theorem loop_budget (trees : List KDTree) (q : U8Descriptor) (M : Nat) :
    ∀ (fuel : Nat) (c c1 : Candidate2NNQuery),
      Candidate2NNQuery.loop trees q M fuel c = .ok c1 →
      c.found_descriptors = (c.leafs.map (fun l => l.second - l.first)).sum →
      (c.leafs ≠ [] → ((c.leafs.map (fun l => l.second - l.first)).dropLast).sum < M) →
      (M = 0 → c.leafs = []) →
      c1.found_descriptors = (c1.leafs.map (fun l => l.second - l.first)).sum ∧
      (c1.leafs ≠ [] → ((c1.leafs.map (fun l => l.second - l.first)).dropLast).sum < M) ∧
      (M = 0 → c1.leafs = []) := by
  intro fuel
  induction fuel with
  | zero => intro c c1 h; cases h
  | succ fuel ih =>
    intro c c1 h hf hd h0
    unfold Candidate2NNQuery.loop at h
    by_cases hlt : c.found_descriptors < M
    · rw [if_pos hlt] at h
      cases hp : c.ProcessPQ trees q with
      | error e => rw [hp] at h; cases h
      | ok r =>
        obtain ⟨b, c2⟩ := r
        rw [hp] at h
        obtain ⟨hf2, hl2⟩ := ProcessPQ_found trees q c c2 b hp hf
        have hd2 : c2.leafs ≠ [] →
            ((c2.leafs.map (fun l => l.second - l.first)).dropLast).sum < M := by
          rcases hl2 with e | ⟨leaf, e⟩
          · rw [e]; exact hd
          · intro _
            rw [e, List.map_append, List.map_singleton, List.dropLast_concat, ← hf]
            exact hlt
        have h02 : M = 0 → c2.leafs = [] := by intro hM; omega
        cases b with
        | false =>
          simp only [Except.ok.injEq] at h
          rw [← h]; exact ⟨hf2, hd2, h02⟩
        | true => exact ih c2 c1 h hf2 hd2 h02
    · rw [if_neg hlt] at h
      simp only [Except.ok.injEq] at h
      rw [← h]; exact ⟨hf, hd, h0⟩

/-- C12: whatever the forest, the query, the budget and the fuel, a leaf list returned by
`Query2NNLeafs` overshoots the budget by at most its last leaf: when the list is not
empty the summed length of all its ranges but the last is below `max_descriptors`; and
with `max_descriptors = 0` the list is empty. -/
theorem C12_budget_overshoot (fuel : Nat) (trees : List KDTree) (q : U8Descriptor)
    (max_descriptors : Nat) (leafs : List Leaf)
    (h : Query2NNLeafs fuel trees q max_descriptors = .ok leafs) :
    (leafs ≠ [] →
      ((leafs.dropLast).map (fun l => l.second - l.first)).sum < max_descriptors) ∧
    (max_descriptors = 0 → leafs = []) := by
  unfold Query2NNLeafs at h
  by_cases hT : 65536 ≤ trees.length
  · rw [if_pos hT] at h; cases h
  · rw [if_neg hT] at h
    cases hp : Candidate2NNQuery.pushRoots q trees 0 [] with
    | error e => rw [hp] at h; cases h
    | ok pq =>
      rw [hp] at h
      dsimp only at h
      cases hl : Candidate2NNQuery.loop trees q max_descriptors fuel ⟨pq, [], 0⟩ with
      | error e => rw [hl] at h; cases h
      | ok c =>
        rw [hl] at h
        simp only [Except.ok.injEq] at h
        obtain ⟨_, h2, h3⟩ := loop_budget trees q max_descriptors fuel ⟨pq, [], 0⟩ c hl rfl
          (fun hne => absurd rfl hne) (fun _ => rfl)
        rw [← h]
        refine ⟨fun hne => ?_, h3⟩
        have := h2 hne
        rw [List.map_dropLast]
        exact this

set_option maxRecDepth 100000 in
/-- Witness for C12: on the example tree with the budget 18 the enumerator returns the
leaf `[1, 18)` (17 descriptors, below the budget) and then the leaf `[0, 1)`. -/
theorem C12_budget_overshoot_witness :
    Query2NNLeafs 10 [exTree] exQ 18 = .ok [⟨0, 1, 18⟩, ⟨0, 0, 1⟩] ∧
    (([⟨0, 1, 18⟩, ⟨0, 0, 1⟩] : List Leaf) ≠ [] →
      ((([⟨0, 1, 18⟩, ⟨0, 0, 1⟩] : List Leaf).dropLast).map
        (fun l => l.second - l.first)).sum < 18) ∧
    (18 = 0 → ([⟨0, 1, 18⟩, ⟨0, 0, 1⟩] : List Leaf) = []) :=
  ⟨by rfl, C12_budget_overshoot 10 [exTree] exQ 18 [⟨0, 1, 18⟩, ⟨0, 0, 1⟩] (by rfl)⟩

/-! ### C17: `KDTree::Partition` and its 16 attempts -/

theorem filter_map_length (f : Nat → Nat) (p : Nat → Bool) (xs : List Nat) :
    ((xs.map f).filter p).length = (xs.filter (fun x => p (f x))).length := by
  induction xs with
  | nil => rfl
  | cons x xs ih =>
    simp only [List.map_cons, List.filter_cons]
    split_ifs <;> simp [ih]

/-- One step of the attempt loop: a failing attempt passes on to the next state, any other
attempt returns its result. -/
theorem PartitionLoop_step (descs : Nat → U8Descriptor) (l r n : Nat) (a : Attempt) :
    KDTree.PartitionLoop descs l r (n + 1) a.split_dim a.list a.rng =
      if a.fails descs l r then
        KDTree.PartitionLoop descs l r n (a.next descs l r).split_dim (a.next descs l r).list
          (a.next descs l r).rng
      else .ok (a.result descs l r) := by
  rw [KDTree.PartitionLoop]
  simp only [Attempt.fails, Attempt.next, Attempt.result, filter_map_length, List.length_map,
    Bool.or_eq_true, decide_eq_true_eq, Bool.or_assoc]
  split_ifs <;> first | rfl | omega

/-- The attempt loop with `n` attempts left raises the partition error exactly when the
next `n` attempts all fail, and returns the result of the first attempt that does not. -/
theorem PartitionLoop_attempts (descs : Nat → U8Descriptor) (l r : Nat) :
    ∀ (n : Nat) (a : Attempt),
      (KDTree.PartitionLoop descs l r n a.split_dim a.list a.rng = .error .partition ↔
        ∀ k, k < n → (Attempt.nth descs l r k a).fails descs l r = true) ∧
      (∀ k, k < n → (∀ j, j < k → (Attempt.nth descs l r j a).fails descs l r = true) →
        (Attempt.nth descs l r k a).fails descs l r = false →
        KDTree.PartitionLoop descs l r n a.split_dim a.list a.rng =
          .ok ((Attempt.nth descs l r k a).result descs l r)) ∧
      (∀ e, KDTree.PartitionLoop descs l r n a.split_dim a.list a.rng = .error e →
        e = .partition) := by
  intro n
  induction n with
  | zero =>
    intro a
    refine ⟨⟨fun _ k hk => absurd hk (Nat.not_lt_zero k), fun _ => rfl⟩,
      fun k hk => absurd hk (Nat.not_lt_zero k), ?_⟩
    intro e he
    simp only [KDTree.PartitionLoop, Except.error.injEq] at he
    exact he.symm
  | succ n ih =>
    intro a
    obtain ⟨ih1, ih2, ih3⟩ := ih (a.next descs l r)
    rw [PartitionLoop_step]
    by_cases hf : a.fails descs l r = true
    · rw [if_pos hf]
      refine ⟨?_, ?_, ih3⟩
      · rw [ih1]
        constructor
        · intro h k hk
          cases k with
          | zero => exact hf
          | succ k => exact h k (by omega)
        · intro h k hk
          exact h (k + 1) (by omega)
      · intro k hk hall hk0
        cases k with
        | zero => rw [Attempt.nth, hf] at hk0; cases hk0
        | succ k =>
          exact ih2 k (by omega) (fun j hj => hall (j + 1) (by omega)) hk0
    · rw [if_neg hf]
      refine ⟨?_, ?_, fun e he => by cases he⟩
      · constructor
        · intro h; cases h
        · intro h; exact absurd (h 0 (by omega)) hf
      · intro k hk hall hk0
        cases k with
        | zero => rfl
        | succ k => exact absurd (hall 0 (by omega)) hf

/-- C17: `KDTree::Partition` raises the partition error if and only if its 16 attempts all
fail, an attempt failing when `max - min <= 1` along the current dimension over the range
or when the partition around `split_val` puts every element on one side; the first attempt
(among the 16) that does not fail makes it return, with the result of that attempt; and it
raises no other error. -/
theorem C17_partition_raises_iff_16_failures (t : KDTree) (lelem relem : Nat) (rng : Rng) :
    (t.Partition lelem relem rng = .error .partition ↔
      ∀ k, k < 16 →
        (Attempt.nth t.descriptors lelem relem k (Attempt.first t rng)).fails
          t.descriptors lelem relem = true) ∧
    (∀ k, k < 16 →
      (∀ j, j < k → (Attempt.nth t.descriptors lelem relem j (Attempt.first t rng)).fails
          t.descriptors lelem relem = true) →
      (Attempt.nth t.descriptors lelem relem k (Attempt.first t rng)).fails
          t.descriptors lelem relem = false →
      t.Partition lelem relem rng =
        .ok ((Attempt.nth t.descriptors lelem relem k (Attempt.first t rng)).result
          t.descriptors lelem relem)) ∧
    (∀ e, t.Partition lelem relem rng = .error e → e = .partition) :=
  PartitionLoop_attempts t.descriptors lelem relem 16 (Attempt.first t rng)

/-- Witness for C17: on the 18 descriptors of the example the first attempt (dimension 0,
values 0 to 8, `split_val` 3) does not fail, and `Partition` returns the pivot offset 1. -/
theorem C17_partition_raises_iff_16_failures_witness :
    exTree0.Partition 0 18 exRng =
      .ok ((Attempt.nth exDescs 0 18 0 (Attempt.first exTree0 exRng)).result exDescs 0 18) ∧
    ((Attempt.nth exDescs 0 18 0 (Attempt.first exTree0 exRng)).result exDescs 0 18).1 = 1 :=
  ⟨(C17_partition_raises_iff_16_failures exTree0 0 18 exRng).2.1 0 (by decide)
      (fun j hj => absurd hj (Nat.not_lt_zero j)) (by decide), by decide⟩

/-! ### C18: identical descriptors -/

theorem foldl_min_const (v : Nat) (xs : List Nat) (h : ∀ x ∈ xs, x = v) :
    xs.foldl Nat.min v = v := by
  induction xs with
  | nil => rfl
  | cons x xs ih =>
    have hx : x = v := h x (List.mem_cons_self _ _)
    have e : Nat.min v v = v := Nat.min_self v
    rw [List.foldl_cons, hx, e]
    exact ih (fun y hy => h y (List.mem_cons_of_mem _ hy))

theorem foldl_max_const (v : Nat) (xs : List Nat) (h : ∀ x ∈ xs, x = v) :
    xs.foldl Nat.max v = v := by
  induction xs with
  | nil => rfl
  | cons x xs ih =>
    have hx : x = v := h x (List.mem_cons_self _ _)
    have e : Nat.max v v = v := Nat.max_self v
    rw [List.foldl_cons, hx, e]
    exact ih (fun y hy => h y (List.mem_cons_of_mem _ hy))

/-- Over values that are all the same, `max - min` is 0. -/
theorem listMax_sub_listMin_const (v : Nat) (xs : List Nat) (h : ∀ x ∈ xs, x = v) :
    listMax xs - listMin xs = 0 := by
  cases xs with
  | nil => rfl
  | cons x xs =>
    have hx : x = v := h x (List.mem_cons_self _ _)
    subst hx
    unfold listMax listMin
    rw [List.headD_cons, foldl_max_const x _ h, foldl_min_const x _ h]
    omega

/-- When all the descriptors of the range are the same, every attempt fails and leaves
`_list` as it is, so the attempt loop raises the partition error. -/
theorem PartitionLoop_identical (descs : Nat → U8Descriptor) (d : U8Descriptor) (l r : Nat)
    (L : List Nat) (hid : ∀ i ∈ slice L l r, descs i = d) :
    ∀ (n : Nat) (sd : Nat) (rng : Rng),
      KDTree.PartitionLoop descs l r n sd L rng = .error .partition := by
  intro n
  induction n with
  | zero => intro sd rng; rfl
  | succ n ih =>
    intro sd rng
    have h0 : listMax ((slice L l r).map (fun di => (descs di).ufeatures sd)) -
        listMin ((slice L l r).map (fun di => (descs di).ufeatures sd)) = 0 := by
      apply listMax_sub_listMin_const (d.ufeatures sd)
      intro x hx
      rw [List.mem_map] at hx
      obtain ⟨i, hi, rfl⟩ := hx
      rw [hid i hi]
    rw [KDTree.PartitionLoop]
    dsimp only
    rw [if_pos (by omega)]
    exact ih _ _

/-- C18 (as stated) fails when the root is a leaf: three identical descriptors with
`leaf_size = 1` (effective leaf size 17) are built into a one-leaf tree without any call
of `Partition`. -/
theorem C18_counterexample :
    ∃ forest rng1, Build (fun _ => ⟨fun _ => 7⟩) 3 1 1 exSdim exRng = .ok (forest, rng1) ∧
      forest.length = 1 :=
  ⟨_, _, rfl, rfl⟩

/-- C18 (amended): when the `N` descriptors are all identical and `N` exceeds the
effective leaf size `leaf_size + 16` (with `leaf_size >= 1`, `tree_count >= 1` and `N`
below the capacity limit), building the forest raises the partition error, whatever the
split dimensions and the random stream; no tree is returned. -/
theorem C18_identical_descriptors_fail (descs : Nat → U8Descriptor) (d : U8Descriptor)
    (N tree_count leaf_size : Nat) (sdim : Nat → Nat) (rng : Rng)
    (hid : ∀ i, i < N → descs i = d) (hT : 1 ≤ tree_count) (hls : 1 ≤ leaf_size)
    (hN : (leaf_size + 16) % 4294967296 < N) (hcap : N < 2147483647) :
    Build descs N tree_count leaf_size sdim rng = .error .partition := by
  obtain ⟨T, rfl⟩ : ∃ T, tree_count = T + 1 := ⟨tree_count - 1, by omega⟩
  have hU : UINT_MAX / 2 = 2147483647 := by decide
  have hm : N % 4294967296 = N := Nat.mod_eq_of_lt (by omega)
  have hnew : ∃ t0, KDTree.new descs N = .ok t0 ∧ t0.descriptors = descs ∧ t0.dcount = N ∧
      t0.nodes = [] ∧ t0.bb = [] ∧ t0.list = List.range N := by
    unfold KDTree.new
    rw [hU, if_pos hcap, hm]
    exact ⟨_, rfl, rfl, rfl, rfl, rfl, by simp⟩
  obtain ⟨t0, hnew, h1, h2, h3, h4, h5⟩ := hnew
  have hpart : ∀ sd rng0, KDTree.PartitionLoop descs 0 N 16 sd (List.range N) rng0 =
      .error .partition := by
    intro sd rng0
    apply PartitionLoop_identical descs d 0 N (List.range N)
    intro i hi
    have := slice_subset _ _ _ i hi
    rw [List.mem_range] at this
    exact hid i this
  have hbuild : t0.Build sdim leaf_size rng = .error .partition := by
    unfold KDTree.Build
    rw [if_neg (by omega)]
    dsimp only
    rw [KDTree.BuildRec]
    simp only [h2, h3, h4, List.nil_append, List.length_singleton, ne_eq, not_true_eq_false,
      if_false, List.getElem?_cons_zero, Node.fresh, Bool.true_eq_false]
    rw [if_neg (by omega), if_neg (by omega)]
    unfold KDTree.Partition
    dsimp only
    rw [h1, h5, hpart]
  unfold Build BuildTrees BuildTree
  rw [hnew]
  dsimp only
  rw [hbuild]

/-- Witness for C18 (amended): eighteen identical descriptors, `leaf_size = 1`, one tree. -/
theorem C18_identical_descriptors_fail_witness :
    Build (fun _ => ⟨fun _ => 7⟩) 18 1 1 exSdim exRng = .error .partition :=
  C18_identical_descriptors_fail (fun _ => ⟨fun _ => 7⟩) ⟨fun _ => 7⟩ 18 1 1 exSdim exRng
    (fun _ _ => rfl) (by decide) (by decide) (by decide) (by decide)

/-! ### C19: the capacity check of the constructor -/

theorem IdxBelow_mono (n m : Nat) (x : Int) (h : n ≤ m) (hx : IdxBelow n x) :
    IdxBelow m x := by
  rcases hx with hx | ⟨i, hi, hx⟩
  · exact Or.inl hx
  · exact Or.inr ⟨i, by omega, hx⟩

theorem toInt32_small (i : Nat) (h : i < 2147483648) : toInt32 i = (i : Int) := by
  unfold toInt32
  have : (i + 2147483648) % 4294967296 = i + 2147483648 := Nat.mod_eq_of_lt (by omega)
  rw [this]
  simp

/-- The search of `binadeShift` finds the least exponent that brings `n / d` up to
`2^(p-1)`, when there is one within the fuel. -/
theorem binadeShift_spec (p n d : Nat) :
    ∀ (fuel e0 K : Nat), e0 ≤ K → K < e0 + fuel → 2 ^ (p - 1) * d ≤ n * 2 ^ K →
      e0 ≤ binadeShift p n d fuel e0 ∧ binadeShift p n d fuel e0 ≤ K ∧
      2 ^ (p - 1) * d ≤ n * 2 ^ binadeShift p n d fuel e0 ∧
      ∀ j, e0 ≤ j → j < binadeShift p n d fuel e0 → ¬ 2 ^ (p - 1) * d ≤ n * 2 ^ j := by
  intro fuel
  induction fuel with
  | zero => intro e0 K h1 h2 _; omega
  | succ fuel ih =>
    intro e0 K h1 h2 hK
    rw [binadeShift]
    by_cases hc : 2 ^ (p - 1) * d ≤ n * 2 ^ e0
    · rw [if_pos hc]
      exact ⟨le_refl _, h1, hc, fun j h3 h4 => by omega⟩
    · rw [if_neg hc]
      have hne : e0 ≠ K := by
        intro h; rw [h] at hc; exact hc hK
      obtain ⟨a1, a2, a3, a4⟩ := ih (e0 + 1) K (by omega) (by omega) hK
      refine ⟨by omega, a2, a3, ?_⟩
      intro j h3 h4
      by_cases hj : j = e0
      · rw [hj]; exact hc
      · exact a4 j (by omega) h4

/-- Rounding to nearest, ties to even, against an even bound `k`: the rounded value is at
most `k` exactly when `n / d` is at most `k + 1/2`. -/
theorem roundHalfEven_le_iff (n d k : Nat) (hd : 0 < d) (hk : k % 2 = 0) :
    roundHalfEven n d ≤ k ↔ 2 * n ≤ (2 * k + 1) * d := by
  have hdm := Nat.div_add_mod n d
  have hr := Nat.mod_lt n hd
  unfold roundHalfEven
  generalize n / d = q at hdm ⊢
  generalize n % d = r at hdm hr ⊢
  have hqk : q ≤ k → d * q ≤ d * k := fun h => Nat.mul_le_mul_left d h
  have hkq : k + 1 ≤ q → d * (k + 1) ≤ d * q := fun h => Nat.mul_le_mul_left d h
  have hqk1 : q + 1 ≤ k → d * (q + 1) ≤ d * k := fun h => Nat.mul_le_mul_left d h
  have hkq1 : k ≤ q → d * k ≤ d * q := fun h => Nat.mul_le_mul_left d h
  have e1 : (2 * k + 1) * d = 2 * (d * k) + d := by ring
  have e2 : d * (k + 1) = d * k + d := by ring
  have e3 : d * (q + 1) = d * q + d := by ring
  rw [e1]
  rw [e2] at hkq
  rw [e3] at hqk1
  generalize d * q = P at hdm hqk hkq hqk1 hkq1
  generalize d * k = Q at hqk hkq hqk1 hkq1 ⊢
  split_ifs with c1 c2 c3
  · constructor
    · intro h; have := hqk h; omega
    · intro h
      by_contra hc
      have := hkq (by omega)
      omega
  · constructor
    · intro h; have := hqk1 h; omega
    · intro h
      by_contra hc
      have := hkq1 (by omega)
      omega
  · constructor
    · intro h; have := hqk h; omega
    · intro h
      by_contra hc
      have := hkq (by omega)
      omega
  · constructor
    · intro h; have := hqk1 h; omega
    · intro h
      by_contra hc
      have hq : q = k ∨ k + 1 ≤ q := by omega
      rcases hq with hq | hq
      · omega
      · have := hkq hq
        omega

/-- The `double` constant `0.8*0.8` is `5764607523034236 / 2^53`, slightly above 0.64. -/
theorem ratioThreshold_eq : ratioThreshold = (5764607523034236, 53) := by decide

/-- The ratio test on floats of integer value `d0 < d1`, in exact arithmetic: the rounded
quotient is below the constant exactly when `d0 / d1 <= 21474837 / 2^25`, the midpoint of
the two floats around 0.64. -/
theorem ieeeRatioLt_iff (d0 d1 : Nat) (h : d0 < d1) :
    ieeeRatioLt d0 d1 = true ↔ d0 * 33554432 ≤ 21474837 * d1 := by
  unfold ieeeRatioLt
  rw [if_neg (by omega), ratioThreshold_eq, decide_eq_true_eq]
  unfold roundTo
  dsimp only
  have h53 : (2 : Nat) ^ 53 = 9007199254740992 := by norm_num
  have h23 : (2 : Nat) ^ (24 - 1) = 8388608 := by norm_num
  rw [h53]
  by_cases hz : d0 = 0
  · subst hz
    have hm : roundHalfEven (0 * 2 ^ binadeShift 24 0 d1 (24 + d1) 0) d1 = 0 := by
      rw [Nat.zero_mul]
      unfold roundHalfEven
      simp [h]
    rw [hm]
    have := Nat.two_pow_pos (binadeShift 24 0 d1 (24 + d1) 0)
    constructor
    · intro _; omega
    · intro _; omega
  · have hK : 2 ^ (24 - 1) * d1 ≤ d0 * 2 ^ (23 + d1) := by
      have h4 : (2 : Nat) ^ 23 = 8388608 := by norm_num
      rw [h23, pow_add, h4]
      have h1 : d1 < 2 ^ d1 := Nat.lt_two_pow d1
      calc 8388608 * d1 ≤ 8388608 * 2 ^ d1 := Nat.mul_le_mul_left _ (le_of_lt h1)
        _ = 1 * (8388608 * 2 ^ d1) := (Nat.one_mul _).symm
        _ ≤ d0 * (8388608 * 2 ^ d1) := Nat.mul_le_mul_right _ (by omega)
    obtain ⟨_, a2, a3, a4⟩ := binadeShift_spec 24 d0 d1 (24 + d1) 0 (23 + d1) (by omega)
      (by omega) hK
    generalize binadeShift 24 d0 d1 (24 + d1) 0 = e at a2 a3 a4
    rw [h23] at a3 a4
    have hlow : ∀ j, j ≤ 23 → ¬ 8388608 * d1 ≤ d0 * 2 ^ j := by
      intro j hj hc
      have h1 : (2 : Nat) ^ j ≤ 2 ^ 23 := Nat.pow_le_pow_right (by norm_num) hj
      have h2 : d0 * 2 ^ j ≤ d0 * 2 ^ 23 := Nat.mul_le_mul_left _ h1
      have h4 : (2 : Nat) ^ 23 = 8388608 := by norm_num
      rw [h4] at h2
      have h5 : d0 * 8388608 < d1 * 8388608 := by omega
      omega
    have he23 : 24 ≤ e := by
      by_contra hc
      exact hlow e (by omega) a3
    by_cases hhalf : d1 ≤ 2 * d0
    · -- the quotient is in [1/2, 1): 24 bits after the binary point
      have h24 : (2 : Nat) ^ 24 = 16777216 := by norm_num
      have he : e = 24 := by
        by_contra hc
        apply a4 24 (by omega) (by omega)
        rw [h24]; omega
      subst he
      rw [h24]
      have hiff := roundHalfEven_le_iff (d0 * 16777216) d1 10737418 (by omega) (by norm_num)
      constructor
      · intro hlt
        have : roundHalfEven (d0 * 16777216) d1 ≤ 10737418 := by omega
        have := hiff.1 this
        omega
      · intro hle
        have : roundHalfEven (d0 * 16777216) d1 ≤ 10737418 := hiff.2 (by omega)
        omega
    · -- the quotient is below 1/2: the rounded value is at most 1/2
      have he25 : 25 ≤ e := by
        by_contra hc
        have he : e = 24 := by omega
        rw [he] at a3
        have h24 : (2 : Nat) ^ 24 = 16777216 := by norm_num
        rw [h24] at a3
        omega
      have hprev := a4 (e - 1) (by omega) (by omega)
      have hpow : (2 : Nat) ^ e = 2 * 2 ^ (e - 1) := by
        have : e = (e - 1) + 1 := by omega
        rw [this, pow_succ]
        simp only [Nat.add_sub_cancel]
        ring
      have hm : roundHalfEven (d0 * 2 ^ e) d1 ≤ 16777216 :=
        (roundHalfEven_le_iff (d0 * 2 ^ e) d1 16777216 (by omega) (by norm_num)).2 (by
          rw [hpow]
          have e5 : d0 * (2 * 2 ^ (e - 1)) = 2 * (d0 * 2 ^ (e - 1)) := by ring
          rw [e5]
          generalize d0 * 2 ^ (e - 1) = X at hprev
          omega)
      have hbig : (2 : Nat) ^ 25 ≤ 2 ^ e := Nat.pow_le_pow_right (by norm_num) he25
      have h25 : (2 : Nat) ^ 25 = 33554432 := by norm_num
      rw [h25] at hbig
      generalize (2 : Nat) ^ e = E at hbig hm ⊢
      generalize roundHalfEven (d0 * E) d1 = m at hm ⊢
      constructor
      · intro _; omega
      · intro _
        have : 5764607523034236 * 33554432 ≤ 5764607523034236 * E :=
          Nat.mul_le_mul_left _ hbig
        have : m * 9007199254740992 ≤ 16777216 * 9007199254740992 :=
          Nat.mul_le_mul_right _ hm
        omega

/-- The end of `match_one` when both slots are set and its two assertions hold: the result
is `index[0]` if the ratio test holds and -1 otherwise, whatever the `float` operations. -/
theorem finish_ratio {F : Type} (NDEBUG : Bool) (ops : FloatOps F) (b : best2_accumulator F)
    (hi0 : b.index0 ≠ -1) (hi1 : b.index1 ≠ -1) (hne : ops.ne b.distance1 ops.zero = true) :
    match_one.finish NDEBUG ops b =
      .ok (if ops.ratioLt b.distance0 b.distance1 = true then b.index0 else -1) := by
  unfold match_one.finish
  simp only [hi0, hi1, hne, decide_False, Bool.and_false, Bool.not_true, Bool.false_eq_true,
    if_false]
  split_ifs <;> rfl

set_option maxRecDepth 100000 in
/-- C15 (as stated) fails at the distances 16 and 25: the quotient 16/25 = 0.64 rounds to
the `float` 0.63999998..., which is below the `double` constant `0.8*0.8` =
0.64000000000000012434..., so `match_one` returns `index[0] = 0` although
`16 * 100 < 25 * 64` is false. -/
theorem C15_counterexample :
    match_one.scan false intFloatOps (exDesc 0) [[exDesc 4], [exDesc 5]] 0
        (best2_accumulator.init intFloatOps) = .ok ⟨16, 25, 0, 1⟩ ∧
    match_one false intFloatOps (exDesc 0) [[exDesc 4], [exDesc 5]] = .ok 0 ∧
    match_one true intFloatOps (exDesc 0) [[exDesc 4], [exDesc 5]] = .ok 0 ∧
    ieeeRatioLt 16 25 = true ∧
    ¬ (16 * 100 < 25 * 64) :=
  ⟨by rfl, by rfl, by rfl, by decide, by decide⟩

/-- C15 (amended): when the accumulator of `match_one` holds two neighbours (both index
slots set, `distance[1] != 0`), `match_one` returns `index[0]` if the test
`distance[0] / distance[1] < 0.8*0.8` holds as executed (a `float` quotient against a
`double` constant) and -1 otherwise, whatever the `float` operations.  For distances
`d0 < d1` of integer value below `2^24` the executed test holds exactly when
`d0 * 2^25 <= 21474837 * d1`, that is `d0 / d1 <= 0.640000015...`: it holds whenever
`d0 * 100 < d1 * 64`, and also at `d0 * 100 = d1 * 64`. -/
theorem C15_ratio_test (NDEBUG : Bool) (b : best2_accumulator Int)
    (h0 : 0 ≤ b.distance0) (h01 : b.distance0 < b.distance1) (h1 : b.distance1 < 16777216)
    (hi0 : b.index0 ≠ -1) (hi1 : b.index1 ≠ -1) :
    (∀ (F : Type) (ops : FloatOps F) (c : best2_accumulator F), c.index0 ≠ -1 →
      c.index1 ≠ -1 → ops.ne c.distance1 ops.zero = true →
      match_one.finish NDEBUG ops c =
        .ok (if ops.ratioLt c.distance0 c.distance1 = true then c.index0 else -1)) ∧
    match_one.finish NDEBUG intFloatOps b =
      .ok (if b.distance0 * 33554432 ≤ 21474837 * b.distance1 then b.index0 else -1) ∧
    (b.distance0 * 100 < b.distance1 * 64 →
      match_one.finish NDEBUG intFloatOps b = .ok b.index0) ∧
    (b.distance0 * 100 = b.distance1 * 64 →
      match_one.finish NDEBUG intFloatOps b = .ok b.index0) := by
  have hne : intFloatOps.ne b.distance1 intFloatOps.zero = true := by
    simp only [intFloatOps, decide_eq_true_eq]
    omega
  have hiff : intFloatOps.ratioLt b.distance0 b.distance1 = true ↔
      b.distance0 * 33554432 ≤ 21474837 * b.distance1 := by
    show ieeeRatioLt b.distance0.toNat b.distance1.toNat = true ↔ _
    rw [ieeeRatioLt_iff _ _ (by omega)]
    omega
  have hfin := finish_ratio NDEBUG intFloatOps b hi0 hi1 hne
  have hmain : match_one.finish NDEBUG intFloatOps b =
      .ok (if b.distance0 * 33554432 ≤ 21474837 * b.distance1 then b.index0 else -1) := by
    rw [hfin]
    by_cases hc : b.distance0 * 33554432 ≤ 21474837 * b.distance1
    · rw [if_pos hc, if_pos (hiff.2 hc)]
    · rw [if_neg hc, if_neg (fun h => hc (hiff.1 h))]
  refine ⟨fun F ops c => finish_ratio NDEBUG ops c, hmain, ?_, ?_⟩
  · intro h
    rw [hmain, if_pos (by omega)]
  · intro h
    rw [hmain, if_pos (by omega)]

/-- Witness for C15 (amended): the distances 9 and 25 with the indices 0 and 1. -/
theorem C15_ratio_test_witness :
    match_one.finish false intFloatOps ⟨9, 25, 0, 1⟩ =
      .ok (if (9 : Int) * 33554432 ≤ 21474837 * 25 then 0 else -1) :=
  (C15_ratio_test false ⟨9, 25, 0, 1⟩ (by decide) (by decide) (by decide) (by decide)
    (by decide)).2.1

/-! ### Scenario S3: exact duplicates of the query (C16) -/

theorem best2_feed_append {F : Type} (ops : FloatOps F) (a : best2_accumulator F)
    (xs ys : List (F × Nat)) : a.feed ops (xs ++ ys) = (a.feed ops xs).feed ops ys := by
  unfold best2_accumulator.feed
  rw [List.foldl_append]

theorem ChecksOK_append {F : Type} (ops : FloatOps F) :
    ∀ (xs ys : List (F × Nat)) (a : best2_accumulator F),
      best2_accumulator.ChecksOK ops a (xs ++ ys) ↔
        best2_accumulator.ChecksOK ops a xs ∧
        best2_accumulator.ChecksOK ops (a.feed ops xs) ys := by
  intro xs
  induction xs with
  | nil =>
    intro ys a
    simp [best2_accumulator.ChecksOK, best2_accumulator.feed]
  | cons p rest ih =>
    intro ys a
    have hf : a.feed ops (p :: rest) = (a.update ops.lt ops.ne p.1 p.2).feed ops rest := rfl
    rw [hf]
    show (_ ∧ _ ∧ best2_accumulator.ChecksOK ops (a.update ops.lt ops.ne p.1 p.2) (rest ++ ys)) ↔
      (_ ∧ _ ∧ best2_accumulator.ChecksOK ops (a.update ops.lt ops.ne p.1 p.2) rest) ∧ _
    rw [ih]
    tauto

/-- The assertions hold after each update when they hold in the state reached by every
non-empty prefix of the updates. -/
theorem ChecksOK_of_initial_segments {F G : Type} (ops : FloatOps F) (f : G → F × Nat) :
    ∀ (xs : List G) (a : best2_accumulator F),
      (∀ pre p post, xs = pre ++ p :: post →
        ops.lt (a.feed ops ((pre ++ [p]).map f)).distance0
          (a.feed ops ((pre ++ [p]).map f)).distance1 = true ∧
        (a.feed ops ((pre ++ [p]).map f)).index0 ≠ (a.feed ops ((pre ++ [p]).map f)).index1) →
      best2_accumulator.ChecksOK ops a (xs.map f) := by
  intro xs
  induction xs with
  | nil => intro a _; trivial
  | cons x rest ih =>
    intro a h
    obtain ⟨h1, h2⟩ := h [] x rest rfl
    refine ⟨h1, h2, ih _ ?_⟩
    intro pre p post hx
    have := h (x :: pre) p post (by rw [hx]; rfl)
    exact this

/-- The inner loop of `match_one` is the sequence of updates, when no assertion is checked
or all hold. -/
theorem scanFeature_eq_feed {F : Type} (NDEBUG : Bool) (ops : FloatOps F) (d1 : Nat → F)
    (ib : Nat) :
    ∀ (fb : List (Nat → F)) (b : best2_accumulator F),
      (NDEBUG = true ∨
        best2_accumulator.ChecksOK ops b (fb.map (fun desc => (l2_dist_sq ops d1 desc, ib)))) →
      match_one.scanFeature NDEBUG ops d1 ib fb b =
        .ok (b.feed ops (fb.map (fun desc => (l2_dist_sq ops d1 desc, ib)))) := by
  intro fb
  induction fb with
  | nil => intro b _; rfl
  | cons desc rest ih =>
    intro b h
    have hstep : best2_accumulator.updateChecked NDEBUG ops b (l2_dist_sq ops d1 desc) ib =
        .ok (b.update ops.lt ops.ne (l2_dist_sq ops d1 desc) ib) := by
      unfold best2_accumulator.updateChecked
      rcases h with h | h
      · rw [h]; simp
      · obtain ⟨h1, h2, _⟩ := h
        simp [h1, h2]
    rw [match_one.scanFeature, hstep]
    dsimp only
    rw [ih]
    · rfl
    · rcases h with h | h
      · exact Or.inl h
      · exact Or.inr h.2.2

/-- The loops of `match_one` are the sequence of updates `match_one.pairs`, when no
assertion is checked or all hold. -/
theorem scan_eq_feed {F : Type} (NDEBUG : Bool) (ops : FloatOps F) (d1 : Nat → F) :
    ∀ (vb : List (List (Nat → F))) (ib : Nat) (b : best2_accumulator F),
      (NDEBUG = true ∨ best2_accumulator.ChecksOK ops b (match_one.pairs ops d1 vb ib)) →
      match_one.scan NDEBUG ops d1 vb ib b =
        .ok (b.feed ops (match_one.pairs ops d1 vb ib)) := by
  intro vb
  induction vb with
  | nil => intro ib b _; rfl
  | cons fb rest ih =>
    intro ib b h
    rw [match_one.pairs] at h ⊢
    have h1 : NDEBUG = true ∨ best2_accumulator.ChecksOK ops b
        (fb.map (fun desc => (l2_dist_sq ops d1 desc, ib))) := by
      rcases h with h | h
      · exact Or.inl h
      · exact Or.inr ((ChecksOK_append ops _ _ _).1 h).1
    rw [match_one.scan, scanFeature_eq_feed NDEBUG ops d1 ib fb b h1]
    dsimp only
    rw [ih, best2_feed_append]
    rcases h with h | h
    · exact Or.inl h
    · exact Or.inr ((ChecksOK_append ops _ _ _).1 h).2

/-- One `Update` of a `Q2NNAccumulator` with a distance below `UINT_MAX` is one `update`
of the `best2_accumulator` that holds its content. -/
theorem toBest2_Update (a : Q2NNAccumulator) (d i : Nat) (hd : d < UINT_MAX)
    (h0 : a.distance0 ≤ UINT_MAX) (h1 : a.distance1 ≤ UINT_MAX) :
    toBest2 (a.Update d i) =
      (toBest2 a).update intFloatOps.lt intFloatOps.ne (d : Int) i := by
  have hU : UINT_MAX = 4294967295 := rfl
  obtain ⟨a0, a1, i0, i1⟩ := a
  dsimp only at h0 h1
  simp only [toBest2, Q2NNAccumulator.Update, best2_accumulator.update, intFloatOps, hU,
    Bool.and_eq_true, decide_eq_true_eq, ne_eq] at *
  split_ifs <;> dsimp only at * <;> omega

theorem toBest2_init : toBest2 init = best2_accumulator.init intFloatOps := by
  simp only [toBest2, Q2NNAccumulator.init, best2_accumulator.init, if_true]
  have : toInt32 UINT_MAX = -1 := by decide
  rw [this]

/-- A fresh `best2_accumulator` fed with distances of natural value below `UINT_MAX` holds
the content of the `Q2NNAccumulator` fed with the same pairs. -/
theorem toBest2_feed (xs : List (Nat × Nat)) (hlt : ∀ p ∈ xs, p.1 < UINT_MAX) :
    (best2_accumulator.init intFloatOps).feed intFloatOps
        (xs.map (fun p => ((p.1 : Int), p.2))) = toBest2 (init.feed xs) := by
  induction xs using List.reverseRecOn with
  | nil => rw [toBest2_init.symm]; rfl
  | append_singleton xs p ih =>
    obtain ⟨d, i⟩ := p
    have ih1 := ih (fun q hq => hlt q (List.mem_append_left _ hq))
    obtain ⟨hb1, hb⟩ := feed_init_ordered xs
    rw [List.map_append, best2_feed_append, ih1, feed_append]
    have hstep : (init.feed xs).feed [(d, i)] = (init.feed xs).Update d i := rfl
    rw [hstep, toBest2_Update _ d i (hlt (d, i) (by simp)) (by omega) hb1]
    rfl

/-- A fresh `Q2NNAccumulator` fed with at least one pair, all distances below `UINT_MAX`,
all indices below `2^31` and one distance per index: the content passes the two assertions
of `best2_accumulator::update`. -/
theorem toBest2_feed_asserts (xs : List (Nat × Nat)) (hne : xs ≠ [])
    (hlt : ∀ p ∈ xs, p.1 < UINT_MAX) (hidx : ∀ p ∈ xs, p.2 < 2147483648)
    (hcons : ∀ p ∈ xs, ∀ p' ∈ xs, p.2 = p'.2 → p.1 = p'.1) :
    intFloatOps.lt (toBest2 (init.feed xs)).distance0 (toBest2 (init.feed xs)).distance1 = true ∧
    (toBest2 (init.feed xs)).index0 ≠ (toBest2 (init.feed xs)).index1 := by
  have hU : UINT_MAX = 4294967295 := rfl
  have hM : toInt32 UINT_MAX = -1 := by decide
  obtain ⟨c1, c2, c3⟩ := feed_init_char xs hlt hne
  generalize init.feed xs = a at c1 c2 c3
  obtain ⟨a0, a1, i0, i1⟩ := a
  dsimp only at c1 c2 c3
  have h0 := hlt _ c1
  have hi0 := hidx _ c1
  dsimp only at h0 hi0
  simp only [toBest2, intFloatOps, decide_eq_true_eq]
  rw [toInt32_small i0 hi0]
  rcases c3 with ⟨e1, e2, _⟩ | ⟨m1, l1, _⟩
  · rw [if_pos e1, e2, hM]
    constructor
    · split_ifs <;> omega
    · omega
  · have h1 := hlt _ m1
    have hi1 := hidx _ m1
    dsimp only at h1 hi1
    rw [if_neg (by omega), toInt32_small i1 hi1]
    constructor
    · split_ifs <;> omega
    · intro he
      have := hcons _ c1 _ m1 (by dsimp only; omega)
      dsimp only at this
      omega

/-- Scenario S3 on `Q2NNAccumulator`: a pair of distance 0 (there may be several) and a
pair of positive distance among the pairs fed (all distances below `UINT_MAX`, one
distance per index) leave `dist[0] = 0`, `0 < dist[1] < UINT_MAX`, two distinct indices,
both slots being pairs fed, and the index of slot 1 is not one of distance 0. -/
theorem feed_duplicates (xs : List (Nat × Nat)) (i d k : Nat)
    (hi : (0, i) ∈ xs) (hk : (d, k) ∈ xs) (hd : 0 < d)
    (hlt : ∀ p ∈ xs, p.1 < UINT_MAX)
    (hcons : ∀ p ∈ xs, ∀ p' ∈ xs, p.2 = p'.2 → p.1 = p'.1) :
    (init.feed xs).distance0 = 0 ∧ 0 < (init.feed xs).distance1 ∧
    (init.feed xs).distance1 < UINT_MAX ∧ (init.feed xs).index0 ≠ (init.feed xs).index1 ∧
    ((init.feed xs).distance0, (init.feed xs).index0) ∈ xs ∧
    ((init.feed xs).distance1, (init.feed xs).index1) ∈ xs ∧
    (∀ i', (0, i') ∈ xs → (init.feed xs).index1 ≠ i') := by
  obtain ⟨c1, c2, c3⟩ := feed_init_char xs hlt (List.ne_nil_of_mem hi)
  have h0 := c2 _ hi
  dsimp only at h0
  rcases c3 with ⟨_, _, e3⟩ | ⟨m1, l1, _⟩
  · have := e3 _ hk
    dsimp only at this
    omega
  · have h1 := hlt _ m1
    dsimp only at h1
    refine ⟨by omega, by omega, h1, ?_, c1, m1, ?_⟩
    · intro he
      have := hcons _ c1 _ m1 he
      dsimp only at this
      omega
    · intro i' hi' he
      have := hcons _ m1 _ hi' he
      dsimp only at this
      omega

theorem foldl_add_bounds (g : Nat → Int) (B : Int) (l : List Nat)
    (h : ∀ k ∈ l, 0 ≤ g k ∧ g k ≤ B) :
    ∀ s : Int, s ≤ l.foldl (fun sum i => sum + g i) s ∧
      l.foldl (fun sum i => sum + g i) s ≤ s + l.length * B := by
  induction l with
  | nil => intro s; simp
  | cons x xs ih =>
    intro s
    obtain ⟨h1, h2⟩ := h x (List.mem_cons_self _ _)
    obtain ⟨i1, i2⟩ := ih (fun k hk => h k (List.mem_cons_of_mem _ hk)) (s + g x)
    rw [List.foldl_cons, List.length_cons]
    push_cast
    constructor
    · omega
    · have : ((xs.length : Int) + 1) * B = xs.length * B + B := by ring
      rw [this]
      omega

theorem l2_dist_sq_int (a b : Nat → Int) :
    l2_dist_sq intFloatOps a b =
      (List.range 128).foldl (fun sum i => sum + (a i - b i) * (a i - b i)) 0 := rfl

/-- The squared distance of descriptors of integer components in `0 .. 255` is between 0
and `128 * 255^2`, so every partial sum is exact in `float`. -/
theorem l2_dist_sq_bounds (a b : Nat → Int) (ha : ∀ c, c < 128 → 0 ≤ a c ∧ a c ≤ 255)
    (hb : ∀ c, c < 128 → 0 ≤ b c ∧ b c ≤ 255) :
    0 ≤ l2_dist_sq intFloatOps a b ∧ l2_dist_sq intFloatOps a b ≤ 8323200 := by
  rw [l2_dist_sq_int]
  have h := foldl_add_bounds (fun i => (a i - b i) * (a i - b i)) 65025 (List.range 128)
    (by
      intro k hk
      rw [List.mem_range] at hk
      obtain ⟨a1, a2⟩ := ha k hk
      obtain ⟨b1, b2⟩ := hb k hk
      dsimp only
      constructor
      · exact mul_self_nonneg _
      · nlinarith) 0
  rw [List.length_range] at h
  constructor
  · exact h.1
  · have := h.2
    norm_num at this
    exact this

/-- The squared distance of a descriptor to a copy of itself is 0. -/
theorem l2_dist_sq_self (a b : Nat → Int) (h : ∀ c, c < 128 → b c = a c) :
    l2_dist_sq intFloatOps a b = 0 := by
  rw [l2_dist_sq_int]
  have h := foldl_add_bounds (fun i => (a i - b i) * (a i - b i)) 0 (List.range 128)
    (by
      intro k hk
      rw [List.mem_range] at hk
      dsimp only
      rw [h k hk]
      simp) 0
  have h1 := h.1
  have h2 := h.2
  simp only [mul_zero, add_zero] at h2
  omega

theorem pairs_eq_natPairs (q : Nat → Int) :
    ∀ (vb : List (Nat → Int)) (ib : Nat),
      (∀ d ∈ vb, 0 ≤ l2_dist_sq intFloatOps q d) →
      match_one.pairs intFloatOps q (vb.map (fun d => [d])) ib =
        (match_one.natPairs q vb ib).map (fun p => ((p.1 : Int), p.2)) := by
  intro vb
  induction vb with
  | nil => intro ib _; rfl
  | cons d rest ih =>
    intro ib h
    rw [List.map_cons, match_one.pairs, match_one.natPairs, List.map_cons,
      ih (ib + 1) (fun d hd => h d (List.mem_cons_of_mem _ hd))]
    have := h d (List.mem_cons_self _ _)
    simp only [List.map_cons, List.map_nil, List.singleton_append, List.cons.injEq,
      Prod.mk.injEq, and_true]
    omega

theorem mem_natPairs (q : Nat → Int) :
    ∀ (vb : List (Nat → Int)) (ib : Nat) (p : Nat × Nat),
      p ∈ match_one.natPairs q vb ib ↔
        ∃ n d, vb[n]? = some d ∧ p = ((l2_dist_sq intFloatOps q d).toNat, ib + n) := by
  intro vb
  induction vb with
  | nil => intro ib p; simp [match_one.natPairs]
  | cons x rest ih =>
    intro ib p
    rw [match_one.natPairs, List.mem_cons, ih]
    constructor
    · rintro (h | ⟨n, d, h1, h2⟩)
      · exact ⟨0, x, List.getElem?_cons_zero, h⟩
      · exact ⟨n + 1, d, by simpa using h1, by rw [h2]; congr 1; omega⟩
    · rintro ⟨n, d, h1, h2⟩
      cases n with
      | zero =>
        left
        simp only [List.getElem?_cons_zero, Option.some.injEq] at h1
        rw [h2, h1]
        rfl
      | succ n =>
        right
        refine ⟨n, d, by simpa using h1, ?_⟩
        rw [h2]; congr 1; omega

theorem natCast_ne_neg_one (n : Nat) : (n : Int) ≠ -1 := by omega

set_option maxRecDepth 100000 in
/-- C16 (as stated) fails on its last point: with two exact duplicates of the query
(features 0 and 1) and a descriptor at squared distance 25 (feature 2), the accumulator of
`match_one` ends with the distances 0 and 25 and the indices 0 and 2, the ratio test
`0 / 25 < 0.8*0.8` holds, and the matcher records the match 0 instead of -1.  The
`Q2NNAccumulator` fed with the same pairs ends with the same content. -/
theorem C16_counterexample :
    match_one.scan false intFloatOps (exDesc 3) [[exDesc 3], [exDesc 3], [exDesc 8]] 0
        (best2_accumulator.init intFloatOps) = .ok ⟨0, 25, 0, 2⟩ ∧
    ieeeRatioLt 0 25 = true ∧
    match_one false intFloatOps (exDesc 3) [[exDesc 3], [exDesc 3], [exDesc 8]] = .ok 0 ∧
    cpu_matching false intFloatOps [[exDesc 3]] [[exDesc 3], [exDesc 3], [exDesc 8]] =
      .ok [0] ∧
    init.feed [(0, 0), (0, 1), (25, 2)] = ⟨0, 25, 0, 2⟩ :=
  ⟨by rfl, by decide, by rfl, by rfl, by decide⟩

/-- C16 (amended): scenario S3.  When the features scored for the query `q` (one
descriptor each, integer components in `0 .. 255`, at most `2^31` features) contain two
exact duplicates of `q` at different indices and a descriptor at positive distance, the
loops of `match_one` end, no assertion failing, with `dist[0] = 0`, `dist[1] > 0` and two
distinct valid indices, the second of which is not a duplicate; the ratio test `dist[0] / dist[1] < 0.8*0.8` holds and `match_one`
returns `index[0]`: the match is recorded, not rejected.  The `Q2NNAccumulator` fed with
pairs of one distance per index that contain two pairs of distance 0 and a pair of
positive distance ends with `dist[0] = 0`, `0 < dist[1]` and two distinct indices. -/
theorem C16_duplicates_are_matched (NDEBUG : Bool) (q : Nat → Int) (vb : List (Nat → Int))
    (i j k : Nat) (di dj dk : Nat → Int)
    (hq : ∀ c, c < 128 → 0 ≤ q c ∧ q c ≤ 255)
    (hvb : ∀ d ∈ vb, ∀ c, c < 128 → 0 ≤ d c ∧ d c ≤ 255)
    (hlen : vb.length ≤ 2147483648)
    (hij : i ≠ j) (hi : vb[i]? = some di) (hj : vb[j]? = some dj)
    (hdi : ∀ c, c < 128 → di c = q c) (hdj : ∀ c, c < 128 → dj c = q c)
    (hk : vb[k]? = some dk) (hpos : 0 < l2_dist_sq intFloatOps q dk) :
    (∃ b, match_one.scan NDEBUG intFloatOps q (vb.map (fun d => [d])) 0
          (best2_accumulator.init intFloatOps) = .ok b ∧
      b.distance0 = 0 ∧ 0 < b.distance1 ∧ b.index0 ≠ b.index1 ∧
      0 ≤ b.index0 ∧ b.index0 < vb.length ∧ 0 ≤ b.index1 ∧ b.index1 < vb.length ∧
      b.index1 ≠ i ∧ b.index1 ≠ j ∧
      intFloatOps.ratioLt b.distance0 b.distance1 = true ∧
      match_one NDEBUG intFloatOps q (vb.map (fun d => [d])) = .ok b.index0) ∧
    (∀ (xs : List (Nat × Nat)) (i1 i2 d i3 : Nat), (0, i1) ∈ xs → (0, i2) ∈ xs → i1 ≠ i2 →
      (d, i3) ∈ xs → 0 < d → (∀ p ∈ xs, p.1 < UINT_MAX) →
      (∀ p ∈ xs, ∀ p' ∈ xs, p.2 = p'.2 → p.1 = p'.1) →
      (init.feed xs).distance0 = 0 ∧ 0 < (init.feed xs).distance1 ∧
      (init.feed xs).index0 ≠ (init.feed xs).index1 ∧
      (init.feed xs).index1 ≠ i1 ∧ (init.feed xs).index1 ≠ i2) := by
  have hU : UINT_MAX = 4294967295 := rfl
  have _ := hij
  constructor
  · have hb : ∀ d ∈ vb, 0 ≤ l2_dist_sq intFloatOps q d ∧ l2_dist_sq intFloatOps q d ≤ 8323200 :=
      fun d hd => l2_dist_sq_bounds q d hq (hvb d hd)
    have hpairs := pairs_eq_natPairs q vb 0 (fun d hd => (hb d hd).1)
    have hmem := mem_natPairs q vb 0
    generalize match_one.natPairs q vb 0 = xs at hpairs hmem
    have hdata : ∀ p ∈ xs, p.1 < UINT_MAX ∧ p.2 < vb.length := by
      intro p hp
      obtain ⟨n, d, h1, h2⟩ := (hmem p).1 hp
      have hd := hb d (List.getElem?_mem h1)
      have hn : n < vb.length := by
        by_contra hc
        rw [List.getElem?_eq_none (by omega)] at h1
        cases h1
      rw [h2]
      dsimp only
      omega
    have hlt : ∀ p ∈ xs, p.1 < UINT_MAX := fun p hp => (hdata p hp).1
    have hidx : ∀ p ∈ xs, p.2 < 2147483648 := fun p hp => by
      have := (hdata p hp).2
      omega
    have hcons : ∀ p ∈ xs, ∀ p' ∈ xs, p.2 = p'.2 → p.1 = p'.1 := by
      intro p hp p' hp' he
      obtain ⟨n, d, h1, h2⟩ := (hmem p).1 hp
      obtain ⟨n', d', h1', h2'⟩ := (hmem p').1 hp'
      rw [h2, h2'] at he
      dsimp only at he
      have hn : n = n' := by omega
      subst hn
      rw [h1] at h1'
      simp only [Option.some.injEq] at h1'
      rw [h2, h2', h1']
    have hmi : (0, i) ∈ xs := by
      rw [hmem]
      refine ⟨i, di, hi, ?_⟩
      rw [l2_dist_sq_self q di hdi]
      simp
    have hmj : (0, j) ∈ xs := by
      rw [hmem]
      refine ⟨j, dj, hj, ?_⟩
      rw [l2_dist_sq_self q dj hdj]
      simp
    have hmk : ((l2_dist_sq intFloatOps q dk).toNat, k) ∈ xs := by
      rw [hmem]
      exact ⟨k, dk, hk, by simp⟩
    obtain ⟨f0, f1, f2, f3, f4, f5, f6⟩ :=
      feed_duplicates xs i _ k hmi hmk (by omega) hlt hcons
    have f7 := f6 i hmi
    have f8 := f6 j hmj
    have hchecks : best2_accumulator.ChecksOK intFloatOps (best2_accumulator.init intFloatOps)
        (xs.map (fun p => ((p.1 : Int), p.2))) := by
      apply ChecksOK_of_initial_segments
      intro pre p post hx
      have hsub : ∀ r ∈ pre ++ [p], r ∈ xs := by
        intro r hr
        rw [hx]
        rcases List.mem_append.1 hr with h | h
        · exact List.mem_append_left _ h
        · rw [List.mem_singleton] at h
          rw [h]; exact List.mem_append_right _ (List.mem_cons_self _ _)
      rw [toBest2_feed _ (fun r hr => hlt r (hsub r hr))]
      exact toBest2_feed_asserts _ (by simp) (fun r hr => hlt r (hsub r hr))
        (fun r hr => hidx r (hsub r hr))
        (fun r hr r' hr' => hcons r (hsub r hr) r' (hsub r' hr'))
    have hscan := scan_eq_feed NDEBUG intFloatOps q (vb.map (fun d => [d])) 0
      (best2_accumulator.init intFloatOps) (Or.inr (by rw [hpairs]; exact hchecks))
    rw [hpairs, toBest2_feed xs hlt] at hscan
    have g0 := (hdata _ f4).2
    have g1 := (hdata _ f5).2
    dsimp only at g0 g1
    generalize init.feed xs = a at hscan f0 f1 f2 f3 f4 f5 f7 f8 g0 g1
    obtain ⟨a0, a1, i0, i1⟩ := a
    dsimp only at f0 f1 f2 f3 f7 f8 g0 g1
    have e0 : (toBest2 ⟨a0, a1, i0, i1⟩).distance0 = 0 := by
      simp only [toBest2]
      rw [if_neg (by omega), f0]
      rfl
    have e1 : (toBest2 ⟨a0, a1, i0, i1⟩).distance1 = (a1 : Int) := by
      simp only [toBest2]
      rw [if_neg (by omega)]
    have e2 : (toBest2 ⟨a0, a1, i0, i1⟩).index0 = (i0 : Int) := toInt32_small i0 (by omega)
    have e3 : (toBest2 ⟨a0, a1, i0, i1⟩).index1 = (i1 : Int) := toInt32_small i1 (by omega)
    have hr : intFloatOps.ratioLt (toBest2 ⟨a0, a1, i0, i1⟩).distance0
        (toBest2 ⟨a0, a1, i0, i1⟩).distance1 = true := by
      rw [e0, e1]
      show ieeeRatioLt (0 : Int).toNat (a1 : Int).toNat = true
      rw [ieeeRatioLt_iff _ _ (by simp; omega)]
      simp
    generalize toBest2 ⟨a0, a1, i0, i1⟩ = b at hscan e0 e1 e2 e3 hr
    have hne : intFloatOps.ne b.distance1 intFloatOps.zero = true := by
      rw [e1]
      show decide ((a1 : Int) ≠ 0) = true
      rw [decide_eq_true_eq]
      exact_mod_cast (Nat.pos_iff_ne_zero.1 f1)
    have hi0 : b.index0 ≠ -1 := by rw [e2]; exact natCast_ne_neg_one i0
    have hi1 : b.index1 ≠ -1 := by rw [e3]; exact natCast_ne_neg_one i1
    have hfin := finish_ratio NDEBUG intFloatOps b hi0 hi1 hne
    rw [if_pos hr] at hfin
    refine ⟨b, hscan, e0, ?_, ?_, ?_, ?_, ?_, ?_, ?_, ?_, hr, ?_⟩
    · rw [e1]; exact_mod_cast f1
    · rw [e2, e3]; exact_mod_cast f3
    · rw [e2]; exact Int.ofNat_nonneg i0
    · rw [e2]; exact_mod_cast g0
    · rw [e3]; exact Int.ofNat_nonneg i1
    · rw [e3]; exact_mod_cast g1
    · rw [e3]; exact_mod_cast f7
    · rw [e3]; exact_mod_cast f8
    · rw [match_one, hscan]
      exact hfin
  · intro xs i1 i2 d i3 h1 h2 _ h3 hd hlt hcons
    obtain ⟨f0, f1, _, f3, _, _, f6⟩ := feed_duplicates xs i1 d i3 h1 h3 hd hlt hcons
    exact ⟨f0, f1, f3, f6 i1 h1, f6 i2 h2⟩

set_option maxRecDepth 100000 in
/-- Witness for C16 (amended): the features 3, 3, 8 scored for the query 3. -/
theorem C16_duplicates_are_matched_witness :
    ∃ b, match_one.scan false intFloatOps (exDesc 3)
          ([exDesc 3, exDesc 3, exDesc 8].map (fun d => [d])) 0
          (best2_accumulator.init intFloatOps) = .ok b ∧
      b.distance0 = 0 ∧ 0 < b.distance1 ∧ b.index0 ≠ b.index1 ∧
      0 ≤ b.index0 ∧ b.index0 < [exDesc 3, exDesc 3, exDesc 8].length ∧
      0 ≤ b.index1 ∧ b.index1 < [exDesc 3, exDesc 3, exDesc 8].length ∧
      b.index1 ≠ (0 : Nat) ∧ b.index1 ≠ (1 : Nat) ∧
      intFloatOps.ratioLt b.distance0 b.distance1 = true ∧
      match_one false intFloatOps (exDesc 3)
        ([exDesc 3, exDesc 3, exDesc 8].map (fun d => [d])) = .ok b.index0 :=
  (C16_duplicates_are_matched false (exDesc 3) [exDesc 3, exDesc 3, exDesc 8] 0 1 2
    (exDesc 3) (exDesc 3) (exDesc 8)
    (by intro c _; simp only [exDesc]; split_ifs <;> omega)
    (by
      intro d hd c _
      simp only [List.mem_cons, List.mem_singleton, List.not_mem_nil, or_false] at hd
      rcases hd with h | h | h <;> rw [h] <;> simp only [exDesc] <;> split_ifs <;> omega)
    (by decide) (by decide) rfl rfl (fun _ _ => rfl) (fun _ _ => rfl) rfl (by decide)).1

/-! ### C13: the order of the pops -/

/-- The entry taken by `extractMin` has the least distance. -/
theorem extractMin_min : ∀ (rest : List Entry) (e : Entry),
    ∀ x ∈ e :: rest, (Q2NNpq.extractMin e rest).1.distance ≤ x.distance := by
  intro rest
  induction rest with
  | nil =>
    intro e x hx
    simp only [List.mem_singleton] at hx
    rw [hx]; simp [Q2NNpq.extractMin]
  | cons y ys ih =>
    intro e x hx
    unfold Q2NNpq.extractMin
    split_ifs with h
    · dsimp only
      rcases List.mem_cons.1 hx with hx | hx
      · rw [hx]
      · exact le_trans h (ih y x hx)
    · dsimp only
      rcases List.mem_cons.1 hx with hx | hx
      · rw [hx]; omega
      · exact ih y x hx

/-- What `ProcessPQ` does to the heap and to the leaves when it pops the entry `pqe`. -/
theorem ProcessPQ_pq (trees : List KDTree) (q : U8Descriptor) (c c1 : Candidate2NNQuery)
    (pqe : Entry) (pq1 : List Entry) (hpop : Q2NNpq.Pop c.pq = some (pqe, pq1))
    (h : c.ProcessPQ trees q = .ok (true, c1)) :
    ∃ t nd, trees[pqe.tree]? = some t ∧ t.nodes[pqe.node]? = some nd ∧
      ((nd.leaf = true ∧ c1.pq = pq1 ∧ c1.leafs = c.leafs ++ [⟨pqe.tree, nd.index, nd.end_⟩]) ∨
       (nd.leaf = false ∧ c1.leafs = c.leafs ∧
        ∃ bl br, t.bb[KDTree.Left pqe.node % 65536]? = some bl ∧
          t.bb[KDTree.Right nd % 65536]? = some br ∧
          c1.pq = pq1 ++ [⟨L1DistanceBB q bl % 65536, pqe.tree, KDTree.Left pqe.node % 65536⟩,
            ⟨L1DistanceBB q br % 65536, pqe.tree, KDTree.Right nd % 65536⟩])) := by
  unfold Candidate2NNQuery.ProcessPQ at h
  rw [hpop] at h
  dsimp only at h
  cases ht : trees[pqe.tree]? with
  | none => rw [ht] at h; cases h
  | some tree =>
    rw [ht] at h
    dsimp only at h
    cases hn : tree.nodes[pqe.node]? with
    | none => rw [hn] at h; cases h
    | some nd =>
      rw [hn] at h
      dsimp only at h
      refine ⟨tree, nd, rfl, hn, ?_⟩
      by_cases hl : nd.leaf = true
      · rw [if_pos hl] at h
        by_cases hr : nd.index ≤ nd.end_
        · rw [if_neg (not_not.2 hr)] at h
          simp only [Except.ok.injEq, Prod.mk.injEq, true_and] at h
          rw [← h]
          exact Or.inl ⟨hl, rfl, rfl⟩
        · rw [if_pos hr] at h; cases h
      · rw [if_neg hl] at h
        cases hbl : tree.bb[KDTree.Left pqe.node % 65536]? with
        | none => rw [hbl] at h; cases h
        | some bl =>
          cases hbr : tree.bb[KDTree.Right nd % 65536]? with
          | none => rw [hbl, hbr] at h; cases h
          | some br =>
            rw [hbl, hbr] at h
            simp only [Except.ok.injEq, Prod.mk.injEq, true_and] at h
            rw [← h]
            refine Or.inr ⟨by simpa using hl, rfl, bl, br, rfl, rfl, ?_⟩
            simp [Q2NNpq.Push]

/-- The box distance does not decrease from a box to a box inside it. -/
theorem BBDistance_mono (p a : BoundingBox) (q : U8Descriptor)
    (h : ∀ k, p.min.ufeatures k ≤ a.min.ufeatures k ∧ a.min.ufeatures k ≤ a.max.ufeatures k ∧
      a.max.ufeatures k ≤ p.max.ufeatures k) :
    BBDistance p q ≤ BBDistance a q := by
  unfold BBDistance
  apply foldl_le_foldl _ _ _ _ 0 0 (le_refl _)
  intro x y k hxy
  obtain ⟨h1, h2, h3⟩ := h k
  split_ifs <;> omega

/-- A subtree of a built tree holds a descriptor index below `N`; its box is well formed
and its box distance to a byte query fits 16 bits. -/
theorem Sub_box_facts (t : KDTree) (descs : Nat → U8Descriptor) (N : Nat) (tv s : TreeView)
    (hb : t.Built descs N tv) (hsub : Sub s tv) (q : U8Descriptor)
    (hU : ∀ i, i < N → (descs i).IsU8) (hq : q.IsU8) :
    (∀ k, s.box.min.ufeatures k ≤ s.box.max.ufeatures k) ∧ L1DistanceBB q s.box ≤ 32640 := by
  have hshape : Shape tv 0 N := hb.2.1
  obtain ⟨lo, hi, hsh, _, _⟩ := Sub_Shape s tv 0 N hshape hsub
  have hlen := Shape_length s lo hi hsh
  have hlt := Shape_lt s lo hi hsh
  have hne : s.indices ≠ [] := by
    intro h0; rw [h0] at hlen; simp at hlen; omega
  obtain ⟨i, hi'⟩ := List.exists_mem_of_ne_nil _ hne
  have hbox := box_contains descs s (Sub_BoxOK descs s tv hsub hb.2.2.2.2.1) i hi'
  have hiN : i < N := by
    have h1 := Sub_indices s tv hsub i hi'
    rw [hb.2.2.1] at h1
    exact List.mem_range.1 (hb.2.2.2.2.2.2.2.1.mem_iff.1 h1)
  refine ⟨fun k => le_trans (hbox k).1 (hbox k).2, ?_⟩
  have h1 := BBDistance_le_L1Distance s.box q (descs i) hbox
  have h2 := L1Distance_le q (descs i) hq (hU i hiN)
  unfold L1DistanceBB
  omega

theorem DistOK_OK (trees : List KDTree) (descs : Nat → U8Descriptor) (N : Nat)
    (q : U8Descriptor) (e : Entry) (h : e.DistOK trees descs N q) : e.OK trees descs N := by
  obtain ⟨t, tv, s, h1, h2, h3, h4, h5, _⟩ := h
  exact ⟨t, tv, s, h1, h2, h3, h4, h5⟩

/-- The roots pushed by the first loop of the enumerator carry their box distance. -/
theorem pushRoots_dist (trees : List KDTree) (descs : Nat → U8Descriptor) (N : Nat)
    (q : U8Descriptor)
    (hall : ∀ t ∈ trees, (∃ tv, t.Built descs N tv) ∧ t.nodes.length ≤ 65536)
    (hU : ∀ i, i < N → (descs i).IsU8) (hq : q.IsU8) :
    ∀ (ts : List KDTree) (i : Nat) (pq pq1 : List Entry), (∀ k, ts[k]? = trees[i + k]?) →
      Candidate2NNQuery.pushRoots q ts i pq = .ok pq1 →
      (∀ e ∈ pq, e.DistOK trees descs N q) → ∀ e ∈ pq1, e.DistOK trees descs N q := by
  intro ts
  induction ts with
  | nil =>
    intro i pq pq1 _ h hpq
    simp only [Candidate2NNQuery.pushRoots, Except.ok.injEq] at h
    rw [← h]; exact hpq
  | cons t ts ih =>
    intro i pq pq1 hk h hpq
    have ht : trees[i]? = some t := by
      have := hk 0
      simpa using this.symm
    have htm : t ∈ trees := List.getElem?_mem ht
    obtain ⟨⟨tv, hb⟩, hn⟩ := hall t htm
    have hrep : Rep t.nodes t.bb 0 tv := hb.1
    have hbox := Rep_box _ _ _ _ hrep
    unfold Candidate2NNQuery.pushRoots at h
    rw [hbox] at h
    dsimp only at h
    apply ih (i + 1) _ pq1 _ h
    · intro e he
      simp only [Q2NNpq.Push, List.mem_append, List.mem_singleton] at he
      rcases he with he | he
      · exact hpq e he
      · rw [he]
        obtain ⟨_, hle⟩ := Sub_box_facts t descs N tv tv hb (Sub_refl tv) q hU hq
        exact ⟨t, tv, tv, ht, hb, hn, Sub_refl tv, hrep, Nat.mod_eq_of_lt (by omega)⟩
    · intro k
      have := hk (k + 1)
      simp only [List.getElem?_cons_succ] at this
      rw [this]; congr 1; omega

theorem Pop_eq (pq : List Entry) (pqe : Entry) (pq1 : List Entry)
    (h : Q2NNpq.Pop pq = some (pqe, pq1)) :
    pqe ∈ pq ∧ (∀ e ∈ pq1, e ∈ pq) ∧ (∀ e ∈ pq, pqe.distance ≤ e.distance) := by
  cases pq with
  | nil => simp [Q2NNpq.Pop] at h
  | cons e0 rest =>
    simp only [Q2NNpq.Pop, Option.some.injEq] at h
    have hperm := extractMin_perm rest e0
    have hmin := extractMin_min rest e0
    rw [h] at hperm hmin
    dsimp only at hperm hmin
    exact ⟨hperm.mem_iff.1 (List.mem_cons_self _ _),
      fun e he => hperm.mem_iff.1 (List.mem_cons_of_mem _ he), hmin⟩

/-- One pop on a forest of built trees with at most 65536 nodes each: the entries of the
new heap carry their box distance, which is at least the distance of the entry popped, and
the leaves grow by the range of the entry popped if its node is a leaf. -/
theorem ProcessPQ_dist (trees : List KDTree) (descs : Nat → U8Descriptor) (N : Nat)
    (q : U8Descriptor) (hU : ∀ i, i < N → (descs i).IsU8) (hq : q.IsU8)
    (c c1 : Candidate2NNQuery) (pqe : Entry) (pq1 : List Entry)
    (hpop : Q2NNpq.Pop c.pq = some (pqe, pq1))
    (hstep : c.ProcessPQ trees q = .ok (true, c1))
    (hd : ∀ e ∈ c.pq, e.DistOK trees descs N q) :
    (∀ e ∈ c1.pq, e.DistOK trees descs N q ∧ pqe.distance ≤ e.distance) ∧
    c1.leafs = c.leafs ++ (pqe.leafRange trees).toList := by
  obtain ⟨hmem, hsub1, hmin⟩ := Pop_eq c.pq pqe pq1 hpop
  obtain ⟨t, tv, s, ht, hb, hn, hsub, hrep, hdist⟩ := hd pqe hmem
  obtain ⟨t', nd, ht', hnd, hcase⟩ := ProcessPQ_pq trees q c c1 pqe pq1 hpop hstep
  rw [ht] at ht'
  simp only [Option.some.injEq] at ht'
  subst ht'
  rcases hcase with ⟨hl, hpq, hleafs⟩ | ⟨hl, hleafs, bl, br, hbl, hbr, hpq⟩
  · constructor
    · intro e he
      rw [hpq] at he
      exact ⟨hd e (hsub1 e he), hmin e (hsub1 e he)⟩
    · rw [hleafs]
      simp only [Entry.leafRange, ht, hnd, hl, if_true, Option.toList]
  · have hlr : pqe.leafRange trees = none := by
      simp only [Entry.leafRange, ht, hnd, hl, Bool.false_eq_true, if_false]
    refine ⟨?_, by rw [hleafs, hlr]; simp⟩
    cases s with
    | leaf b e xs bx =>
      obtain ⟨nd', q1, q2, _⟩ := hrep
      rw [hnd] at q1
      simp only [Option.some.injEq] at q1
      rw [q1, q2] at hl
      cases hl
    | node dim val bx l r =>
      obtain ⟨nd', q1, q2, q3, q4, q5, q6, q7, q8⟩ := hrep
      rw [hnd] at q1
      simp only [Option.some.injEq] at q1
      subst q1
      have hb1 := Rep_bound _ _ _ _ q7
      have hb2 := Rep_bound _ _ _ _ q8
      have hl1 : KDTree.Left pqe.node % 65536 = pqe.node + 1 := by
        unfold KDTree.Left
        have := l.size_pos
        exact Nat.mod_eq_of_lt (by omega)
      have hr1 : KDTree.Right nd % 65536 = pqe.node + 1 + l.size := by
        unfold KDTree.Right
        rw [q5]
        have := r.size_pos
        exact Nat.mod_eq_of_lt (by omega)
      rw [hl1] at hbl hpq
      rw [hr1] at hbr hpq
      rw [Rep_box _ _ _ _ q7] at hbl
      rw [Rep_box _ _ _ _ q8] at hbr
      simp only [Option.some.injEq] at hbl hbr
      subst hbl; subst hbr
      have hsl : Sub l tv := Sub_trans l (node dim val bx l r) tv
        (show Sub l (node dim val bx l r) from Or.inr (Or.inl (Sub_refl l))) hsub
      have hsr : Sub r tv := Sub_trans r (node dim val bx l r) tv
        (show Sub r (node dim val bx l r) from Or.inr (Or.inr (Sub_refl r))) hsub
      obtain ⟨hml, hdl⟩ := Sub_box_facts t descs N tv l hb hsl q hU hq
      obtain ⟨hmr, hdr⟩ := Sub_box_facts t descs N tv r hb hsr q hU hq
      have hbx : bx = Union l.box r.box :=
        (Sub_BoxOK descs _ tv hsub hb.2.2.2.2.1).1
      simp only [TreeView.box] at hdist
      have hmonol : L1DistanceBB q bx ≤ L1DistanceBB q l.box := by
        unfold L1DistanceBB
        apply BBDistance_mono
        intro k
        rw [hbx]
        simp only [Union]
        exact ⟨Nat.min_le_left _ _, hml k, Nat.le_max_left _ _⟩
      have hmonor : L1DistanceBB q bx ≤ L1DistanceBB q r.box := by
        unfold L1DistanceBB
        apply BBDistance_mono
        intro k
        rw [hbx]
        simp only [Union]
        exact ⟨Nat.min_le_right _ _, hmr k, Nat.le_max_right _ _⟩
      have hmodl : L1DistanceBB q l.box % 65536 = L1DistanceBB q l.box :=
        Nat.mod_eq_of_lt (by omega)
      have hmodr : L1DistanceBB q r.box % 65536 = L1DistanceBB q r.box :=
        Nat.mod_eq_of_lt (by omega)
      intro e he
      rw [hpq] at he
      simp only [List.mem_append, List.mem_cons, List.mem_singleton, List.not_mem_nil,
        or_false] at he
      rcases he with he | he | he
      · exact ⟨hd e (hsub1 e he), hmin e (hsub1 e he)⟩
      · rw [he]
        exact ⟨⟨t, tv, l, ht, hb, hn, hsl, q7, hmodl⟩, by dsimp only; omega⟩
      · rw [he]
        exact ⟨⟨t, tv, r, ht, hb, hn, hsr, q8, hmodr⟩, by dsimp only; omega⟩

theorem filterMap_singleton_toList {α β : Type} (f : α → Option β) (a : α) :
    [a].filterMap f = (f a).toList := by
  cases h : f a <;> simp [List.filterMap_cons, h]

/-- The loop of the enumerator on a forest of built trees with at most 65536 nodes each:
it ends within its fuel, the distances of the entries popped never decrease, and the
leaves found are the ranges of the popped entries that are leaves, in the order of the
pops. -/
theorem loopTrace_spec (trees : List KDTree) (descs : Nat → U8Descriptor) (N T : Nat)
    (q : U8Descriptor) (M : Nat) (hU : ∀ i, i < N → (descs i).IsU8) (hq : q.IsU8) :
    ∀ (fuel : Nat) (c : Candidate2NNQuery) (tr : List Entry), c.Inv trees descs N T →
      (∀ e ∈ c.pq, e.DistOK trees descs N q) →
      tr.Pairwise (fun a b => a.distance ≤ b.distance) →
      (∀ x ∈ tr, ∀ e ∈ c.pq, x.distance ≤ e.distance) →
      (∀ x ∈ tr, x.DistOK trees descs N q) →
      c.leafs = tr.filterMap (Entry.leafRange trees) →
      (c.pq.map (fun e => e.size trees)).sum < fuel →
      ∃ c1 tr1, Candidate2NNQuery.loopTrace trees q M fuel c tr = .ok (c1, tr1) ∧
        Candidate2NNQuery.loop trees q M fuel c = .ok c1 ∧
        tr1.Pairwise (fun a b => a.distance ≤ b.distance) ∧
        (∀ x ∈ tr1, x.DistOK trees descs N q) ∧
        c1.leafs = tr1.filterMap (Entry.leafRange trees) ∧
        c1.Inv trees descs N T ∧
        tr1.length ≤ tr.length + (c.pq.map (fun e => e.size trees)).sum := by
  intro fuel
  induction fuel with
  | zero => intro c tr _ _ _ _ _ _ h; exact absurd h (Nat.not_lt_zero _)
  | succ fuel ih =>
    intro c tr hinv hd hpw hle hall hleafs hm
    unfold Candidate2NNQuery.loopTrace Candidate2NNQuery.loop
    by_cases hf : c.found_descriptors < M
    · rw [if_pos hf, if_pos hf]
      cases hpq : c.pq with
      | nil =>
        rw [ProcessPQ_nil trees q c hpq]
        exact ⟨c, tr, rfl, rfl, hpw, hall, hleafs, hinv, by omega⟩
      | cons e0 rest =>
        obtain ⟨c1, hstep, hinv1, hlt⟩ := ProcessPQ_step trees descs N T q c hinv e0 rest hpq
        have hpop : Q2NNpq.Pop c.pq = some ((Q2NNpq.extractMin e0 rest).1,
            (Q2NNpq.extractMin e0 rest).2) := by
          rw [hpq]; rfl
        generalize (Q2NNpq.extractMin e0 rest).1 = pqe at hpop
        generalize (Q2NNpq.extractMin e0 rest).2 = pq1 at hpop
        obtain ⟨hmem, _, _⟩ := Pop_eq c.pq pqe pq1 hpop
        obtain ⟨hd1, hl1⟩ := ProcessPQ_dist trees descs N q hU hq c c1 pqe pq1 hpop hstep hd
        rw [hstep]
        dsimp only
        rw [← hpq, hpop]
        dsimp only
        have hstep2 : ∃ c2 tr2,
            Candidate2NNQuery.loopTrace trees q M fuel c1 (tr ++ [pqe]) = .ok (c2, tr2) ∧
            Candidate2NNQuery.loop trees q M fuel c1 = .ok c2 ∧
            tr2.Pairwise (fun a b => a.distance ≤ b.distance) ∧
            (∀ x ∈ tr2, x.DistOK trees descs N q) ∧
            c2.leafs = tr2.filterMap (Entry.leafRange trees) ∧
            c2.Inv trees descs N T ∧
            tr2.length ≤ (tr ++ [pqe]).length + (c1.pq.map (fun e => e.size trees)).sum := by
          apply ih c1 (tr ++ [pqe]) hinv1 (fun e he => (hd1 e he).1)
          · rw [List.pairwise_append]
            refine ⟨hpw, List.pairwise_singleton _ _, ?_⟩
            intro x hx y hy
            rw [List.mem_singleton] at hy
            rw [hy]
            exact hle x hx pqe hmem
          · intro x hx e he
            rcases List.mem_append.1 hx with hx | hx
            · exact le_trans (hle x hx pqe hmem) (hd1 e he).2
            · rw [List.mem_singleton] at hx
              rw [hx]; exact (hd1 e he).2
          · intro x hx
            rcases List.mem_append.1 hx with hx | hx
            · exact hall x hx
            · rw [List.mem_singleton] at hx
              rw [hx]; exact hd pqe hmem
          · rw [hl1, hleafs, List.filterMap_append, filterMap_singleton_toList]
          · omega
        obtain ⟨c2, tr2, k1, k2, k3, k4, k5, k6, k7⟩ := hstep2
        rw [List.length_append, List.length_singleton] at k7
        exact ⟨c2, tr2, k1, k2, k3, k4, k5, k6, by omega⟩
    · rw [if_neg hf, if_neg hf]
      exact ⟨c, tr, rfl, rfl, hpw, hall, hleafs, hinv, by omega⟩

/-- The enumerator on a forest of built trees (fewer than 65536 trees, at most 65536 nodes
each) over byte descriptors, for a byte query and any budget: with fuel above the number
of nodes of the forest it returns; the distances of the entries popped never decrease;
every popped entry carries the box distance of its node; the leaves returned are the
ranges of the popped leaf entries, in the order of the pops, and are valid ranges; and
there are at most as many pops as the forest has nodes. -/
theorem Query2NNLeafs_trace_spec (forest : List KDTree) (descs : Nat → U8Descriptor)
    (N : Nat) (q : U8Descriptor) (M fuel : Nat)
    (hall : ∀ t ∈ forest, (∃ tv, t.Built descs N tv) ∧ t.nodes.length ≤ 65536)
    (hT2 : forest.length < 65536)
    (hU : ∀ i, i < N → (descs i).IsU8) (hq : q.IsU8)
    (hfuel : (forest.map (fun t => t.nodes.length)).sum < fuel) :
    ∃ leafs tr, Query2NNLeafs.trace fuel forest q M = .ok (leafs, tr) ∧
      Query2NNLeafs fuel forest q M = .ok leafs ∧
      tr.Pairwise (fun a b => a.distance ≤ b.distance) ∧
      (∀ e ∈ tr, ∃ t bb, forest[e.tree]? = some t ∧ t.bb[e.node]? = some bb ∧
        e.distance = L1DistanceBB q bb) ∧
      leafs = tr.filterMap (Entry.leafRange forest) ∧
      (∀ leaf ∈ leafs, leaf.entries forest = .ok (leaf.list forest) ∧
        ∀ i ∈ leaf.list forest, i < N) ∧
      tr.length ≤ (forest.map (fun t => t.nodes.length)).sum := by
  obtain ⟨ents, h1, h2, h3, h4, h5⟩ :=
    pushRoots_spec forest descs N q hall forest 0 [] (by intro k; rw [Nat.zero_add])
  rw [List.nil_append] at h1
  have hdist := pushRoots_dist forest descs N q hall hU hq forest 0 [] ents
    (by intro k; rw [Nat.zero_add]) h1 (fun e he => absurd he (List.not_mem_nil e))
  have hfin : ∀ (c1 : Candidate2NNQuery) (tr1 : List Entry),
      Candidate2NNQuery.loopTrace forest q M fuel ⟨ents, [], 0⟩ [] = .ok (c1, tr1) →
      Candidate2NNQuery.loop forest q M fuel ⟨ents, [], 0⟩ = .ok c1 →
      Query2NNLeafs.trace fuel forest q M = .ok (c1.leafs, tr1) ∧
      Query2NNLeafs fuel forest q M = .ok c1.leafs := by
    intro c1 tr1 e1 e2
    constructor
    · unfold Query2NNLeafs.trace
      rw [if_neg (by omega), h1]
      dsimp only
      rw [e1]
    · unfold Query2NNLeafs
      rw [if_neg (by omega), h1]
      dsimp only
      rw [e2]
  have hres : ∃ c1 tr1,
      Candidate2NNQuery.loopTrace forest q M fuel ⟨ents, [], 0⟩ [] = .ok (c1, tr1) ∧
      Candidate2NNQuery.loop forest q M fuel ⟨ents, [], 0⟩ = .ok c1 ∧
      tr1.Pairwise (fun a b => a.distance ≤ b.distance) ∧
      (∀ x ∈ tr1, x.DistOK forest descs N q) ∧
      c1.leafs = tr1.filterMap (Entry.leafRange forest) ∧
      (∀ leaf ∈ c1.leafs, leaf.entries forest = .ok (leaf.list forest) ∧
        ∀ i ∈ leaf.list forest, i < N) ∧
      tr1.length ≤ (forest.map (fun t => t.nodes.length)).sum := by
    by_cases hT : forest = []
    · subst hT
      have hents : ents = [] := by
        simp only [Candidate2NNQuery.pushRoots, Except.ok.injEq] at h1
        exact h1.symm
      subst hents
      obtain ⟨f, rfl⟩ : ∃ f, fuel = f + 1 := ⟨fuel - 1, by omega⟩
      refine ⟨⟨[], [], 0⟩, [], ?_, ?_, List.Pairwise.nil,
        fun x hx => absurd hx (List.not_mem_nil x), rfl,
        fun x hx => absurd hx (List.not_mem_nil x), Nat.zero_le _⟩
      · simp only [Candidate2NNQuery.loopTrace, Candidate2NNQuery.ProcessPQ, Q2NNpq.Pop]
        split_ifs <;> rfl
      · simp only [Candidate2NNQuery.loop, Candidate2NNQuery.ProcessPQ, Q2NNpq.Pop]
        split_ifs <;> rfl
    · have hinv : Candidate2NNQuery.Inv forest descs N forest.length ⟨ents, [], 0⟩ := by
        refine ⟨h2, ?_, ?_, ?_⟩
        · intro leaf hl; exact absurd hl (List.not_mem_nil leaf)
        · dsimp only; rw [h3]; omega
        · intro i hi
          exact Or.inr (h5 hT i hi)
      obtain ⟨c1, tr1, k1, k2, k3, k4, k5, k6, k7⟩ :=
        loopTrace_spec forest descs N forest.length q M hU hq fuel ⟨ents, [], 0⟩ []
          hinv hdist List.Pairwise.nil (fun x hx => absurd hx (List.not_mem_nil x))
          (fun x hx => absurd hx (List.not_mem_nil x)) rfl (by dsimp only; omega)
      refine ⟨c1, tr1, k1, k2, k3, k4, k5, k6.2.1, ?_⟩
      rw [List.length_nil, Nat.zero_add] at k7
      dsimp only at k7
      omega
  obtain ⟨c1, tr1, e1, e2, hpw, hd, hl, hv, hn⟩ := hres
  obtain ⟨r1, r2⟩ := hfin c1 tr1 e1 e2
  refine ⟨c1.leafs, tr1, r1, r2, hpw, ?_, hl, hv, hn⟩
  intro e he
  obtain ⟨t, tv, s, ht, _, _, _, hrep, hdist⟩ := hd e he
  exact ⟨t, s.box, ht, Rep_box _ _ _ _ hrep, hdist⟩

/-- C13, for trees whose node ids fit the `unsigned short` variables of `ProcessPQ`: on
every forest returned by `Build` with fewer than 65536 trees of at most 65536 nodes each,
over byte descriptors, and for every byte query and every budget, the enumerator returns
(given fuel above the number of nodes), the distances of the entries it pops from the heap
never decrease, every popped entry carries the box distance of its node, and the leaves
returned are the ranges of the popped leaf entries in the order of the pops.  The bound
on the nodes is needed: when node 65535 of a tree is internal, popping it pushes an entry
for node `65536 mod 65536 = 0`, the root, in place of its left child; if the entry was
popped at a distance above the box distance of the root, the next pop has a smaller
distance. -/
theorem C13_pops_nondecreasing (descs : Nat → U8Descriptor) (N T leaf_size : Nat)
    (sdim : Nat → Nat) (rng rng1 : Rng) (forest : List KDTree) (q : U8Descriptor)
    (M fuel : Nat)
    (hbuild : Build descs N T leaf_size sdim rng = .ok (forest, rng1))
    (hT2 : T < 65536)
    (hnodes : ∀ t ∈ forest, t.nodes.length ≤ 65536)
    (hU : ∀ i, i < N → (descs i).IsU8) (hq : q.IsU8)
    (hfuel : (forest.map (fun t => t.nodes.length)).sum < fuel) :
    (∃ leafs tr, Query2NNLeafs.trace fuel forest q M = .ok (leafs, tr) ∧
      Query2NNLeafs fuel forest q M = .ok leafs ∧
      tr.Pairwise (fun a b => a.distance ≤ b.distance) ∧
      (∀ e ∈ tr, ∃ t bb, forest[e.tree]? = some t ∧ t.bb[e.node]? = some bb ∧
        e.distance = L1DistanceBB q bb) ∧
      leafs = tr.filterMap (Entry.leafRange forest)) ∧
    (∀ (trees : List KDTree) (c : Candidate2NNQuery) (d : Nat) (pq1 : List Entry)
      (t : KDTree) (nd : Node) (b0 br : BoundingBox),
      Q2NNpq.Pop c.pq = some (⟨d, 0, 65535⟩, pq1) → trees[0]? = some t →
      t.nodes[65535]? = some nd → nd.leaf = false → t.bb[0]? = some b0 →
      t.bb[KDTree.Right nd % 65536]? = some br → L1DistanceBB q b0 % 65536 < d →
      ∃ c1, c.ProcessPQ trees q = .ok (true, c1) ∧
        (⟨L1DistanceBB q b0 % 65536, 0, 0⟩ : Entry) ∈ c1.pq ∧
        ∀ pqe pq2, Q2NNpq.Pop c1.pq = some (pqe, pq2) → pqe.distance < d) := by
  constructor
  · obtain ⟨hlen, hall⟩ := Build_forest_spec descs N T leaf_size sdim rng rng1 forest hbuild
    have hall' : ∀ t ∈ forest, (∃ tv, t.Built descs N tv) ∧ t.nodes.length ≤ 65536 :=
      fun t ht => ⟨(hall t ht).1, hnodes t ht⟩
    obtain ⟨leafs, tr, r1, r2, r3, r4, r5, _, _⟩ :=
      Query2NNLeafs_trace_spec forest descs N q M fuel hall' (by omega) hU hq hfuel
    exact ⟨leafs, tr, r1, r2, r3, r4, r5⟩
  · intro trees c d pq1 t nd b0 br hpop ht hnd hleaf hb0 hbr hlt
    have hL : KDTree.Left 65535 % 65536 = 0 := by decide
    refine ⟨⟨Q2NNpq.Push (Q2NNpq.Push pq1 ⟨L1DistanceBB q b0 % 65536, 0, 0⟩)
        ⟨L1DistanceBB q br % 65536, 0, KDTree.Right nd % 65536⟩, c.leafs,
        c.found_descriptors⟩, ?_, ?_, ?_⟩
    · unfold Candidate2NNQuery.ProcessPQ
      rw [hpop]
      simp only [ht, hnd, hleaf, hL, hb0, hbr]
      rfl
    · simp [Q2NNpq.Push]
    · intro pqe pq2 hpop2
      obtain ⟨_, _, hmin⟩ := Pop_eq _ pqe pq2 hpop2
      have := hmin ⟨L1DistanceBB q b0 % 65536, 0, 0⟩ (by simp [Q2NNpq.Push])
      dsimp only at this
      omega

set_option maxRecDepth 100000 in
/-- Witness for C13: the two-tree example forest with the budget 36: the four leaves are
popped at the distances 0, 0, 4, 4, after the two roots at the distance 0. -/
theorem C13_pops_nondecreasing_witness :
    ∃ leafs tr, Query2NNLeafs.trace 7 [exTree2, exTree2] exQ 36 = .ok (leafs, tr) ∧
      Query2NNLeafs 7 [exTree2, exTree2] exQ 36 = .ok leafs ∧
      tr.Pairwise (fun a b => a.distance ≤ b.distance) ∧
      (∀ e ∈ tr, ∃ t bb, [exTree2, exTree2][e.tree]? = some t ∧ t.bb[e.node]? = some bb ∧
        e.distance = L1DistanceBB exQ bb) ∧
      leafs = tr.filterMap (Entry.leafRange [exTree2, exTree2]) :=
  (C13_pops_nondecreasing exDescs2 18 2 1 exSdim exRng2 _ [exTree2, exTree2] exQ 36 7
    exForest2_Build (by decide)
    (by intro t ht; simp only [List.mem_cons, List.mem_singleton, List.not_mem_nil, or_false,
          or_self] at ht; subst ht; decide)
    (by intro i _ k _; simp only [exDescs2]; split_ifs <;> omega)
    exQ_IsU8 (by decide)).1

/-! ### C14: the query paths return -/

/-- In a built tree the box of every subtree has `min ≤ max` in every component. -/
theorem Sub_box_ordered (t : KDTree) (descs : Nat → U8Descriptor) (N : Nat) (tv s : TreeView)
    (hb : t.Built descs N tv) (hsub : Sub s tv) :
    ∀ k, s.box.min.ufeatures k ≤ s.box.max.ufeatures k := by
  have hshape : Shape tv 0 N := hb.2.1
  obtain ⟨lo, hi, hsh, _, _⟩ := Sub_Shape s tv 0 N hshape hsub
  have hlen := Shape_length s lo hi hsh
  have hlt := Shape_lt s lo hi hsh
  have hne : s.indices ≠ [] := by
    intro h0; rw [h0] at hlen; simp at hlen; omega
  obtain ⟨i, hi'⟩ := List.exists_mem_of_ne_nil _ hne
  have hbox := box_contains descs s (Sub_BoxOK descs s tv hsub hb.2.2.2.2.1) i hi'
  intro k
  exact le_trans (hbox k).1 (hbox k).2

theorem Tiles_append : ∀ (L1 L2 : List (Nat × Nat)) (lo m hi : Nat),
    Tiles L1 lo m → Tiles L2 m hi → Tiles (L1 ++ L2) lo hi := by
  intro L1
  induction L1 with
  | nil =>
    intro L2 lo m hi h1 h2
    simp only [Tiles] at h1
    subst h1
    simpa using h2
  | cons r rest ih =>
    intro L2 lo m hi h1 h2
    obtain ⟨a, b, c⟩ := h1
    exact ⟨a, b, ih L2 _ _ _ c h2⟩

/-- The leaf ranges of a subtree that covers `[lo, hi)` tile `[lo, hi)`. -/
theorem Shape_tiles : ∀ (s : TreeView) (lo hi : Nat), Shape s lo hi →
    Tiles s.leaves lo hi ∧ s.leaves ≠ [] := by
  intro s
  induction s with
  | leaf b e xs bx =>
    intro lo hi h
    obtain ⟨h1, h2, h3, _⟩ := h
    subst h1; subst h2
    simp only [TreeView.leaves, Tiles]
    exact ⟨⟨trivial, h3, trivial⟩, by simp⟩
  | node dim val bx l r ihl ihr =>
    intro lo hi h
    obtain ⟨m, h1, h2⟩ := h
    simp only [TreeView.leaves]
    refine ⟨Tiles_append _ _ _ _ _ (ihl _ _ h1).1 (ihr _ _ h2).1, ?_⟩
    intro h0
    exact (ihl _ _ h1).2 (List.append_eq_nil.1 h0).1

/-- What a tiling says range by range. -/
theorem Tiles_facts : ∀ (L : List (Nat × Nat)) (lo hi : Nat), Tiles L lo hi →
    (∀ r ∈ L, r.1 < r.2) ∧
    (∀ k r r', L[k]? = some r → L[k + 1]? = some r' → r.2 = r'.1) ∧
    (L ≠ [] → (∃ e rest, L = (lo, e) :: rest) ∧ ∃ b, L.getLast? = some (b, hi)) := by
  intro L
  induction L with
  | nil =>
    intro lo hi _
    refine ⟨by simp, by simp, fun h => absurd rfl h⟩
  | cons r rest ih =>
    intro lo hi h
    obtain ⟨a, b, c⟩ := h
    obtain ⟨i1, i2, i3⟩ := ih _ _ c
    refine ⟨?_, ?_, ?_⟩
    · intro x hx
      rcases List.mem_cons.1 hx with hx | hx
      · rw [hx]; exact b
      · exact i1 x hx
    · intro k x x' hx hx'
      cases k with
      | zero =>
        simp only [List.getElem?_cons_zero, Option.some.injEq] at hx
        simp only [Nat.zero_add, List.getElem?_cons_succ] at hx'
        have hne : rest ≠ [] := by
          intro h0; rw [h0] at hx'; simp at hx'
        obtain ⟨⟨e, rest', hr⟩, _⟩ := i3 hne
        rw [hr] at hx'
        simp only [List.getElem?_cons_zero, Option.some.injEq] at hx'
        rw [← hx, ← hx']
      | succ k =>
        simp only [List.getElem?_cons_succ] at hx hx'
        exact i2 k x x' hx hx'
    · intro _
      refine ⟨⟨r.2, rest, ?_⟩, ?_⟩
      · rw [← a]
      · cases hrest : rest with
        | nil =>
          rw [hrest] at c
          simp only [Tiles] at c
          refine ⟨r.1, ?_⟩
          rw [← c]
          rfl
        | cons y ys =>
          have hne : rest ≠ [] := by rw [hrest]; simp
          obtain ⟨_, bb, hl⟩ := i3 hne
          rw [hrest] at hl
          exact ⟨bb, by rw [List.getLast?_cons_cons]; exact hl⟩

theorem subtreeLeaves_eq (t : KDTree) :
    ∀ (s : TreeView) (n fuel : Nat), Rep t.nodes t.bb n s →
      s.size ≤ fuel → t.subtreeLeaves fuel n = s.leaves := by
  intro s
  induction s with
  | leaf b e xs bx =>
    intro n fuel h hf
    obtain ⟨nd, q1, q2, q3, q4, _⟩ := h
    simp only [TreeView.size] at hf
    obtain ⟨f, rfl⟩ : ∃ f, fuel = f + 1 := ⟨fuel - 1, by omega⟩
    simp only [KDTree.subtreeLeaves, q1, q2, if_true, TreeView.leaves, q3, q4]
  | node dim val bx l r ihl ihr =>
    intro n fuel h hf
    obtain ⟨nd, q1, q2, q3, q4, q5, q6, q7, q8⟩ := h
    simp only [TreeView.size] at hf
    obtain ⟨f, rfl⟩ : ∃ f, fuel = f + 1 := ⟨fuel - 1, by omega⟩
    simp only [KDTree.subtreeLeaves, q1, q2, TreeView.leaves, KDTree.Left, KDTree.Right, q5]
    rw [ihl (n + 1) f q7 (by omega), ihr (n + 1 + l.size) f q8 (by omega)]
    simp

/-- C21: in every tree completed by `KDTree::Build`, every node has a box with
`min[i] <= max[i]` in all 128 components (the check of `Validate`), and the box of every
internal node is the `Union` of the boxes of its left and right children: component by
component the smaller of the two minima and the larger of the two maxima. -/
theorem C21_boxes_are_unions_and_ordered (descs : Nat → U8Descriptor) (N : Nat)
    (sdim : Nat → Nat) (leaf_size : Nat) (rng rng1 : Rng) (t0 t : KDTree)
    (h0 : KDTree.new descs N = .ok t0) (h : t0.Build sdim leaf_size rng = .ok (t, rng1))
    (n : Nat) (hn : n < t.nodes.length) :
    ∃ nd bx, t.nodes[n]? = some nd ∧ t.bb[n]? = some bx ∧
      (∀ i, i < 128 → bx.min.ufeatures i ≤ bx.max.ufeatures i) ∧
      (nd.leaf = false →
        ∃ bl br, t.bb[KDTree.Left n]? = some bl ∧ t.bb[KDTree.Right nd]? = some br ∧
          bx = Union bl br ∧
          ∀ i, bx.min.ufeatures i = min (bl.min.ufeatures i) (br.min.ufeatures i) ∧
            bx.max.ufeatures i = max (bl.max.ufeatures i) (br.max.ufeatures i)) := by
  obtain ⟨tv, hb, _, _, _⟩ := KDTree_Build_spec descs N sdim leaf_size rng rng1 t0 t h0 h
  obtain ⟨s, hsub, hr, _, _⟩ := Built_node t descs N tv hb n hn
  have hord := Sub_box_ordered t descs N tv s hb hsub
  have hbox := Sub_BoxOK descs s tv hsub hb.2.2.2.2.1
  cases s with
  | leaf b e xs bx =>
    obtain ⟨nd, q1, q2, _, _, q5⟩ := hr
    refine ⟨nd, bx, q1, q5, fun i _ => hord i, ?_⟩
    intro hl
    rw [hl] at q2
    exact absurd q2 (by decide)
  | node dim val bx l r =>
    obtain ⟨nd, q1, q2, q3, q4, q5, q6, q7, q8⟩ := hr
    refine ⟨nd, bx, q1, q6, fun i _ => hord i, ?_⟩
    intro _
    refine ⟨l.box, r.box, Rep_box _ _ l _ q7, ?_, hbox.1, ?_⟩
    · simp only [KDTree.Right, q5]
      exact Rep_box _ _ r _ q8
    · intro i
      rw [hbox.1]
      exact ⟨rfl, rfl⟩

set_option maxRecDepth 100000 in
/-- Witness for C21: the root of the example tree. -/
theorem C21_boxes_are_unions_and_ordered_witness :
    ∃ nd bx, exTree.nodes[0]? = some nd ∧ exTree.bb[0]? = some bx ∧
      (∀ i, i < 128 → bx.min.ufeatures i ≤ bx.max.ufeatures i) ∧
      (nd.leaf = false →
        ∃ bl br, exTree.bb[KDTree.Left 0]? = some bl ∧ exTree.bb[KDTree.Right nd]? = some br ∧
          bx = Union bl br ∧
          ∀ i, bx.min.ufeatures i = min (bl.min.ufeatures i) (br.min.ufeatures i) ∧
            bx.max.ufeatures i = max (bl.max.ufeatures i) (br.max.ufeatures i)) :=
  C21_boxes_are_unions_and_ordered exDescs 18 exSdim 1 exRng _ exTree0 exTree exTree0_new
    exTree_Build 0 (by decide)

/-- C22: in every tree completed by `KDTree::Build`, for every node `n` and every
descriptor index `i` held by a leaf of the subtree of `n`, the box of `n` contains
descriptor `i`: `bbox[n].min[k] <= descriptor[i][k] <= bbox[n].max[k]` for all 128
components `k`. -/
theorem C22_box_contains_subtree (descs : Nat → U8Descriptor) (N : Nat)
    (sdim : Nat → Nat) (leaf_size : Nat) (rng rng1 : Rng) (t0 t : KDTree)
    (h0 : KDTree.new descs N = .ok t0) (h : t0.Build sdim leaf_size rng = .ok (t, rng1))
    (n : Nat) (hn : n < t.nodes.length) (fuel : Nat) (hf : t.nodes.length ≤ fuel) :
    ∃ bx, t.bb[n]? = some bx ∧ t.subtreeIndices fuel n ≠ [] ∧
      ∀ i ∈ t.subtreeIndices fuel n, ∀ k, k < 128 →
        bx.min.ufeatures k ≤ (t.descriptors i).ufeatures k ∧
        (t.descriptors i).ufeatures k ≤ bx.max.ufeatures k := by
  obtain ⟨tv, hb, _, _, _⟩ := KDTree_Build_spec descs N sdim leaf_size rng rng1 t0 t h0 h
  obtain ⟨s, hsub, hr, _, hidx⟩ := Built_node t descs N tv hb n hn
  have hbox := Sub_BoxOK descs s tv hsub hb.2.2.2.2.1
  have hd : t.descriptors = descs := hb.2.2.2.2.2.2.2.2.1
  rw [hidx fuel hf, hd]
  refine ⟨s.box, Rep_box _ _ s n hr, ?_, ?_⟩
  · obtain ⟨lo, hi, hsh, _, _⟩ := Sub_Shape s tv 0 N hb.2.1 hsub
    have hlen := Shape_length s lo hi hsh
    have hlt := Shape_lt s lo hi hsh
    intro h0'; rw [h0'] at hlen; simp at hlen; omega
  · intro i hi k _
    exact box_contains descs s hbox i hi k

set_option maxRecDepth 100000 in
/-- Witness for C22: the root of the example tree. -/
theorem C22_box_contains_subtree_witness :
    ∃ bx, exTree.bb[0]? = some bx ∧ exTree.subtreeIndices 3 0 ≠ [] ∧
      ∀ i ∈ exTree.subtreeIndices 3 0, ∀ k, k < 128 →
        bx.min.ufeatures k ≤ (exTree.descriptors i).ufeatures k ∧
        (exTree.descriptors i).ufeatures k ≤ bx.max.ufeatures k :=
  C22_box_contains_subtree exDescs 18 exSdim 1 exRng _ exTree0 exTree exTree0_new
    exTree_Build 0 (by decide) 3 (by decide)

/-- C23: in every tree completed by `KDTree::Build` over `N` descriptors, the ranges of
the leaves met by a left-first depth-first traversal from the root are non-empty, the
first one begins at 0, each one ends where the next one begins, and the last one ends at
`N`: the leaf ranges partition `[0, N)` in that order. -/
theorem C23_leaf_ranges_tile (descs : Nat → U8Descriptor) (N : Nat)
    (sdim : Nat → Nat) (leaf_size : Nat) (rng rng1 : Rng) (t0 t : KDTree)
    (h0 : KDTree.new descs N = .ok t0) (h : t0.Build sdim leaf_size rng = .ok (t, rng1))
    (fuel : Nat) (hf : t.nodes.length ≤ fuel) :
    Tiles (t.subtreeLeaves fuel 0) 0 N ∧
    (∃ e rest, t.subtreeLeaves fuel 0 = (0, e) :: rest) ∧
    (∀ r ∈ t.subtreeLeaves fuel 0, r.1 < r.2) ∧
    (∀ k r r', (t.subtreeLeaves fuel 0)[k]? = some r →
      (t.subtreeLeaves fuel 0)[k + 1]? = some r' → r.2 = r'.1) ∧
    (∃ b, (t.subtreeLeaves fuel 0).getLast? = some (b, N)) := by
  obtain ⟨tv, hb, _, _, _⟩ := KDTree_Build_spec descs N sdim leaf_size rng rng1 t0 t h0 h
  have hlen : t.nodes.length = tv.size := hb.2.2.2.2.2.1
  rw [subtreeLeaves_eq t tv 0 fuel hb.1 (by omega)]
  obtain ⟨ht, hne⟩ := Shape_tiles tv 0 N hb.2.1
  obtain ⟨f1, f2, f3⟩ := Tiles_facts _ _ _ ht
  exact ⟨ht, (f3 hne).1, f1, f2, (f3 hne).2⟩

set_option maxRecDepth 100000 in
/-- Witness for C23: the example tree has the leaves `[0, 1)` and `[1, 18)`. -/
theorem C23_leaf_ranges_tile_witness :
    exTree.subtreeLeaves 3 0 = [(0, 1), (1, 18)] ∧ Tiles (exTree.subtreeLeaves 3 0) 0 18 :=
  ⟨by decide,
   (C23_leaf_ranges_tile exDescs 18 exSdim 1 exRng _ exTree0 exTree exTree0_new
      exTree_Build 3 (by decide)).1⟩

/-! ### C24: the splitting dimension stored in a node -/

/-- The dimension written by the attempt loop is the one it was started with (stored in
8 bits) or one below 128 drawn on retry. -/
theorem PartitionLoop_dim (descs : Nat → U8Descriptor) (l r : Nat) :
    ∀ (retries sd : Nat) (L : List Nat) (rng : Rng) (m dim val : Nat) (L1 : List Nat)
      (rng1 : Rng),
      KDTree.PartitionLoop descs l r retries sd L rng = .ok (m, dim, val, L1, rng1) →
      dim = sd % 256 ∨ dim < 128 := by
  intro retries
  induction retries with
  | zero =>
    intro sd L rng m dim val L1 rng1 h
    simp [KDTree.PartitionLoop] at h
  | succ k ih =>
    intro sd L rng m dim val L1 rng1 h
    unfold KDTree.PartitionLoop at h
    dsimp only at h
    have key : ∀ (rg : Rng) (L2 : List Nat),
        KDTree.PartitionLoop descs l r k (rg.uniform 0 127).1 L2 (rg.uniform 0 127).2 =
          .ok (m, dim, val, L1, rng1) → dim < 128 := by
      intro rg L2 h2
      have hlt := uniform_lt rg 127
      rcases ih _ _ _ _ _ _ _ _ h2 with h3 | h3
      · rw [h3]
        exact lt_of_le_of_lt (Nat.mod_le _ _) hlt
      · exact h3
    split_ifs at h with c1 c2
    · exact Or.inr (key _ _ h)
    · exact Or.inr (key _ _ h)
    · simp only [Except.ok.injEq, Prod.mk.injEq] at h
      exact Or.inl h.2.1.symm

/-- `KDTree::Build(node_index, lelem, relem)` writes into the nodes only dimensions that
are one of the five split dimensions (stored in 8 bits) or below 128. -/
theorem BuildRec_dims : ∀ (fuel : Nat) (st : KDTree) (rng : Rng) (n l r : Nat)
    (st1 : KDTree) (rng1 : Rng),
    (∀ nd ∈ st.nodes, (∃ k, k < 5 ∧ nd.dim = st.split_dimensions k % 256) ∨ nd.dim < 128) →
    KDTree.BuildRec fuel st rng n l r = .ok (st1, rng1) →
    (∀ nd ∈ st1.nodes, (∃ k, k < 5 ∧ nd.dim = st.split_dimensions k % 256) ∨ nd.dim < 128) ∧
      st1.split_dimensions = st.split_dimensions := by
  intro fuel
  induction fuel with
  | zero =>
    intro st rng n l r st1 rng1 _ h
    simp [KDTree.BuildRec] at h
  | succ fuel ih =>
    intro st rng n l r st1 rng1 hP h
    unfold KDTree.BuildRec at h
    by_cases c0 : st.nodes.length ≠ st.bb.length
    · rw [if_pos c0] at h; simp at h
    rw [if_neg c0] at h
    cases hnode : st.nodes[n]? with
    | none => rw [hnode] at h; simp at h
    | some node =>
      rw [hnode] at h
      dsimp only at h
      have hnodeP := hP node (List.getElem?_mem hnode)
      by_cases c1 : node.leaf = false
      · rw [if_pos c1] at h; simp at h
      rw [if_neg c1] at h
      by_cases c2 : ¬ l < r
      · rw [if_pos c2] at h; simp at h
      rw [if_neg c2] at h
      by_cases c3 : r - l ≤ st.leaf_size
      · rw [if_pos c3] at h
        simp only [Except.ok.injEq, Prod.mk.injEq] at h
        obtain ⟨hst, _⟩ := h
        subst hst
        refine ⟨?_, rfl⟩
        intro nd hnd
        rcases List.mem_or_eq_of_mem_set hnd with h1 | h1
        · exact hP nd h1
        · rw [h1]; exact hnodeP
      · rw [if_neg c3] at h
        split at h
        · simp at h
        · rename_i m dim val L1 rngp hp
          split at h
          · simp at h
          · rename_i t3 rng3 hb1
            split at h
            · simp at h
            · rename_i t5 rng5 hb2
              by_cases c4 : st.nodes.length ≠ n + 1
              · rw [if_pos c4] at h; simp at h
              rw [if_neg c4] at h
              split at h
              · rename_i nd5 bl br hnd hbl hbr
                simp only [Except.ok.injEq, Prod.mk.injEq] at h
                obtain ⟨hst, _⟩ := h
                subst hst
                have hdim : (∃ k, k < 5 ∧ dim = st.split_dimensions k % 256) ∨ dim < 128 := by
                  unfold KDTree.Partition at hp
                  rcases PartitionLoop_dim _ _ _ _ _ _ _ _ _ _ _ _ hp with h1 | h1
                  · exact Or.inl ⟨_, uniform_lt rng 4, h1⟩
                  · exact Or.inr h1
                obtain ⟨hP3, hs3⟩ := ih _ _ _ _ _ _ _ (by
                  intro nd hnd'
                  simp only [List.mem_append, List.mem_singleton] at hnd'
                  rcases hnd' with h1 | h1
                  · rcases List.mem_or_eq_of_mem_set h1 with h2 | h2
                    · exact hP nd h2
                    · rw [h2]; exact hdim
                  · rw [h1]; exact Or.inr (by decide)) hb1
                simp only at hP3 hs3
                obtain ⟨hP5, hs5⟩ := ih _ _ _ _ _ _ _ (by
                  intro nd hnd'
                  simp only [List.mem_append, List.mem_singleton] at hnd'
                  simp only [hs3]
                  rcases hnd' with h1 | h1
                  · exact hP3 nd h1
                  · rw [h1]; exact Or.inr (by decide)) hb2
                simp only [hs3] at hP5 hs5
                refine ⟨?_, hs5⟩
                intro nd hnd'
                rcases List.mem_or_eq_of_mem_set hnd' with h1 | h1
                · exact hP5 nd h1
                · rw [h1]
                  exact hP5 nd5 (List.getElem?_mem hnd)
              · simp at h

set_option maxRecDepth 100000 in
theorem exTreeRetry_Build :
    BuildTree exDescs 18 exSdim5 1 exRngRetry = .ok (exTreeRetry, ⟨exRngRetry.stream, 3⟩) := by
  rfl

/-- C24 (as stated) fails: for the 18 descriptors of the example, which are all 0 along
dimension 5, with the five split dimensions all equal to 5, the first attempt of the root
fails and the retry draws dimension 1 among all 128; the tree is built and validated, and
its root stores dimension 1, which is none of the five split dimensions. -/
theorem C24_counterexample :
    BuildTree exDescs 18 exSdim5 1 exRngRetry = .ok (exTreeRetry, ⟨exRngRetry.stream, 3⟩) ∧
    exTreeRetry.nodes[0]? = some ⟨2, 0, 1, 10, false⟩ ∧
    ¬ ∃ k, k < 5 ∧ Node.dim ⟨2, 0, 1, 10, false⟩ = exSdim5 k :=
  ⟨exTreeRetry_Build, rfl, by simp [exSdim5]⟩

/-- C24 (amended): in every tree completed by `KDTree::Build`, for every random stream,
the dimension stored in a node is one of the five split dimensions (in the 8 bits of the
field) or a dimension below 128 drawn by a retry of `KDTree::Partition`; so with split
dimensions below 128 every stored dimension is below 128.  `KDTree::Partition` stores one
of the five split dimensions whenever its first attempt does not fail. -/
theorem C24_split_dimension_five_or_retry (descs : Nat → U8Descriptor) (N : Nat)
    (sdim : Nat → Nat) (leaf_size : Nat) (rng rng1 : Rng) (t0 t : KDTree)
    (h0 : KDTree.new descs N = .ok t0) (h : t0.Build sdim leaf_size rng = .ok (t, rng1)) :
    (∀ nd ∈ t.nodes, (∃ k, k < 5 ∧ nd.dim = sdim k % 256) ∨ nd.dim < 128) ∧
    ((∀ k, k < 5 → sdim k < 128) → ∀ nd ∈ t.nodes, nd.dim < 128) ∧
    (∀ lelem relem rng2,
      (Attempt.first t rng2).fails t.descriptors lelem relem = false →
      ∃ k m val L1 rng3, k < 5 ∧
        t.Partition lelem relem rng2 = .ok (m, sdim k % 256, val, L1, rng3)) := by
  obtain ⟨_, _, _, hnodes, _, _⟩ := KDTree_new_spec descs N t0 h0
  obtain ⟨_, _, _, hsd, _⟩ := KDTree_Build_spec descs N sdim leaf_size rng rng1 t0 t h0 h
  have hall : ∀ nd ∈ t.nodes, (∃ k, k < 5 ∧ nd.dim = sdim k % 256) ∨ nd.dim < 128 := by
    unfold KDTree.Build at h
    split_ifs at h with c0
    dsimp only at h
    split at h
    · simp at h
    · rename_i t2 rng2 hb
      split_ifs at h with c1
      simp only [Except.ok.injEq, Prod.mk.injEq] at h
      obtain ⟨ht, _⟩ := h
      subst ht
      exact (BuildRec_dims _ _ _ _ _ _ _ _ (by
        intro nd hnd
        simp only [hnodes, List.nil_append, List.mem_singleton] at hnd
        rw [hnd]; exact Or.inr (by decide)) hb).1
  refine ⟨hall, ?_, ?_⟩
  · intro hs nd hnd
    rcases hall nd hnd with ⟨k, hk, hd⟩ | h1
    · rw [hd]
      exact lt_of_le_of_lt (Nat.mod_le _ _) (hs k hk)
    · exact h1
  · intro lelem relem rng2 hf
    have := (PartitionLoop_attempts t.descriptors lelem relem 16 (Attempt.first t rng2)).2.1 0
      (by decide) (fun j hj => absurd hj (Nat.not_lt_zero j)) hf
    refine ⟨(rng2.uniform 0 4).1,
      ((Attempt.first t rng2).result t.descriptors lelem relem).1,
      ((Attempt.first t rng2).result t.descriptors lelem relem).2.2.1,
      ((Attempt.first t rng2).result t.descriptors lelem relem).2.2.2.1,
      ((Attempt.first t rng2).result t.descriptors lelem relem).2.2.2.2,
      uniform_lt rng2 4, ?_⟩
    unfold KDTree.Partition
    rw [← hsd]
    exact this

set_option maxRecDepth 100000 in
/-- Witness for C24 (amended): the example tree, whose root stores dimension 0, one of its
split dimensions. -/
theorem C24_split_dimension_five_or_retry_witness :
    (∀ nd ∈ exTree.nodes, (∃ k, k < 5 ∧ nd.dim = exSdim k % 256) ∨ nd.dim < 128) ∧
    (∃ k m val L1 rng3, k < 5 ∧
      exTree.Partition 0 18 exRng = .ok (m, exSdim k % 256, val, L1, rng3)) :=
  ⟨(C24_split_dimension_five_or_retry exDescs 18 exSdim 1 exRng _ exTree0 exTree exTree0_new
      exTree_Build).1,
   (C24_split_dimension_five_or_retry exDescs 18 exSdim 1 exRng _ exTree0 exTree exTree0_new
      exTree_Build).2.2 0 18 exRng (by decide)⟩

/-! ### C25, C28: the box distance -/

/-- The box distance to a box whose lower corner is made of bytes is at most
`128 * 255`. -/
theorem BBDistance_le (bb : BoundingBox) (q : U8Descriptor) (hq : q.IsU8)
    (hmin : bb.min.IsU8) : BBDistance bb q ≤ 32640 := by
  unfold BBDistance
  have := foldl_le_add_mul
    (fun sum i =>
      if q.ufeatures i < bb.min.ufeatures i then sum + (bb.min.ufeatures i - q.ufeatures i)
      else if q.ufeatures i > bb.max.ufeatures i then
        sum + (q.ufeatures i - bb.max.ufeatures i)
      else sum) 255 (List.range 128)
    (by
      intro s k hk
      have hk' : k < 128 := List.mem_range.1 hk
      have h1 := hq k hk'
      have h2 := hmin k hk'
      dsimp only
      split_ifs <;> omega) 0
  simpa using this

/-- The contribution of component `i` to `TreeQuery::BBDistance`. -/
theorem BBDistance_eq_sum (bb : BoundingBox) (q : U8Descriptor) :
    BBDistance bb q =
      ((List.range 128).map (fun i =>
        if q.ufeatures i < bb.min.ufeatures i then bb.min.ufeatures i - q.ufeatures i
        else if q.ufeatures i > bb.max.ufeatures i then q.ufeatures i - bb.max.ufeatures i
        else 0)).sum := by
  unfold BBDistance
  have key : ∀ (L : List Nat) (a : Nat),
      L.foldl (fun sum i =>
        if q.ufeatures i < bb.min.ufeatures i then sum + (bb.min.ufeatures i - q.ufeatures i)
        else if q.ufeatures i > bb.max.ufeatures i then
          sum + (q.ufeatures i - bb.max.ufeatures i)
        else sum) a =
      a + (L.map (fun i =>
        if q.ufeatures i < bb.min.ufeatures i then bb.min.ufeatures i - q.ufeatures i
        else if q.ufeatures i > bb.max.ufeatures i then q.ufeatures i - bb.max.ufeatures i
        else 0)).sum := by
    intro L
    induction L with
    | nil => intro a; simp
    | cons x xs ih =>
      intro a
      simp only [List.foldl_cons, List.map_cons, List.sum_cons]
      rw [ih]
      split_ifs <;> omega
  rw [key]
  simp

theorem cast_sum_map (f : Nat → Nat) (g : Nat → Int) :
    ∀ (L : List Nat), (∀ i ∈ L, (f i : Int) = g i) →
      (((L.map f).sum : Nat) : Int) = (L.map g).sum := by
  intro L
  induction L with
  | nil => intro _; simp
  | cons x xs ih =>
    intro h
    simp only [List.map_cons, List.sum_cons, Nat.cast_add]
    rw [ih (fun i hi => h i (List.mem_cons_of_mem _ hi)), h x (List.mem_cons_self _ _)]

theorem sum_map_eq_zero (f : Nat → Nat) :
    ∀ (L : List Nat), (L.map f).sum = 0 ↔ ∀ i ∈ L, f i = 0 := by
  intro L
  induction L with
  | nil => simp
  | cons x xs ih =>
    simp only [List.map_cons, List.sum_cons, List.mem_cons, forall_eq_or_imp]
    rw [← ih]
    omega

/-- C25: for all byte descriptors `q`, `a`, `b` and every box `bb` of byte descriptors,
the L1 distance of `a` and `b` and the box distance of `q` to `bb` are at most
`128 * 255 = 32640 < 2^16`, so that their conversion to `unsigned short` (the reduction
modulo `2^16` made in `Candidate2NNQuery`) leaves them as they are. -/
theorem C25_distances_fit_16_bits (q a b : U8Descriptor) (bb : BoundingBox)
    (hq : q.IsU8) (ha : a.IsU8) (hb : b.IsU8) (hmin : bb.min.IsU8) :
    L1Distance a b ≤ 128 * 255 ∧ BBDistance bb q ≤ 128 * 255 ∧
    L1DistanceBB q bb ≤ 128 * 255 ∧ 128 * 255 < 2 ^ 16 ∧
    L1Distance a b % 65536 = L1Distance a b ∧
    BBDistance bb q % 65536 = BBDistance bb q ∧
    L1DistanceBB q bb % 65536 = L1DistanceBB q bb := by
  have h1 := L1Distance_le a b ha hb
  have h2 := BBDistance_le bb q hq hmin
  have h3 : L1DistanceBB q bb = BBDistance bb q := rfl
  rw [h3]
  refine ⟨h1, h2, h2, by decide, Nat.mod_eq_of_lt (by omega), Nat.mod_eq_of_lt (by omega),
    Nat.mod_eq_of_lt (by omega)⟩

set_option maxRecDepth 100000 in
/-- Witness for C25: the query of the example, two of its descriptors and the box of
descriptor 0. -/
theorem C25_distances_fit_16_bits_witness :
    L1Distance (exDescs 0) (exDescs 2) ≤ 128 * 255 ∧
    BBDistance (GetBoundingBox exDescs [0]) exQ % 65536 =
      BBDistance (GetBoundingBox exDescs [0]) exQ :=
  ⟨(C25_distances_fit_16_bits exQ (exDescs 0) (exDescs 2) (GetBoundingBox exDescs [0])
      exQ_IsU8 (exDescs_IsU8 0 (by decide)) (exDescs_IsU8 2 (by decide))
      (by intro k _; simp only [GetBoundingBox, exDescs, List.foldl]; split_ifs <;> decide)).1,
   (C25_distances_fit_16_bits exQ (exDescs 0) (exDescs 2) (GetBoundingBox exDescs [0])
      exQ_IsU8 (exDescs_IsU8 0 (by decide)) (exDescs_IsU8 2 (by decide))
      (by intro k _; simp only [GetBoundingBox, exDescs, List.foldl]; split_ifs <;> decide)).2.2.2.2.2.1⟩

/-- C28: for every query `q` and every box `bb` with `bb.min[i] <= bb.max[i]` in all 128
components, `TreeQuery::BBDistance(bb, q)` is the sum over the 128 components of
`max(bb.min[i] - q[i], q[i] - bb.max[i], 0)`, and it is 0 exactly when `q` lies inside the
box. -/
theorem C28_box_distance_formula (q : U8Descriptor) (bb : BoundingBox)
    (h : ∀ i, i < 128 → bb.min.ufeatures i ≤ bb.max.ufeatures i) :
    (BBDistance bb q : Int) = l1_to_box q bb ∧ (BBDistance bb q = 0 ↔ bb.Contains q) := by
  rw [BBDistance_eq_sum]
  constructor
  · unfold l1_to_box
    apply cast_sum_map
    intro i hi
    have hi' := h i (List.mem_range.1 hi)
    simp only [max_def]
    split_ifs <;> omega
  · rw [sum_map_eq_zero]
    unfold BoundingBox.Contains
    constructor
    · intro h1 i hi
      have := h1 i (List.mem_range.2 hi)
      split_ifs at this <;> omega
    · intro h1 i hi
      have := h1 i (List.mem_range.1 hi)
      split_ifs <;> omega

set_option maxRecDepth 100000 in
/-- Witness for C28: the box of descriptors 2 and 3 of the example, from which the query
of the example is at distance 51. -/
theorem C28_box_distance_formula_witness :
    (BBDistance (GetBoundingBox exDescs [2, 3]) exQ : Int) =
      l1_to_box exQ (GetBoundingBox exDescs [2, 3]) ∧
    BBDistance (GetBoundingBox exDescs [2, 3]) exQ = 51 :=
  ⟨(C28_box_distance_formula exQ (GetBoundingBox exDescs [2, 3])
      (by intro i _; simp only [GetBoundingBox, exDescs, List.foldl]; split_ifs <;> decide)).1,
   by decide⟩

/-! ### C26, C27: `KDTree::Build` completes or raises the partition error -/

/-- `KDTree::Build(node_index, lelem, relem)`, entered on the last node of the array, a
fresh leaf, with a non-empty range and one unit of fuel per element, completes or raises
the partition error: none of its assertions fails, no access is out of bounds and the
fuel is not used up. -/
theorem BuildRec_total : ∀ (fuel : Nat) (st : KDTree) (rng : Rng) (n l r : Nat),
    st.nodes.length = n + 1 → st.bb.length = n + 1 →
    (∃ node, st.nodes[n]? = some node ∧ node.leaf = true) →
    l < r → r ≤ st.list.length → r - l ≤ fuel →
    (∃ st1 rng1, KDTree.BuildRec fuel st rng n l r = .ok (st1, rng1)) ∨
      KDTree.BuildRec fuel st rng n l r = .error .partition := by
  intro fuel
  induction fuel with
  | zero =>
    intro st rng n l r _ _ _ hlr _ hf
    omega
  | succ fuel ih =>
    intro st rng n l r hn hb hnode hlr hr hf
    obtain ⟨node, hnode, hleaf⟩ := hnode
    unfold KDTree.BuildRec
    rw [if_neg (by omega), hnode]
    dsimp only
    rw [if_neg (by simp [hleaf]), if_neg (by omega)]
    by_cases c3 : r - l ≤ st.leaf_size
    · rw [if_pos c3]
      exact Or.inl ⟨_, _, rfl⟩
    rw [if_neg c3]
    cases hp : st.Partition l r rng with
    | error e =>
      dsimp only
      have he := (PartitionLoop_attempts st.descriptors l r 16 (Attempt.first st rng)).2.2 e hp
      rw [he]
      exact Or.inr rfl
    | ok res =>
      obtain ⟨m, dim, val, L1, rngp⟩ := res
      dsimp only
      obtain ⟨sd', sv, _, _, _, hm0, hmlt, hL1len, _⟩ :=
        PartitionLoop_spec st.descriptors l r hlr 16 _ st.list _ m dim val L1 rngp hr hp
      have hnlt : n < st.nodes.length := by omega
      -- the left child
      have hleft := ih
        { st with
            nodes := st.nodes.set n { node with dim := dim, val := val } ++ [Node.fresh]
            bb := st.bb ++ [BoundingBox.fresh]
            list := L1 } rngp st.nodes.length l (m + l)
        (by simp) (by simp [hn, hb])
        ⟨Node.fresh, by
          rw [List.getElem?_append_right (by simp)]
          simp, rfl⟩
        (by omega) (by simp only; omega) (by omega)
      rcases hleft with ⟨t3, rng3, hb1⟩ | hb1
      swap
      · rw [hb1]; exact Or.inr rfl
      rw [hb1]
      dsimp only
      obtain ⟨tl, _, _, _, _, _, hlen3, hlenb3, hfr3⟩ :=
        BuildRec_spec _ _ _ _ _ _ _ _ (by simp) (by simp only; omega) hb1
      obtain ⟨f3n, f3len, _⟩ := hfr3
      simp only at f3len f3n
      have hpos3 := tl.size_pos
      -- the right child
      have hright := ih
        { t3 with nodes := t3.nodes ++ [Node.fresh], bb := t3.bb ++ [BoundingBox.fresh] }
        rng3 t3.nodes.length (m + l) r
        (by simp) (by simp; omega)
        ⟨Node.fresh, by
          rw [List.getElem?_append_right (by simp)]
          simp, rfl⟩
        (by omega) (by simp only; omega) (by omega)
      rcases hright with ⟨t5, rng5, hb2⟩ | hb2
      swap
      · rw [hb2]; exact Or.inr rfl
      rw [hb2]
      dsimp only
      obtain ⟨tr, _, _, _, _, _, hlen5, hlenb5, hfr5⟩ :=
        BuildRec_spec _ _ _ _ _ _ _ _ (by simp) (by simp only; omega) hb2
      obtain ⟨f5n, _⟩ := hfr5
      simp only at f5n
      have hpos5 := tr.size_pos
      rw [if_neg (by omega)]
      have e1 : ∃ nd, t5.nodes[n]? = some nd := by
        have h1 := (f5n n (by omega)).1
        rw [List.getElem?_append_left (by omega)] at h1
        have h2 := (f3n n (by omega)).1
        rw [List.getElem?_append_left (by simp; omega), List.getElem?_set_self hnlt] at h2
        exact ⟨_, h1.trans h2⟩
      have e2 : ∃ bl, t5.bb[st.nodes.length]? = some bl := by
        have : st.nodes.length < t5.bb.length := by omega
        exact ⟨_, List.getElem?_eq_getElem this⟩
      have e3 : ∃ br, t5.bb[t3.nodes.length]? = some br := by
        have : t3.nodes.length < t5.bb.length := by omega
        exact ⟨_, List.getElem?_eq_getElem this⟩
      obtain ⟨nd, e1⟩ := e1
      obtain ⟨bl, e2⟩ := e2
      obtain ⟨br, e3⟩ := e3
      rw [e1, e2, e3]
      exact Or.inl ⟨_, _, rfl⟩

/-- `KDTree::Build(sdim, leaf_size)` on a freshly constructed tree completes or stops in
one of three ways: the partition error, the division by `leaf_size = 0`, or the assertion
`lelem < relem` of the root when there is no descriptor. -/
theorem KDTree_Build_total (descs : Nat → U8Descriptor) (N : Nat) (sdim : Nat → Nat)
    (leaf_size : Nat) (rng : Rng) (t0 : KDTree) (h0 : KDTree.new descs N = .ok t0) :
    (∃ t rng1, t0.Build sdim leaf_size rng = .ok (t, rng1)) ∨
    t0.Build sdim leaf_size rng = .error .partition ∨
    (leaf_size = 0 ∧ t0.Build sdim leaf_size rng = .error .undefined) ∨
    (leaf_size ≠ 0 ∧ N = 0 ∧ t0.Build sdim leaf_size rng = .error .assertion) := by
  obtain ⟨hN, hd, hc, hnodes, hbb, hlist⟩ := KDTree_new_spec descs N t0 h0
  unfold KDTree.Build
  by_cases c0 : leaf_size = 0
  · rw [if_pos c0]
    exact Or.inr (Or.inr (Or.inl ⟨c0, rfl⟩))
  rw [if_neg c0]
  dsimp only
  rw [hc]
  by_cases cN : N = 0
  · subst cN
    refine Or.inr (Or.inr (Or.inr ⟨c0, rfl, ?_⟩))
    simp [KDTree.BuildRec, hnodes, hbb, Node.fresh]
  have htot := BuildRec_total (N + 1)
    { t0 with
        leaf_size := (leaf_size + 16) % 4294967296
        split_dimensions := sdim
        nodes := t0.nodes ++ [Node.fresh]
        bb := t0.bb ++ [BoundingBox.fresh] } rng 0 0 N
    (by simp [hnodes]) (by simp [hbb]) ⟨Node.fresh, by simp [hnodes], rfl⟩ (by omega)
    (by simp [hlist]) (by omega)
  rw [hc] at htot
  rcases htot with ⟨t2, rng2, hb⟩ | hb
  · rw [hb]
    dsimp only
    obtain ⟨tv, _, _, _, _, _, hlen, hlenb, _⟩ :=
      BuildRec_spec _ _ _ _ _ _ _ _ (by simp [hnodes]) (by simp [hlist]) hb
    rw [if_neg (by omega)]
    exact Or.inl ⟨_, _, rfl⟩
  · rw [hb]
    exact Or.inr (Or.inl rfl)

/-- C26: `KDTree::Build` on `N >= 1` descriptors never fails an assertion (in particular
not `lc == node_index + 1`), and in every tree it completes, every internal node `n` has
its left child stored at `n + 1` and its right child stored at the link `r` of the node,
right after the nodes of the left subtree, with `n + 1 < r < |nodes|`. -/
theorem C26_left_child_is_next_node (descs : Nat → U8Descriptor) (N : Nat)
    (sdim : Nat → Nat) (leaf_size : Nat) (rng : Rng) (t0 : KDTree)
    (h0 : KDTree.new descs N = .ok t0) (hN : 1 ≤ N) :
    t0.Build sdim leaf_size rng ≠ .error .assertion ∧
    ∀ t rng1, t0.Build sdim leaf_size rng = .ok (t, rng1) →
      ∀ n nd, t.nodes[n]? = some nd → nd.leaf = false →
        KDTree.Left n = n + 1 ∧ n + 1 < KDTree.Right nd ∧ KDTree.Right nd < t.nodes.length ∧
        ∃ tv dim val bx l r, t.Built descs N tv ∧ Sub (TreeView.node dim val bx l r) tv ∧
          Rep t.nodes t.bb n (TreeView.node dim val bx l r) ∧
          Rep t.nodes t.bb (KDTree.Left n) l ∧ Rep t.nodes t.bb (KDTree.Right nd) r ∧
          KDTree.Right nd = KDTree.Left n + l.size := by
  constructor
  · rcases KDTree_Build_total descs N sdim leaf_size rng t0 h0 with
      ⟨t, rng1, h⟩ | h | ⟨_, h⟩ | ⟨_, hz, _⟩
    · rw [h]; intro hc; cases hc
    · rw [h]; intro hc; cases hc
    · rw [h]; intro hc; cases hc
    · omega
  · intro t rng1 h n nd hn hleaf
    obtain ⟨tv, hb, _, _, _⟩ := KDTree_Build_spec descs N sdim leaf_size rng rng1 t0 t h0 h
    have hnlt : n < t.nodes.length := (List.getElem?_eq_some.1 hn).1
    obtain ⟨s, hsub, hr, _, _⟩ := Built_node t descs N tv hb n hnlt
    cases s with
    | leaf b e xs bx =>
      obtain ⟨nd', q1, q2, _⟩ := hr
      rw [hn] at q1
      have := Option.some.inj q1
      subst this
      rw [hleaf] at q2
      exact absurd q2 (by decide)
    | node dim val bx l r =>
      have hr' := hr
      obtain ⟨nd', q1, q2, q3, q4, q5, q6, q7, q8⟩ := hr
      rw [hn] at q1
      have := Option.some.inj q1
      subst this
      have hbound := Rep_bound _ _ _ _ q8
      have hl := l.size_pos
      have hrp := r.size_pos
      refine ⟨rfl, ?_, ?_, tv, dim, val, bx, l, r, hb, hsub, hr', q7, ?_, ?_⟩
      · simp only [KDTree.Right, q5]; omega
      · simp only [KDTree.Right, q5]; omega
      · simp only [KDTree.Right, q5]; exact q8
      · simp only [KDTree.Right, KDTree.Left, q5]

set_option maxRecDepth 100000 in
/-- Witness for C26: the example tree, whose root has its children at 1 and 2. -/
theorem C26_left_child_is_next_node_witness :
    exTree0.Build exSdim 1 exRng ≠ .error .assertion ∧
    KDTree.Left 0 = 0 + 1 ∧ 0 + 1 < KDTree.Right ⟨2, 0, 0, 3, false⟩ ∧
    KDTree.Right ⟨2, 0, 0, 3, false⟩ < exTree.nodes.length :=
  ⟨(C26_left_child_is_next_node exDescs 18 exSdim 1 exRng exTree0 exTree0_new (by decide)).1,
   ((C26_left_child_is_next_node exDescs 18 exSdim 1 exRng exTree0 exTree0_new (by decide)).2
      exTree _ exTree_Build 0 ⟨2, 0, 0, 3, false⟩ rfl rfl).1,
   ((C26_left_child_is_next_node exDescs 18 exSdim 1 exRng exTree0 exTree0_new (by decide)).2
      exTree _ exTree_Build 0 ⟨2, 0, 0, 3, false⟩ rfl rfl).2.1,
   ((C26_left_child_is_next_node exDescs 18 exSdim 1 exRng exTree0 exTree0_new (by decide)).2
      exTree _ exTree_Build 0 ⟨2, 0, 0, 3, false⟩ rfl rfl).2.2.1⟩

/-- C27: whenever `KDTree::Partition` returns a pivot offset `m` for a range of
`n = relem - lelem` elements, `0 < m < n`, so that both child ranges `[lelem, lelem + m)`
and `[lelem + m, relem)` are non-empty and strictly shorter than the parent; and the
recursion of `KDTree::Build` ends for every input and every random stream: with one unit
of fuel per descriptor (and one more) the fuel is never used up, the call on a constructed
tree completing or stopping with the partition error, on the division by `leaf_size = 0`,
or on the assertion of the root when there is no descriptor. -/
theorem C27_pivot_inside_and_build_terminates (descs : Nat → U8Descriptor) (N : Nat)
    (sdim : Nat → Nat) (leaf_size : Nat) (rng : Rng) (t0 : KDTree)
    (h0 : KDTree.new descs N = .ok t0) :
    (∀ (t : KDTree) (lelem relem : Nat) (rng2 : Rng) (m dim val : Nat) (L1 : List Nat)
      (rng3 : Rng), lelem < relem → relem ≤ t.list.length →
      t.Partition lelem relem rng2 = .ok (m, dim, val, L1, rng3) →
      0 < m ∧ m < relem - lelem ∧ lelem < lelem + m ∧ lelem + m < relem ∧
      (lelem + m) - lelem < relem - lelem ∧ relem - (lelem + m) < relem - lelem) ∧
    t0.Build sdim leaf_size rng ≠ .error .fuel ∧
    ((∃ t rng1, t0.Build sdim leaf_size rng = .ok (t, rng1)) ∨
      t0.Build sdim leaf_size rng = .error .partition ∨
      (leaf_size = 0 ∧ t0.Build sdim leaf_size rng = .error .undefined) ∨
      (leaf_size ≠ 0 ∧ N = 0 ∧ t0.Build sdim leaf_size rng = .error .assertion)) ∧
    (∀ (fuel : Nat) (st : KDTree) (rng2 : Rng) (n l r : Nat),
      st.nodes.length = n + 1 → st.bb.length = n + 1 →
      (∃ node, st.nodes[n]? = some node ∧ node.leaf = true) →
      l < r → r ≤ st.list.length → r - l ≤ fuel →
      KDTree.BuildRec fuel st rng2 n l r ≠ .error .fuel) := by
  have htot := KDTree_Build_total descs N sdim leaf_size rng t0 h0
  refine ⟨?_, ?_, htot, ?_⟩
  · intro t lelem relem rng2 m dim val L1 rng3 hlr hr hp
    obtain ⟨_, _, _, _, _, hm0, hmlt, _⟩ :=
      PartitionLoop_spec t.descriptors lelem relem hlr 16 _ t.list _ m dim val L1 rng3 hr hp
    omega
  · rcases htot with ⟨t, rng1, h⟩ | h | ⟨_, h⟩ | ⟨_, _, h⟩ <;>
      · rw [h]; intro hc; cases hc
  · intro fuel st rng2 n l r a1 a2 a3 a4 a5 a6
    rcases BuildRec_total fuel st rng2 n l r a1 a2 a3 a4 a5 a6 with ⟨st1, rng1, h⟩ | h <;>
      · rw [h]; intro hc; cases hc

set_option maxRecDepth 100000 in
/-- Witness for C27: on the 18 descriptors of the example `Partition` returns the pivot
offset 1 for the range `[0, 18)`, and `Build` completes. -/
theorem C27_pivot_inside_and_build_terminates_witness :
    exTree0.Partition 0 18 exRng = .ok (1, 0, 3, List.range 18, ⟨exRng.stream, 2⟩) ∧
    (0 < 1 ∧ 1 < 18 - 0) ∧ exTree0.Build exSdim 1 exRng ≠ .error .fuel :=
  ⟨by rfl,
   ⟨((C27_pivot_inside_and_build_terminates exDescs 18 exSdim 1 exRng exTree0 exTree0_new).1
      exTree0 0 18 exRng 1 0 3 (List.range 18) ⟨exRng.stream, 2⟩ (by decide) (by decide)
      (by rfl)).1,
    ((C27_pivot_inside_and_build_terminates exDescs 18 exSdim 1 exRng exTree0 exTree0_new).1
      exTree0 0 18 exRng 1 0 3 (List.range 18) ⟨exRng.stream, 2⟩ (by decide) (by decide)
      (by rfl)).2.1⟩,
   (C27_pivot_inside_and_build_terminates exDescs 18 exSdim 1 exRng exTree0 exTree0_new).2.1⟩

/-! ### C30: the node ids pushed by `ProcessPQ` -/

/-- C30: when `ProcessPQ` pops an internal node `n`, the two entries it pushes carry the
node ids `Left(n) mod 2^16` and `Right(n) mod 2^16`, the ids having gone through the
`unsigned short` variables `l` and `r`, and the boxes probed are those stored at these
reduced ids.  The ids are those of the children exactly when they are below `2^16`; for
`n = 65535` the left entry names node 0, the root, in place of node 65536. -/
theorem C30_pushed_node_ids_modulo_65536 (trees : List KDTree) (q : U8Descriptor)
    (c : Candidate2NNQuery) (pqe : Entry) (pq1 : List Entry) (t : KDTree) (nd : Node)
    (bl br : BoundingBox)
    (hpop : Q2NNpq.Pop c.pq = some (pqe, pq1)) (ht : trees[pqe.tree]? = some t)
    (hnd : t.nodes[pqe.node]? = some nd) (hleaf : nd.leaf = false)
    (hbl : t.bb[KDTree.Left pqe.node % 65536]? = some bl)
    (hbr : t.bb[KDTree.Right nd % 65536]? = some br) :
    c.ProcessPQ trees q = .ok (true,
      ⟨pq1 ++ [⟨L1DistanceBB q bl % 65536, pqe.tree, KDTree.Left pqe.node % 65536⟩,
               ⟨L1DistanceBB q br % 65536, pqe.tree, KDTree.Right nd % 65536⟩],
       c.leafs, c.found_descriptors⟩) ∧
    (KDTree.Left pqe.node % 65536 = KDTree.Left pqe.node ↔ KDTree.Left pqe.node < 65536) ∧
    (KDTree.Right nd % 65536 = KDTree.Right nd ↔ KDTree.Right nd < 65536) ∧
    (pqe.node = 65535 → KDTree.Left pqe.node = 65536 ∧ KDTree.Left pqe.node % 65536 = 0) := by
  refine ⟨?_, ?_, ?_, ?_⟩
  · unfold Candidate2NNQuery.ProcessPQ
    rw [hpop]
    simp only [ht, hnd, hleaf, hbl, hbr]
    simp [Q2NNpq.Push]
  · constructor
    · intro h; rw [← h]; exact Nat.mod_lt _ (by decide)
    · intro h; exact Nat.mod_eq_of_lt h
  · constructor
    · intro h; rw [← h]; exact Nat.mod_lt _ (by decide)
    · intro h; exact Nat.mod_eq_of_lt h
  · intro h
    rw [h]
    exact ⟨rfl, rfl⟩

set_option maxRecDepth 100000 in
/-- Witness for C30: popping the root of the example tree pushes its children 1 and 2 (the
query is at distance 4 of the box of descriptor 0 and at distance 0 of the other box). -/
theorem C30_pushed_node_ids_modulo_65536_witness :
    (⟨[⟨0, 0, 0⟩], [], 0⟩ : Candidate2NNQuery).ProcessPQ [exTree] exQ =
      .ok (true, ⟨[] ++ [⟨L1DistanceBB exQ (GetBoundingBox exDescs [0]) % 65536, 0,
                          KDTree.Left 0 % 65536⟩,
                         ⟨L1DistanceBB exQ (GetBoundingBox exDescs
                            [1, 2, 3, 4, 5, 6, 7, 8, 9, 10, 11, 12, 13, 14, 15, 16, 17]) % 65536,
                          0, KDTree.Right ⟨2, 0, 0, 3, false⟩ % 65536⟩], [], 0⟩) :=
  (C30_pushed_node_ids_modulo_65536 [exTree] exQ ⟨[⟨0, 0, 0⟩], [], 0⟩ ⟨0, 0, 0⟩ [] exTree
    ⟨2, 0, 0, 3, false⟩ (GetBoundingBox exDescs [0])
    (GetBoundingBox exDescs [1, 2, 3, 4, 5, 6, 7, 8, 9, 10, 11, 12, 13, 14, 15, 16, 17])
    rfl rfl rfl rfl rfl rfl).1

/-! ### C29: a budget of `T * N` returns every leaf once -/

/-- The pairs fed by `match_one`: one per descriptor of every feature, with the index of
the feature. -/
theorem mem_pairs {F : Type} (ops : FloatOps F) (d1 : Nat → F) :
    ∀ (vb : List (List (Nat → F))) (ib : Nat) (p : F × Nat),
      p ∈ match_one.pairs ops d1 vb ib ↔
        ∃ n fb desc, vb[n]? = some fb ∧ desc ∈ fb ∧ p = (l2_dist_sq ops d1 desc, ib + n) := by
  intro vb
  induction vb with
  | nil => intro ib p; simp [match_one.pairs]
  | cons x rest ih =>
    intro ib p
    rw [match_one.pairs, List.mem_append, ih, List.mem_map]
    constructor
    · rintro (⟨desc, h1, h2⟩ | ⟨n, fb, desc, h1, h2, h3⟩)
      · exact ⟨0, x, desc, List.getElem?_cons_zero, h1, h2.symm⟩
      · exact ⟨n + 1, fb, desc, by simpa using h1, h2, by rw [h3]; congr 1; omega⟩
    · rintro ⟨n, fb, desc, h1, h2, h3⟩
      cases n with
      | zero =>
        left
        simp only [List.getElem?_cons_zero, Option.some.injEq] at h1
        subst h1
        exact ⟨desc, h2, h3.symm⟩
      | succ n =>
        right
        refine ⟨n, fb, desc, by simpa using h1, h2, ?_⟩
        rw [h3]; congr 1; omega

/-- Pairs of non-negative integer distance are the casts of pairs of natural distance. -/
theorem map_toNat_cast : ∀ (ps : List (Int × Nat)), (∀ p ∈ ps, 0 ≤ p.1) →
    ps = (ps.map (fun p => (p.1.toNat, p.2))).map (fun p => ((p.1 : Int), p.2)) := by
  intro ps
  induction ps with
  | nil => intro _; rfl
  | cons p ps ih =>
    intro h
    have hp := h p (List.mem_cons_self _ _)
    rw [List.map_cons, List.map_cons, ← ih (fun r hr => h r (List.mem_cons_of_mem _ hr))]
    congr 1
    apply Prod.ext
    · exact (Int.toNat_of_nonneg hp).symm
    · rfl

/-- The first update of a fresh accumulator with a distance below `FLT_MAX`. -/
theorem updateChecked_first (d : Int) (i : Nat) (hd : d < intFloatOps.FLT_MAX)
    (hi : i < 2147483648) :
    (best2_accumulator.init intFloatOps).updateChecked false intFloatOps d i =
      .ok ⟨d, intFloatOps.FLT_MAX, (i : Int), -1⟩ := by
  have hlt : intFloatOps.lt d intFloatOps.FLT_MAX = true := by
    show decide (d < intFloatOps.FLT_MAX) = true
    rw [decide_eq_true_eq]; exact hd
  have hu : (best2_accumulator.init intFloatOps).update intFloatOps.lt intFloatOps.ne d i =
      ⟨d, intFloatOps.FLT_MAX, (i : Int), -1⟩ := by
    simp only [best2_accumulator.update, best2_accumulator.init, hlt, if_true,
      toInt32_small i hi]
  unfold best2_accumulator.updateChecked
  rw [hu]
  have hne : ((i : Int) = -1) = False := eq_false (natCast_ne_neg_one i)
  simp only [hlt, hne, Bool.not_false, Bool.not_true, Bool.and_false, Bool.true_and,
    Bool.false_eq_true, if_false, decide_False]

/-- The second update with the same index and another distance below `FLT_MAX` leaves the
index twice in the accumulator, and the assertion `index[0] != index[1]` fails. -/
theorem updateChecked_same_index (d d' : Int) (i : Nat) (hne : d' ≠ d)
    (hd' : d' < intFloatOps.FLT_MAX) (hi : i < 2147483648) :
    ((⟨d, intFloatOps.FLT_MAX, (i : Int), -1⟩ : best2_accumulator Int).update
        intFloatOps.lt intFloatOps.ne d' i).index0 = (i : Int) ∧
    ((⟨d, intFloatOps.FLT_MAX, (i : Int), -1⟩ : best2_accumulator Int).update
        intFloatOps.lt intFloatOps.ne d' i).index1 = (i : Int) ∧
    (⟨d, intFloatOps.FLT_MAX, (i : Int), -1⟩ : best2_accumulator Int).updateChecked false
        intFloatOps d' i = .error .assertion := by
  have hlt : intFloatOps.lt d' intFloatOps.FLT_MAX = true := by
    show decide (d' < intFloatOps.FLT_MAX) = true
    rw [decide_eq_true_eq]; exact hd'
  have hn : intFloatOps.ne d' d = true := by
    show decide (d' ≠ d) = true
    rw [decide_eq_true_eq]; exact hne
  have hu : ((⟨d, intFloatOps.FLT_MAX, (i : Int), -1⟩ : best2_accumulator Int).update
        intFloatOps.lt intFloatOps.ne d' i).index0 = (i : Int) ∧
      ((⟨d, intFloatOps.FLT_MAX, (i : Int), -1⟩ : best2_accumulator Int).update
        intFloatOps.lt intFloatOps.ne d' i).index1 = (i : Int) := by
    simp only [best2_accumulator.update, hlt, hn, Bool.and_self, if_true, toInt32_small i hi]
    split_ifs <;> exact ⟨rfl, rfl⟩
  refine ⟨hu.1, hu.2, ?_⟩
  unfold best2_accumulator.updateChecked
  split_ifs with c1 c2
  · rfl
  · rfl
  · exfalso
    apply c2
    simp only [Bool.not_false, Bool.true_and, decide_eq_true_eq]
    rw [hu.1, hu.2]

/-- The accumulator after the first update with a distance below `FLT_MAX`. -/
theorem update_first (d : Int) (i : Nat) (hd : d < intFloatOps.FLT_MAX)
    (hi : i < 2147483648) :
    (best2_accumulator.init intFloatOps).update intFloatOps.lt intFloatOps.ne d i =
      ⟨d, intFloatOps.FLT_MAX, (i : Int), -1⟩ := by
  have hlt : intFloatOps.lt d intFloatOps.FLT_MAX = true := by
    show decide (d < intFloatOps.FLT_MAX) = true
    rw [decide_eq_true_eq]; exact hd
  simp only [best2_accumulator.update, best2_accumulator.init, hlt, if_true,
    toInt32_small i hi]

/-- Squared distances of byte descriptors are below `FLT_MAX`. -/
theorem l2_dist_sq_lt_FLT_MAX (a b : Nat → Int) (ha : ∀ c, c < 128 → 0 ≤ a c ∧ a c ≤ 255)
    (hb : ∀ c, c < 128 → 0 ≤ b c ∧ b c ≤ 255) :
    l2_dist_sq intFloatOps a b < intFloatOps.FLT_MAX := by
  have h := (l2_dist_sq_bounds a b ha hb).2
  show l2_dist_sq intFloatOps a b < 340282346638528859811704183484516925440
  omega

/-- For a query and features of integer components in `0 .. 255`, if the descriptors of
every feature are all at the same distance of the query, every assertion executed by
`match_one` holds and `match_one` returns in the build with assertions. -/
theorem match_one_asserts_hold (q : Nat → Int) (vb : List (List (Nat → Int)))
    (hq : ∀ c, c < 128 → 0 ≤ q c ∧ q c ≤ 255)
    (hvb : ∀ fb ∈ vb, ∀ d ∈ fb, ∀ c, c < 128 → 0 ≤ d c ∧ d c ≤ 255)
    (hne : vb ≠ []) (hfb : ∀ fb ∈ vb, fb ≠ []) (hlen : vb.length ≤ 2147483648)
    (hsame : ∀ fb ∈ vb, ∀ x ∈ fb, ∀ y ∈ fb,
      l2_dist_sq intFloatOps q x = l2_dist_sq intFloatOps q y) :
    best2_accumulator.ChecksOK intFloatOps (best2_accumulator.init intFloatOps)
      (match_one.pairs intFloatOps q vb 0) ∧
    ∃ b r, match_one.scan false intFloatOps q vb 0 (best2_accumulator.init intFloatOps) =
        .ok b ∧
      b.index0 ≠ -1 ∧ intFloatOps.ne b.distance1 intFloatOps.zero = true ∧
      match_one false intFloatOps q vb = .ok r := by
  have hpm := mem_pairs intFloatOps q vb 0
  have hb : ∀ p ∈ match_one.pairs intFloatOps q vb 0,
      0 ≤ p.1 ∧ p.1 ≤ 8323200 ∧ p.2 < vb.length := by
    intro p hp
    obtain ⟨n, fb, desc, h1, h2, h3⟩ := (hpm p).1 hp
    have hfm : fb ∈ vb := List.getElem?_mem h1
    have hd := l2_dist_sq_bounds q desc hq (hvb fb hfm desc h2)
    have hn : n < vb.length := (List.getElem?_eq_some.1 h1).1
    rw [h3]
    dsimp only
    omega
  have hpairs := map_toNat_cast (match_one.pairs intFloatOps q vb 0) (fun p hp => (hb p hp).1)
  have hxne : match_one.pairs intFloatOps q vb 0 ≠ [] := by
    obtain ⟨fb, rest, hv⟩ := List.exists_cons_of_ne_nil hne
    have hfm : fb ∈ vb := by rw [hv]; exact List.mem_cons_self _ _
    obtain ⟨desc, hdesc⟩ := List.exists_mem_of_ne_nil _ (hfb fb hfm)
    have : (l2_dist_sq intFloatOps q desc, 0 + 0) ∈ match_one.pairs intFloatOps q vb 0 :=
      (hpm _).2 ⟨0, fb, desc, by rw [hv]; exact List.getElem?_cons_zero, hdesc, rfl⟩
    exact List.ne_nil_of_mem this
  have hmem : ∀ r ∈ (match_one.pairs intFloatOps q vb 0).map (fun p => (p.1.toNat, p.2)),
      ∃ p ∈ match_one.pairs intFloatOps q vb 0, r = (p.1.toNat, p.2) := by
    intro r hr
    obtain ⟨p, hp, he⟩ := List.mem_map.1 hr
    exact ⟨p, hp, he.symm⟩
  have hxne2 : (match_one.pairs intFloatOps q vb 0).map (fun p => (p.1.toNat, p.2)) ≠ [] := by
    intro h0
    exact hxne (List.map_eq_nil_iff.1 h0)
  generalize (match_one.pairs intFloatOps q vb 0).map (fun p => (p.1.toNat, p.2)) = xs
    at hpairs hmem hxne2
  have hlt : ∀ r ∈ xs, r.1 < UINT_MAX := by
    intro r hr
    obtain ⟨p, hp, he⟩ := hmem r hr
    have := hb p hp
    rw [he]
    dsimp only
    have hU : UINT_MAX = 4294967295 := by decide
    omega
  have hidxv : ∀ r ∈ xs, r.2 < vb.length := by
    intro r hr
    obtain ⟨p, hp, he⟩ := hmem r hr
    have := hb p hp
    rw [he]
    exact this.2.2
  have hidx : ∀ r ∈ xs, r.2 < 2147483648 := fun r hr => by
    have := hidxv r hr
    omega
  have hcons : ∀ r ∈ xs, ∀ r' ∈ xs, r.2 = r'.2 → r.1 = r'.1 := by
    intro r hr r' hr' he
    obtain ⟨p, hp, h1⟩ := hmem r hr
    obtain ⟨p', hp', h1'⟩ := hmem r' hr'
    obtain ⟨n, fb, desc, g1, g2, g3⟩ := (hpm p).1 hp
    obtain ⟨n', fb', desc', g1', g2', g3'⟩ := (hpm p').1 hp'
    rw [h1, h1', g3, g3'] at he
    dsimp only at he
    have hn : n = n' := by omega
    subst hn
    rw [g1] at g1'
    have hfbe : fb = fb' := Option.some.inj g1'
    subst hfbe
    rw [h1, h1', g3, g3']
    dsimp only
    rw [hsame fb (List.getElem?_mem g1) desc g2 desc' g2']
  have hchecks : best2_accumulator.ChecksOK intFloatOps (best2_accumulator.init intFloatOps)
      (xs.map (fun p => ((p.1 : Int), p.2))) := by
    apply ChecksOK_of_initial_segments
    intro pre p post hx
    have hsub : ∀ r ∈ pre ++ [p], r ∈ xs := by
      intro r hr
      rw [hx]
      rcases List.mem_append.1 hr with h | h
      · exact List.mem_append_left _ h
      · rw [List.mem_singleton] at h
        rw [h]; exact List.mem_append_right _ (List.mem_cons_self _ _)
    rw [toBest2_feed _ (fun r hr => hlt r (hsub r hr))]
    exact toBest2_feed_asserts _ (by simp) (fun r hr => hlt r (hsub r hr))
      (fun r hr => hidx r (hsub r hr))
      (fun r hr r' hr' => hcons r (hsub r hr) r' (hsub r' hr'))
  rw [← hpairs] at hchecks
  refine ⟨hchecks, ?_⟩
  have hscan := scan_eq_feed false intFloatOps q vb 0
    (best2_accumulator.init intFloatOps) (Or.inr hchecks)
  rw [hpairs, toBest2_feed xs hlt] at hscan
  obtain ⟨a1, a2⟩ := toBest2_feed_asserts xs hxne2 hlt hidx hcons
  obtain ⟨c1, _, _⟩ := feed_init_char xs hlt hxne2
  have g0 := hidx _ c1
  have g1 := hlt _ c1
  dsimp only at g0 g1
  generalize init.feed xs = a at hscan a1 a2 g0 g1
  obtain ⟨a0, a1', i0, i1⟩ := a
  dsimp only at g0 g1
  have e0 : (toBest2 ⟨a0, a1', i0, i1⟩).distance0 = (a0 : Int) := by
    simp only [toBest2]
    rw [if_neg (by omega)]
  have e2 : (toBest2 ⟨a0, a1', i0, i1⟩).index0 = (i0 : Int) := toInt32_small i0 g0
  rw [e0] at a1
  generalize toBest2 ⟨a0, a1', i0, i1⟩ = b at hscan a1 a2 e2
  have hi0 : b.index0 ≠ -1 := by rw [e2]; exact natCast_ne_neg_one i0
  have hd1 : intFloatOps.ne b.distance1 intFloatOps.zero = true := by
    have hl : (a0 : Int) < b.distance1 := by
      have : decide ((a0 : Int) < b.distance1) = true := a1
      rwa [decide_eq_true_eq] at this
    show decide (b.distance1 ≠ 0) = true
    rw [decide_eq_true_eq]
    have := Int.ofNat_nonneg a0
    omega
  have hfin : ∃ r, match_one.finish false intFloatOps b = .ok r := by
    unfold match_one.finish
    simp only [hi0, hd1, decide_False, Bool.and_false, Bool.not_true, Bool.false_eq_true,
      if_false]
    split_ifs <;> exact ⟨_, rfl⟩
  obtain ⟨r, hr⟩ := hfin
  refine ⟨b, r, hscan, hi0, hd1, ?_⟩
  rw [match_one, hscan]
  exact hr

/-- C31: for a query and features of integer components in `0 .. 255`, a non-empty list
`vb` of fewer than `2^31` features with at least one descriptor each.  When the descriptors
of every feature are all at the same distance of the query (in particular when every
feature has one descriptor), every assertion executed by `match_one` holds: after each
`update`, `distance[0] < distance[1]` and `index[0] != index[1]`, and at the end
`index[0] != -1` and `distance[1] != 0`, so that `match_one` returns.  When the first
feature has two descriptors at different distances of the query, the second `update`
leaves the index of that feature in both slots and the assertion `index[0] != index[1]`
fails. -/
theorem C31_match_one_assertions (q : Nat → Int) (vb : List (List (Nat → Int)))
    (hq : ∀ c, c < 128 → 0 ≤ q c ∧ q c ≤ 255)
    (hvb : ∀ fb ∈ vb, ∀ d ∈ fb, ∀ c, c < 128 → 0 ≤ d c ∧ d c ≤ 255)
    (hne : vb ≠ []) (hfb : ∀ fb ∈ vb, fb ≠ []) (hlen : vb.length ≤ 2147483648) :
    ((∀ fb ∈ vb, ∀ x ∈ fb, ∀ y ∈ fb,
        l2_dist_sq intFloatOps q x = l2_dist_sq intFloatOps q y) →
      best2_accumulator.ChecksOK intFloatOps (best2_accumulator.init intFloatOps)
        (match_one.pairs intFloatOps q vb 0) ∧
      ∃ b r, match_one.scan false intFloatOps q vb 0 (best2_accumulator.init intFloatOps) =
          .ok b ∧
        b.index0 ≠ -1 ∧ intFloatOps.ne b.distance1 intFloatOps.zero = true ∧
        match_one false intFloatOps q vb = .ok r) ∧
    (∀ x y rest more, vb = (x :: y :: rest) :: more →
      l2_dist_sq intFloatOps q x ≠ l2_dist_sq intFloatOps q y →
      (((best2_accumulator.init intFloatOps).update intFloatOps.lt intFloatOps.ne
          (l2_dist_sq intFloatOps q x) 0).update intFloatOps.lt intFloatOps.ne
          (l2_dist_sq intFloatOps q y) 0).index0 =
        (((best2_accumulator.init intFloatOps).update intFloatOps.lt intFloatOps.ne
          (l2_dist_sq intFloatOps q x) 0).update intFloatOps.lt intFloatOps.ne
          (l2_dist_sq intFloatOps q y) 0).index1 ∧
      match_one false intFloatOps q vb = .error .assertion) := by
  constructor
  · intro hsame
    exact match_one_asserts_hold q vb hq hvb hne hfb hlen hsame
  · intro x y rest more hv hxy
    have hfm : (x :: y :: rest) ∈ vb := by rw [hv]; exact List.mem_cons_self _ _
    have hx := hvb _ hfm x (List.mem_cons_self _ _)
    have hy := hvb _ hfm y (List.mem_cons_of_mem _ (List.mem_cons_self _ _))
    have hdx := l2_dist_sq_lt_FLT_MAX q x hq hx
    have hdy := l2_dist_sq_lt_FLT_MAX q y hq hy
    have h1 := update_first (l2_dist_sq intFloatOps q x) 0 hdx (by decide)
    have h1c := updateChecked_first (l2_dist_sq intFloatOps q x) 0 hdx (by decide)
    obtain ⟨u0, u1, u2⟩ := updateChecked_same_index (l2_dist_sq intFloatOps q x)
      (l2_dist_sq intFloatOps q y) 0 (fun h => hxy h.symm) hdy (by decide)
    refine ⟨?_, ?_⟩
    · rw [h1, u0, u1]
    · rw [hv, match_one, match_one.scan, match_one.scanFeature, h1c]
      dsimp only
      rw [match_one.scanFeature, u2]

set_option maxRecDepth 100000 in
/-- Witness for C31: with the query 0, the features 3 and 8 of one descriptor each pass
every assertion, and the feature with the two orientations 4 and 3 fails the assertion
`index[0] != index[1]`. -/
theorem C31_match_one_assertions_witness :
    (∃ b r, match_one.scan false intFloatOps (exDesc 0) [[exDesc 3], [exDesc 8]] 0
          (best2_accumulator.init intFloatOps) = .ok b ∧
        b.index0 ≠ -1 ∧ intFloatOps.ne b.distance1 intFloatOps.zero = true ∧
        match_one false intFloatOps (exDesc 0) [[exDesc 3], [exDesc 8]] = .ok r) ∧
    match_one false intFloatOps (exDesc 0) [[exDesc 4, exDesc 3]] = .error .assertion :=
  ⟨((C31_match_one_assertions (exDesc 0) [[exDesc 3], [exDesc 8]]
      (by intro c _; simp only [exDesc]; split_ifs <;> omega)
      (by
        intro fb hfb d hd c _
        simp only [List.mem_cons, List.mem_singleton, List.not_mem_nil, or_false] at hfb
        rcases hfb with h | h <;> rw [h] at hd <;>
          simp only [List.mem_singleton] at hd <;> rw [hd] <;> simp only [exDesc] <;>
          split_ifs <;> omega)
      (by simp) (by
        intro fb hfb
        simp only [List.mem_cons, List.mem_singleton, List.not_mem_nil, or_false] at hfb
        rcases hfb with h | h <;> rw [h] <;> simp)
      (by decide)).1
      (by
        intro fb hfb x hx y hy
        simp only [List.mem_cons, List.mem_singleton, List.not_mem_nil, or_false] at hfb
        rcases hfb with h | h <;> rw [h] at hx hy <;>
          simp only [List.mem_singleton] at hx hy <;> rw [hx, hy])).2,
   ((C31_match_one_assertions (exDesc 0) [[exDesc 4, exDesc 3]]
      (by intro c _; simp only [exDesc]; split_ifs <;> omega)
      (by
        intro fb hfb d hd c _
        simp only [List.mem_singleton] at hfb
        rw [hfb] at hd
        simp only [List.mem_cons, List.mem_singleton, List.not_mem_nil, or_false] at hd
        rcases hd with h | h <;> rw [h] <;> simp only [exDesc] <;> split_ifs <;> omega)
      (by simp) (by
        intro fb hfb
        simp only [List.mem_singleton] at hfb
        rw [hfb]; simp)
      (by decide)).2 (exDesc 4) (exDesc 3) [] [] rfl (by decide)).2⟩

/-! ### C32: `KDTree::List` of `KDTree.h` -/

set_option maxRecDepth 100000 in
/-- C32: `KDTree::List(node)` of `KDTree.h` raises the `logic_error` "KDTree::List: node
is not a leaf" exactly when `node.leaf` is set, that is when the node IS a leaf, and never
returns the range of a leaf; it returns the pair `(_list + node.left, _list + node.right)`
for a node that is not a leaf (both positions being within `_list`).  On the example tree
the leaf with the range `[1, 18)` raises the error and the node `(1, 2)` without the leaf
bit gets the pair `(1, 2)`. -/
theorem C32_List_raises_on_leaves (t : KDTree) (node : KDTree.Node) :
    (t.List node = .error (.logic_error "KDTree::List: node is not a leaf") ↔
      node.leaf = true) ∧
    ((∃ r, t.List node = .ok r) ↔
      node.leaf = false ∧ node.left ≤ t.list.length ∧ node.right ≤ t.list.length) ∧
    (∀ r, t.List node = .ok r → node.leaf = false ∧ r = (node.left, node.right)) ∧
    exTree.List ⟨1, 18, 0, 0, true⟩ =
      .error (.logic_error "KDTree::List: node is not a leaf") ∧
    exTree.List ⟨1, 2, 0, 3, false⟩ = .ok (1, 2) := by
  refine ⟨?_, ?_, ?_, by rfl, by rfl⟩
  · unfold KDTree.List
    cases node.leaf <;> simp
    split_ifs <;> simp
  · unfold KDTree.List
    cases node.leaf <;> simp
    split_ifs with c
    · simp [c.1, c.2]
    · simp
      intro h
      by_contra hc
      exact c ⟨h, by omega⟩
  · intro r h
    unfold KDTree.List at h
    cases hl : node.leaf
    · rw [hl] at h
      simp only [Bool.false_eq_true, if_false] at h
      split_ifs at h
      simp only [Except.ok.injEq] at h
      exact ⟨rfl, h.symm⟩
    · rw [hl] at h
      simp at h

end popsift
